import Mathlib

/-!
# Bottom-up merge sort of `ecma-builtin-helpers-sort.c`

A shallow embedding of the two functions of
`jerry-core/ecma/builtin-objects/ecma-builtin-helpers-sort.c`:

* `ecma_builtin_helper_array_merge_sort_bottom_up` (the merge step, lines 29-69),
* `ecma_builtin_helper_array_merge_sort_helper` (the driver, lines 77-153).

Conventions of the embedding.

* A buffer of `ecma_value_t` is a `List V`; `V` is the opaque value type.  A read or
  write outside the buffer is the fault `Fault.out_of_bounds`.
* `uint32_t` variables are `Nat`; every addition and multiplication the C code
  performs on them is reduced modulo `2 ^ 32`.
* Loops are structural recursions on a fuel argument: a loop that is handed `fuel`
  may run at most `fuel - 1` iterations, otherwise the fault is `Fault.out_of_fuel`.
* The callback `sort_cb` is foreign code.  It is modelled as a function of its two
  value arguments and of a state `σ` of the outside world, returning the comparison
  outcome (`none` when `ECMA_IS_VALUE_ERROR` holds of the returned value, `some c`
  for the number `c`) and the new state.  The argument `compare_func` is only handed
  through to `sort_cb` by both C functions, so it is part of the modelled callback.
  The merge step inspects a returned number only through the test `c <= 0`, so the
  number is an `Int`; a number for which the test is false (a positive one, or a NaN
  of the C code) is any positive `Int`.
* The callback does not write to the two buffers (section 5 of the spec leaves that to
  the caller, which sorts a private copy).
-/

namespace Jerry

/-- Number of values of a `uint32_t`. -/
def UINT32_RANGE : Nat := 4294967296

/-- Ways in which the embedded code can go wrong. -/
inductive Fault where
  | out_of_bounds
  | out_of_fuel
  | assert_failed
  deriving DecidableEq, Repr

/-- The two return values of the functions: `ECMA_VALUE_EMPTY` and `ECMA_VALUE_ERROR`. -/
inductive ecma_status where
  | ECMA_VALUE_EMPTY
  | ECMA_VALUE_ERROR
  deriving DecidableEq, Repr

/-- Modelled from the spec: the macros `JMEM_DEFINE_LOCAL_ARRAY` and
`JMEM_FINALIZE_LOCAL_ARRAY` are not part of the source file.  Following the spec
(the scratch array is a second sequence of values of the same length, allocated once
for the duration of the sort and released by the driver), the driver works with two
different allocations: the caller's array (`base_array_p`) and the local array. -/
inductive Ptr where
  | base
  | scratch
  deriving DecidableEq, Repr

/-- Contents of the two allocations. -/
structure Heap (V : Type) where
  base : List V
  scratch : List V
  deriving Repr

/-- The buffer a pointer points to. -/
def Heap.read {V : Type} (h : Heap V) : Ptr → List V
  | .base => h.base
  | .scratch => h.scratch

/-- Replace the buffer a pointer points to. -/
def Heap.write {V : Type} (h : Heap V) : Ptr → List V → Heap V
  | .base, l => { h with base := l }
  | .scratch, l => { h with scratch := l }

section

variable {V σ : Type}

/-- The `for` loop of `ecma_builtin_helper_array_merge_sort_bottom_up` (lines 41-66),
entered with loop variable `k` and cursors `i`, `j`.  The result is `ret_value`, the
output buffer and the state of the callback. -/
def merge_loop (sort_cb : V → V → σ → Option Int × σ) (array_a_p : List V)
    (iRight iEnd : Nat) :
    Nat → Nat → Nat → Nat → List V → σ → Except Fault (ecma_status × List V × σ)
  | 0, _, _, _, _, _ => .error .out_of_fuel
  | fuel + 1, k, i, j, array_b_p, s =>
    if k < iEnd then
      -- line 43: compare_value = 0; lines 45-53: replaced by the callback's result
      let compare_value : Except Fault (Option Int × σ) :=
        if j < iEnd then
          match array_a_p[i]?, array_a_p[j]? with
          | some x, some y => .ok (sort_cb x y s)
          | _, _ => .error .out_of_bounds
        else .ok (some 0, s)
      match compare_value with
      | .error f => .error f
      | .ok (none, s1) => .ok (.ECMA_VALUE_ERROR, array_b_p, s1)
      | .ok (some c, s1) =>
        if i < iRight ∧ c ≤ 0 then
          match array_a_p[i]? with
          | some x =>
            if k < array_b_p.length then
              merge_loop sort_cb array_a_p iRight iEnd fuel ((k + 1) % UINT32_RANGE)
                ((i + 1) % UINT32_RANGE) j (array_b_p.set k x) s1
            else .error .out_of_bounds
          | none => .error .out_of_bounds
        else
          match array_a_p[j]? with
          | some y =>
            if k < array_b_p.length then
              merge_loop sort_cb array_a_p iRight iEnd fuel ((k + 1) % UINT32_RANGE)
                i ((j + 1) % UINT32_RANGE) (array_b_p.set k y) s1
            else .error .out_of_bounds
          | none => .error .out_of_bounds
    else .ok (.ECMA_VALUE_EMPTY, array_b_p, s)

/-- The merge step, lines 29-69: `i = iLeft, j = iRight`, then the loop from `k = iLeft`. -/
def ecma_builtin_helper_array_merge_sort_bottom_up (sort_cb : V → V → σ → Option Int × σ)
    (fuel : Nat) (array_a_p : List V) (iLeft iRight iEnd : Nat) (array_b_p : List V) (s : σ) :
    Except Fault (ecma_status × List V × σ) :=
  merge_loop sort_cb array_a_p iRight iEnd fuel iLeft iLeft iRight array_b_p s

/-- The copying loops of the driver (lines 89-93 and 142-146):
`while (index < length) { dst[index] = src[index]; index++; }`. -/
def copy_loop (src : List V) (length : Nat) : Nat → Nat → List V → Except Fault (Nat × List V)
  | 0, _, _ => .error .out_of_fuel
  | fuel + 1, index, dst =>
    if index < length then
      match src[index]? with
      | some v =>
        if index < dst.length then
          copy_loop src length fuel ((index + 1) % UINT32_RANGE) (dst.set index v)
        else .error .out_of_bounds
      | none => .error .out_of_bounds
    else .ok (index, dst)

/-- The inner `for` loop of the driver (lines 102-126), entered with loop variable `i`.
`src` is the buffer `array_p` points to, `dst` the one `array_copy_p` points to.
The result is `ret_value`, the value of `w` on leaving the loop (`length` after the
`break`), the destination buffer and the state of the callback. -/
def inner_loop (sort_cb : V → V → σ → Option Int × σ) (F : Nat) (src : List V)
    (length w : Nat) :
    Nat → Nat → ecma_status → List V → σ → Except Fault (ecma_status × Nat × List V × σ)
  | 0, _, _, _, _ => .error .out_of_fuel
  | fuel + 1, i, ret_value, dst, s =>
    if i < length then
      let r0 := (i + w) % UINT32_RANGE
      let r := if r0 > length then length else r0
      let e0 := (i + (2 * w) % UINT32_RANGE) % UINT32_RANGE
      let e := if e0 > length then length else e0
      match ecma_builtin_helper_array_merge_sort_bottom_up sort_cb F src i r e dst s with
      | .error f => .error f
      | .ok (.ECMA_VALUE_ERROR, dst1, s1) => .ok (.ECMA_VALUE_ERROR, length, dst1, s1)
      | .ok (.ECMA_VALUE_EMPTY, dst1, s1) =>
        inner_loop sort_cb F src length w fuel ((i + (2 * w) % UINT32_RANGE) % UINT32_RANGE)
          .ECMA_VALUE_EMPTY dst1 s1
    else .ok (ret_value, w, dst, s)

/-- State of the driver between two passes of the outer loop.  `passes` is a ghost
counter of the executed outer iterations. -/
structure DriverState (V σ : Type) where
  w : Nat
  array_p : Ptr
  array_copy_p : Ptr
  heap : Heap V
  ret_value : ecma_status
  cb_state : σ
  passes : Nat

/-- The outer `for` loop of the driver (lines 100-132). -/
def outer_loop (sort_cb : V → V → σ → Option Int × σ) (F : Nat) (length : Nat) :
    Nat → DriverState V σ → Except Fault (DriverState V σ)
  | 0, _ => .error .out_of_fuel
  | fuel + 1, st =>
    if st.w < length then
      match inner_loop sort_cb F (st.heap.read st.array_p) length st.w F 0 st.ret_value
          (st.heap.read st.array_copy_p) st.cb_state with
      | .error f => .error f
      | .ok (ret_value, w1, dst1, s1) =>
        -- lines 129-131: swap arrays; then the increment `w = 2 * w`
        outer_loop sort_cb F length fuel
          { w := (2 * w1) % UINT32_RANGE
            array_p := st.array_copy_p
            array_copy_p := st.array_p
            heap := st.heap.write st.array_copy_p dst1
            ret_value := ret_value
            cb_state := s1
            passes := st.passes + 1 }
    else .ok st

/-- What the caller observes when the driver returns.  `finalized` lists the pointers
handed to `JMEM_FINALIZE_LOCAL_ARRAY`; `passes` and `copied_back` are ghost
information: the number of executed outer iterations and whether the branch of
lines 135-148 was taken. -/
structure SortResult (V σ : Type) where
  ret_value : ecma_status
  array : List V
  finalized : List Ptr
  cb_state : σ
  passes : Nat
  copied_back : Bool

/-- The driver, lines 77-153.  `array` is the caller's buffer and `length` the length
argument; `junk` gives the unspecified initial contents of the `length` cells that
`JMEM_DEFINE_LOCAL_ARRAY` provides. -/
def ecma_builtin_helper_array_merge_sort_helper (sort_cb : V → V → σ → Option Int × σ)
    (fuel : Nat) (array : List V) (length : Nat) (junk : Nat → V) (s : σ) :
    Except Fault (SortResult V σ) :=
  match copy_loop array length fuel 0 ((List.range length).map junk) with
  | .error f => .error f
  | .ok (index, copy) =>
    if index ≠ length then .error .assert_failed
    else
      match outer_loop sort_cb fuel length fuel
          { w := 1, array_p := .base, array_copy_p := .scratch,
            heap := { base := array, scratch := copy },
            ret_value := .ECMA_VALUE_EMPTY, cb_state := s, passes := 0 } with
      | .error f => .error f
      | .ok st =>
        if st.array_copy_p = .base then
          -- lines 138-140: swap, then copy `array_copy_p` into `array_p`
          match copy_loop (st.heap.read st.array_p) length fuel 0
              (st.heap.read st.array_copy_p) with
          | .error f => .error f
          | .ok (index1, dst) =>
            if index1 ≠ length then .error .assert_failed
            else
              .ok { ret_value := st.ret_value
                    array := (st.heap.write st.array_copy_p dst).base
                    finalized := [st.array_p]
                    cb_state := st.cb_state
                    passes := st.passes
                    copied_back := true }
        else
          .ok { ret_value := st.ret_value
                array := st.heap.base
                finalized := [st.array_copy_p]
                cb_state := st.cb_state
                passes := st.passes
                copied_back := false }

/-- A callback that records every invocation: its state carries, next to the state of
the wrapped callback, the list of the invocations made so far, each with its two
arguments and its outcome.  The wrapper answers as the wrapped callback does; the
theorem `logged_transparent` shows that it does not change a run of the driver. -/
def logged (sort_cb : V → V → σ → Option Int × σ) :
    V → V → σ × List (V × V × Option Int) → Option Int × (σ × List (V × V × Option Int))
  | a, b, (s, log) => ((sort_cb a b s).1, ((sort_cb a b s).2, log ++ [(a, b, (sort_cb a b s).1)]))

/-- A callback without state and without failure, given by a comparison function. -/
def pure_cb (compare : V → V → Int) : V → V → Unit → Option Int × Unit :=
  fun a b _ => (some (compare a b), ())

/-- A callback that fails on its `n`-th invocation (counted from 1) and otherwise
answers with `compare`; the state is the number of invocations made so far. -/
def failing_at (n : Nat) (compare : V → V → Int) : V → V → Nat → Option Int × Nat :=
  fun a b calls => (if calls + 1 = n then none else some (compare a b), calls + 1)

/-! ## Functions on lists

The loops of the two C functions, seen on the lists they work on.  The theorems of the
next part show that the embedded code computes these functions; the properties of the
code are then proved on them.
-/

/-- The part `[lo, hi)` of a buffer. -/
def seg (a : List V) (lo hi : Nat) : List V := (a.drop lo).take (hi - lo)

/-- The merge loop on the two runs that are still to be consumed.  `p` is the element
`array_a_p[iRight]`, which the loop hands to the callback as first argument once the
first run is exhausted.  The result is `ret_value`, the elements written and the state
of the callback. -/
def mergeL (sort_cb : V → V → σ → Option Int × σ) (p : V) :
    List V → List V → σ → ecma_status × List V × σ
  | xs, [], s => (.ECMA_VALUE_EMPTY, xs, s)
  | [], y :: ys, s =>
    match sort_cb p y s with
    | (none, s1) => (.ECMA_VALUE_ERROR, [], s1)
    | (some _, s1) =>
      ((mergeL sort_cb p [] ys s1).1, y :: (mergeL sort_cb p [] ys s1).2.1,
        (mergeL sort_cb p [] ys s1).2.2)
  | x :: xs, y :: ys, s =>
    match sort_cb x y s with
    | (none, s1) => (.ECMA_VALUE_ERROR, [], s1)
    | (some c, s1) =>
      if c ≤ 0 then
        ((mergeL sort_cb p xs (y :: ys) s1).1, x :: (mergeL sort_cb p xs (y :: ys) s1).2.1,
          (mergeL sort_cb p xs (y :: ys) s1).2.2)
      else
        ((mergeL sort_cb p (x :: xs) ys s1).1, y :: (mergeL sort_cb p (x :: xs) ys s1).2.1,
          (mergeL sort_cb p (x :: xs) ys s1).2.2)
termination_by xs ys => xs.length + ys.length

/-- The merge step on two runs: with an empty second run nothing is compared,
otherwise `mergeL` with the first element of the second run as `array_a_p[iRight]`. -/
def mergeRuns (sort_cb : V → V → σ → Option Int × σ) (xs ys : List V) (s : σ) :
    ecma_status × List V × σ :=
  match ys with
  | [] => (.ECMA_VALUE_EMPTY, xs, s)
  | y :: _ => mergeL sort_cb y xs ys s

/-- Overwrite `dst` from position `k` on with the elements `wr`. -/
def splice (dst : List V) (k : Nat) (wr : List V) : List V :=
  dst.take k ++ wr ++ dst.drop (k + wr.length)

/-- One pass of the driver's inner loop over the part of the source buffer from the
current block start on: merge the first two runs of width `w`, go on behind them. -/
def passL (sort_cb : V → V → σ → Option Int × σ) (w : Nat) (src : List V) (s : σ) :
    ecma_status × List V × σ :=
  if _h : 0 < w ∧ 0 < src.length then
    match mergeRuns sort_cb (src.take w) ((src.drop w).take w) s with
    | (.ECMA_VALUE_ERROR, wr, s1) => (.ECMA_VALUE_ERROR, wr, s1)
    | (.ECMA_VALUE_EMPTY, wr, s1) =>
      ((passL sort_cb w (src.drop (2 * w)) s1).1,
        wr ++ (passL sort_cb w (src.drop (2 * w)) s1).2.1,
        (passL sort_cb w (src.drop (2 * w)) s1).2.2)
  else (.ECMA_VALUE_EMPTY, [], s)
termination_by src.length
decreasing_by
  simp only [List.length_drop]
  omega

/-- The driver between two passes, seen on lists: `src` is the buffer `array_p` points
to, `dst` the buffer `array_copy_p` points to. -/
structure PassState (V σ : Type) where
  src : List V
  dst : List V
  ret_value : ecma_status
  cb_state : σ
  passes : Nat

/-- The outer loop on lists: run `passL` over the source, write its output over the
destination, exchange the two buffers; stop after a failed pass. -/
def sortL (sort_cb : V → V → σ → Option Int × σ) (n : Nat) (w : Nat) (st : PassState V σ) :
    PassState V σ :=
  if _h : 0 < w ∧ w < n then
    if (passL sort_cb w st.src st.cb_state).1 = .ECMA_VALUE_ERROR then
      { src := splice st.dst 0 (passL sort_cb w st.src st.cb_state).2.1
        dst := st.src
        ret_value := .ECMA_VALUE_ERROR
        cb_state := (passL sort_cb w st.src st.cb_state).2.2
        passes := st.passes + 1 }
    else
      sortL sort_cb n (2 * w)
        { src := splice st.dst 0 (passL sort_cb w st.src st.cb_state).2.1
          dst := st.src
          ret_value := .ECMA_VALUE_EMPTY
          cb_state := (passL sort_cb w st.src st.cb_state).2.2
          passes := st.passes + 1 }
  else st
termination_by n - w
decreasing_by omega

/-- The list view of a driver state. -/
def DriverState.abs (st : DriverState V σ) : PassState V σ :=
  { src := st.heap.read st.array_p
    dst := st.heap.read st.array_copy_p
    ret_value := st.ret_value
    cb_state := st.cb_state
    passes := st.passes }

/-- The initial list view handed to the outer loop by the driver. -/
def initL (array : List V) (s : σ) : PassState V σ :=
  { src := array, dst := array, ret_value := .ECMA_VALUE_EMPTY, cb_state := s, passes := 0 }

/-- Both buffers keep the length `n` and hold only values of `arr`. -/
def BuffersFrom (n : Nat) (arr : List V) (st : PassState V σ) : Prop :=
  st.src.length = n ∧ st.dst.length = n ∧ (∀ z ∈ st.src, z ∈ arr) ∧ (∀ z ∈ st.dst, z ∈ arr)

/-- The test of line 55 on the number the callback returned: `a` goes before `b`. -/
def le_of (compare : V → V → Int) (a b : V) : Bool := decide (compare a b ≤ 0)

/-- `x` and `y` compare equal: each of them may go before the other. -/
def equal_of (compare : V → V → Int) (x y : V) : Bool :=
  le_of compare x y && le_of compare y x

/-- The callback never fails and its outcome is the number `compare a b`, whatever the
state of the outside world. -/
def Answers (sort_cb : V → V → σ → Option Int × σ) (compare : V → V → Int) : Prop :=
  ∀ a b s, (sort_cb a b s).1 = some (compare a b)

/-- Every block `[i * w, (i + 1) * w)` of the buffer is sorted. -/
def BlockSorted (le : V → V → Bool) (w : Nat) (l : List V) : Prop :=
  ∀ i, ((l.drop (i * w)).take w).Pairwise (fun a b => le a b = true)

/-- No logged invocation failed. -/
def CleanLog (log : List (V × V × Option Int)) : Prop := ∀ e ∈ log, e.2.2 ≠ none

/-- The invocations `log` made by a computation that returned `ret`: either it
succeeded and no invocation failed, or it failed and exactly the last invocation
failed. -/
def TraceOK (ret : ecma_status) (log : List (V × V × Option Int)) : Prop :=
  (ret = .ECMA_VALUE_EMPTY ∧ CleanLog log) ∨
  (ret = .ECMA_VALUE_ERROR ∧ ∃ pre a b, log = pre ++ [(a, b, none)] ∧ CleanLog pre)

/-- Numeric ascending comparison of natural numbers. -/
def natCompare (a b : Nat) : Int := (a : Int) - (b : Int)

/-- Numeric ascending comparison of the first components; the second component tells
apart values that compare equal. -/
def keyCompare (a b : Nat × Nat) : Int := (a.1 : Int) - (b.1 : Int)

/-- A comparison that is neither total nor transitive: `a` goes before `b` only when
`a = b + 1`. -/
def oddCompare (a b : Nat) : Int := if a = b + 1 then -1 else 1

/-- The callback that fails on every invocation. -/
def always_failing : V → V → σ → Option Int × σ := fun _ _ s => (none, s)

/-! ## The outer loop, pass by pass

The body of the outer loop and the states in which the loop evaluates its condition,
used to state what holds at the start of every pass.
-/

/-- One iteration of the outer loop (lines 102-131), entered with `w < length`: the
inner loop, the exchange of the two pointers (lines 129-131) and the increment
`w = 2 * w` of line 100. -/
def outer_body (sort_cb : V → V → σ → Option Int × σ) (F : Nat) (length : Nat)
    (st : DriverState V σ) : Except Fault (DriverState V σ) :=
  match inner_loop sort_cb F (st.heap.read st.array_p) length st.w F 0 st.ret_value
      (st.heap.read st.array_copy_p) st.cb_state with
  | .error f => .error f
  | .ok (ret_value, w1, dst1, s1) =>
    .ok { w := (2 * w1) % UINT32_RANGE
          array_p := st.array_copy_p
          array_copy_p := st.array_p
          heap := st.heap.write st.array_copy_p dst1
          ret_value := ret_value
          cb_state := s1
          passes := st.passes + 1 }

/-- The outer loop stopped after at most `m` iterations: the state in which the loop
evaluates its condition `w < length` for the `m + 1`-th time, or the state in which
the loop was left if that happened earlier. -/
def loop_head (sort_cb : V → V → σ → Option Int × σ) (F : Nat) (length : Nat) :
    Nat → DriverState V σ → Except Fault (DriverState V σ)
  | 0, st => .ok st
  | m + 1, st =>
    if st.w < length then
      match outer_body sort_cb F length st with
      | .error f => .error f
      | .ok st1 => loop_head sort_cb F length m st1
    else .ok st

/-- The state in which the driver enters the outer loop (line 100): the scratch buffer
holds the copy of the array made by lines 89-93. -/
def initD (array : List V) (s : σ) : DriverState V σ :=
  { w := 1, array_p := .base, array_copy_p := .scratch,
    heap := { base := array, scratch := array },
    ret_value := .ECMA_VALUE_EMPTY, cb_state := s, passes := 0 }

/-- What holds of the pointers, the buffers and `w` whenever the outer loop evaluates
its condition, for every callback. -/
def HeadInv (n : Nat) (st : DriverState V σ) : Prop :=
  st.array_p = (if st.passes % 2 = 0 then .base else .scratch) ∧
  st.array_copy_p = (if st.passes % 2 = 0 then .scratch else .base) ∧
  (st.heap.read st.array_p).length = n ∧ (st.heap.read st.array_copy_p).length = n ∧
  ((st.ret_value = .ECMA_VALUE_EMPTY ∧ st.w = 2 ^ st.passes) ∨
    (st.ret_value = .ECMA_VALUE_ERROR ∧ st.w = 2 * n)) ∧
  (st.passes = 0 ∨ 2 ^ (st.passes - 1) < n)

/-! ## Theorems -/

/-! ### Buffers and their parts -/

theorem seg_nil_of_le (a : List V) {lo hi : Nat} (h : hi ≤ lo) : seg a lo hi = [] := by
  simp [seg, Nat.sub_eq_zero_of_le h]

theorem seg_cons (a : List V) {lo hi : Nat} {x : V} (h : lo < hi) (hx : a[lo]? = some x) :
    seg a lo hi = x :: seg a (lo + 1) hi := by
  unfold seg
  obtain ⟨h1, rfl⟩ := List.getElem?_eq_some_iff.mp hx
  rw [List.drop_eq_getElem_cons h1]
  have : hi - lo = (hi - (lo + 1)) + 1 := by omega
  rw [this, List.take_succ_cons]

theorem length_seg (a : List V) {lo hi : Nat} (ha : hi ≤ a.length) :
    (seg a lo hi).length = hi - lo := by
  simp [seg]; omega

theorem take_set_succ (b : List V) (k : Nat) (v : V) (h : k < b.length) :
    (b.set k v).take (k + 1) = b.take k ++ [v] := by
  rw [List.set_eq_take_append_cons_drop, if_pos h]
  have hl : (b.take k).length = k := by simp; omega
  rw [List.take_append_eq_append_take, hl]
  simp [List.take_of_length_le, hl]

theorem drop_set_succ (b : List V) (k m : Nat) (v : V) (h : k < b.length) :
    (b.set k v).drop (k + 1 + m) = b.drop (k + 1 + m) := by
  rw [List.set_eq_take_append_cons_drop, if_pos h]
  have hl : (b.take k).length = k := by simp; omega
  rw [List.drop_append_eq_append_drop, hl]
  have h1 : List.drop (k + 1 + m) (List.take k b) = [] := by
    apply List.drop_of_length_le; omega
  have h2 : k + 1 + m - k = m + 1 := by omega
  rw [h1, h2]
  simp [List.drop_drop]

/-- Writing `v` at `k` and then the list `wr` behind it. -/
theorem written_step (b : List V) (k : Nat) (v : V) (wr : List V) (h : k < b.length) :
    (b.set k v).take (k + 1) ++ wr ++ (b.set k v).drop (k + 1 + wr.length) =
      b.take k ++ (v :: wr) ++ b.drop (k + (v :: wr).length) := by
  rw [take_set_succ b k v h, drop_set_succ b k _ v h]
  simp [Nat.add_assoc, Nat.add_comm 1]

/-! ### The loops of the C code compute the functions on lists -/

theorem merge_loop_eq (sort_cb : V → V → σ → Option Int × σ) (a : List V)
    (iRight iEnd : Nat) (p : V) (hp : iRight < iEnd → a[iRight]? = some p)
    (hEa : iEnd ≤ a.length) (hU : iEnd < UINT32_RANGE) :
    ∀ (fuel k i j : Nat) (b : List V) (s : σ),
      i ≤ iRight → iRight ≤ j → j ≤ iEnd → iEnd ≤ b.length →
      k + (iRight - i) + (iEnd - j) = iEnd → iEnd - k < fuel →
      merge_loop sort_cb a iRight iEnd fuel k i j b s =
        .ok ((mergeL sort_cb p (seg a i iRight) (seg a j iEnd) s).1,
          b.take k ++ (mergeL sort_cb p (seg a i iRight) (seg a j iEnd) s).2.1 ++
            b.drop (k + (mergeL sort_cb p (seg a i iRight) (seg a j iEnd) s).2.1.length),
          (mergeL sort_cb p (seg a i iRight) (seg a j iEnd) s).2.2) := by
  intro fuel
  induction fuel with
  | zero => intro k i j b s _ _ _ _ _ hf; omega
  | succ fuel ih =>
    intro k i j b s hi hj hjE hb hk hf
    unfold merge_loop
    by_cases hkE : k < iEnd
    · have hkb : k < b.length := by omega
      have hk1 : (k + 1) % UINT32_RANGE = k + 1 := Nat.mod_eq_of_lt (by omega)
      rw [if_pos hkE]
      by_cases hjlt : j < iEnd
      · obtain ⟨y, hy⟩ : ∃ y, a[j]? = some y :=
          ⟨a.get ⟨j, by omega⟩, List.getElem?_eq_getElem _⟩
        have hj1 : (j + 1) % UINT32_RANGE = j + 1 := Nat.mod_eq_of_lt (by omega)
        rw [seg_cons a hjlt hy]
        by_cases hilt : i < iRight
        · obtain ⟨x, hx⟩ : ∃ x, a[i]? = some x :=
            ⟨a.get ⟨i, by omega⟩, List.getElem?_eq_getElem _⟩
          have hi1 : (i + 1) % UINT32_RANGE = i + 1 := Nat.mod_eq_of_lt (by omega)
          rw [seg_cons a hilt hx, mergeL.eq_3]
          simp only [if_pos hjlt, hx, hy]
          rcases hcb : sort_cb x y s with ⟨_ | c, s1⟩
          · simp
          · simp only []
            by_cases hc : c ≤ 0
            · rw [if_pos ⟨hilt, hc⟩, if_pos hkb, if_pos hc, hk1, hi1,
                ih (k + 1) (i + 1) j (b.set k x) s1 (by omega) hj hjE (by simpa using hb)
                  (by omega) (by omega), ← seg_cons a hjlt hy]
              simp only [written_step b k x _ hkb]
            · rw [if_neg (fun h => hc h.2), if_pos hkb, if_neg hc, hk1, hj1,
                ih (k + 1) i (j + 1) (b.set k y) s1 hi (by omega) (by omega)
                  (by simpa using hb) (by omega) (by omega), ← seg_cons a hilt hx]
              simp only [written_step b k y _ hkb]
        · have hiE : i = iRight := by omega
          have hx : a[i]? = some p := by rw [hiE]; exact hp (by omega)
          have hj1 : (j + 1) % UINT32_RANGE = j + 1 := Nat.mod_eq_of_lt (by omega)
          rw [seg_nil_of_le a (by omega : iRight ≤ i), mergeL.eq_2]
          simp only [if_pos hjlt, hx, hy]
          rcases hcb : sort_cb p y s with ⟨_ | c, s1⟩
          · simp
          · simp only []
            rw [if_neg (fun h => hilt h.1), if_pos hkb, hk1, hj1,
              ih (k + 1) i (j + 1) (b.set k y) s1 hi (by omega) (by omega)
                (by simpa using hb) (by omega) (by omega),
              seg_nil_of_le a (by omega : iRight ≤ i)]
            simp only [written_step b k y _ hkb]
      · have hjE' : j = iEnd := by omega
        have hilt : i < iRight := by omega
        obtain ⟨x, hx⟩ : ∃ x, a[i]? = some x :=
          ⟨a.get ⟨i, by omega⟩, List.getElem?_eq_getElem _⟩
        have hi1 : (i + 1) % UINT32_RANGE = i + 1 := Nat.mod_eq_of_lt (by omega)
        rw [seg_nil_of_le a (by omega : iEnd ≤ j), mergeL.eq_1]
        simp only [if_neg hjlt, hx]
        rw [if_pos ⟨hilt, le_refl _⟩, if_pos hkb, hk1, hi1,
          ih (k + 1) (i + 1) j (b.set k x) s (by omega) hj hjE (by simpa using hb)
            (by omega) (by omega), seg_nil_of_le a (by omega : iEnd ≤ j), mergeL.eq_1,
          seg_cons a hilt hx]
        simp only [written_step b k x _ hkb]
    · have hi' : i = iRight := by omega
      have hj' : j = iEnd := by omega
      have hk' : k = iEnd := by omega
      rw [if_neg hkE, seg_nil_of_le a (by omega : iRight ≤ i),
        seg_nil_of_le a (by omega : iEnd ≤ j), mergeL.eq_1]
      simp

theorem mergeL_length_le (sort_cb : V → V → σ → Option Int × σ) (p : V) :
    ∀ (n : Nat) (xs ys : List V) (s : σ), xs.length + ys.length = n →
      (mergeL sort_cb p xs ys s).2.1.length ≤ xs.length + ys.length := by
  intro n
  induction n with
  | zero =>
    intro xs ys s h
    have hx : xs = [] := List.length_eq_zero.mp (by omega)
    have hy : ys = [] := List.length_eq_zero.mp (by omega)
    subst hx; subst hy; simp [mergeL]
  | succ n ih =>
    intro xs ys s h
    cases ys with
    | nil => simp [mergeL]
    | cons y ys =>
      cases xs with
      | nil =>
        rw [mergeL.eq_2]
        rcases hcb : sort_cb p y s with ⟨_ | c, s1⟩
        · simp
        · have := ih [] ys s1 (by simpa using h)
          simp at this ⊢; omega
      | cons x xs =>
        rw [mergeL.eq_3]
        rcases hcb : sort_cb x y s with ⟨_ | c, s1⟩
        · simp
        · simp only []
          by_cases hc : c ≤ 0
          · have := ih xs (y :: ys) s1 (by simp at h ⊢; omega)
            simp [hc] at this ⊢; omega
          · have := ih (x :: xs) ys s1 (by simp at h ⊢; omega)
            simp [hc] at this ⊢; omega

theorem mergeL_length_ok (sort_cb : V → V → σ → Option Int × σ) (p : V) :
    ∀ (n : Nat) (xs ys : List V) (s : σ), xs.length + ys.length = n →
      (mergeL sort_cb p xs ys s).1 = .ECMA_VALUE_EMPTY →
      (mergeL sort_cb p xs ys s).2.1.length = xs.length + ys.length := by
  intro n
  induction n with
  | zero =>
    intro xs ys s h _
    have hx : xs = [] := List.length_eq_zero.mp (by omega)
    have hy : ys = [] := List.length_eq_zero.mp (by omega)
    subst hx; subst hy; simp [mergeL]
  | succ n ih =>
    intro xs ys s h
    cases ys with
    | nil => simp [mergeL]
    | cons y ys =>
      cases xs with
      | nil =>
        rw [mergeL.eq_2]
        rcases hcb : sort_cb p y s with ⟨_ | c, s1⟩
        · simp
        · intro hok
          have := ih [] ys s1 (by simpa using h) hok
          simp at this ⊢; omega
      | cons x xs =>
        rw [mergeL.eq_3]
        rcases hcb : sort_cb x y s with ⟨_ | c, s1⟩
        · simp
        · simp only []
          by_cases hc : c ≤ 0
          · simp only [if_pos hc]
            intro hok
            have := ih xs (y :: ys) s1 (by simp at h ⊢; omega) hok
            simp at this ⊢; omega
          · simp only [if_neg hc]
            intro hok
            have := ih (x :: xs) ys s1 (by simp at h ⊢; omega) hok
            simp at this ⊢; omega

theorem mergeRuns_length_le (sort_cb : V → V → σ → Option Int × σ) (xs ys : List V) (s : σ) :
    (mergeRuns sort_cb xs ys s).2.1.length ≤ xs.length + ys.length := by
  cases ys with
  | nil => simp [mergeRuns]
  | cons y ys => exact mergeL_length_le sort_cb y _ xs (y :: ys) s rfl

theorem mergeRuns_length_ok (sort_cb : V → V → σ → Option Int × σ) (xs ys : List V) (s : σ)
    (h : (mergeRuns sort_cb xs ys s).1 = .ECMA_VALUE_EMPTY) :
    (mergeRuns sort_cb xs ys s).2.1.length = xs.length + ys.length := by
  cases ys with
  | nil => simp [mergeRuns]
  | cons y ys => exact mergeL_length_ok sort_cb y _ xs (y :: ys) s rfl h

/-- The merge step computes `mergeRuns` of the two runs and writes it over the output
buffer from `iLeft` on. -/
theorem merge_sort_bottom_up_eq (sort_cb : V → V → σ → Option Int × σ) (fuel : Nat)
    (a : List V) (iLeft iRight iEnd : Nat) (b : List V) (s : σ)
    (h1 : iLeft ≤ iRight) (h2 : iRight ≤ iEnd) (ha : iEnd ≤ a.length) (hb : iEnd ≤ b.length)
    (hU : iEnd < UINT32_RANGE) (hf : iEnd - iLeft < fuel) :
    ecma_builtin_helper_array_merge_sort_bottom_up sort_cb fuel a iLeft iRight iEnd b s =
      .ok ((mergeRuns sort_cb (seg a iLeft iRight) (seg a iRight iEnd) s).1,
        splice b iLeft (mergeRuns sort_cb (seg a iLeft iRight) (seg a iRight iEnd) s).2.1,
        (mergeRuns sort_cb (seg a iLeft iRight) (seg a iRight iEnd) s).2.2) := by
  unfold ecma_builtin_helper_array_merge_sort_bottom_up splice
  by_cases hlt : iRight < iEnd
  · obtain ⟨p, hp⟩ : ∃ p, a[iRight]? = some p :=
      ⟨a.get ⟨iRight, by omega⟩, List.getElem?_eq_getElem _⟩
    rw [merge_loop_eq sort_cb a iRight iEnd p (fun _ => hp) ha hU fuel iLeft iLeft iRight b s
      h1 (le_refl _) h2 hb (by omega) hf]
    rw [seg_cons a hlt hp]
    rfl
  · have hE : iRight = iEnd := by omega
    by_cases hlt2 : iLeft < iRight
    · obtain ⟨p, _⟩ : ∃ p, a[iLeft]? = some p :=
        ⟨a.get ⟨iLeft, by omega⟩, List.getElem?_eq_getElem _⟩
      rw [merge_loop_eq sort_cb a iRight iEnd p (fun h => absurd h hlt) ha hU fuel iLeft iLeft
        iRight b s h1 (le_refl _) h2 hb (by omega) hf]
      rw [seg_nil_of_le a (by omega : iEnd ≤ iRight)]
      simp [mergeRuns, mergeL]
    · have hL : iLeft = iRight := by omega
      rw [seg_nil_of_le a (by omega : iEnd ≤ iRight), seg_nil_of_le a (by omega : iRight ≤ iLeft)]
      cases fuel with
      | zero => omega
      | succ fuel =>
        unfold merge_loop
        rw [if_neg (by omega)]
        simp [mergeRuns]

theorem passL_nil (sort_cb : V → V → σ → Option Int × σ) (w : Nat) (s : σ) :
    passL sort_cb w [] s = (.ECMA_VALUE_EMPTY, [], s) := by
  rw [passL]; simp

theorem passL_length_le (sort_cb : V → V → σ → Option Int × σ) (w : Nat) :
    ∀ (n : Nat) (src : List V) (s : σ), src.length ≤ n →
      (passL sort_cb w src s).2.1.length ≤ src.length := by
  intro n
  induction n with
  | zero =>
    intro src s h
    have : src = [] := List.length_eq_zero.mp (by omega)
    subst this; simp [passL_nil]
  | succ n ih =>
    intro src s h
    rw [passL]
    by_cases hc : 0 < w ∧ 0 < src.length
    · rw [dif_pos hc]
      have hpos := hc.2
      have hm := mergeRuns_length_le sort_cb (src.take w) ((src.drop w).take w) s
      rcases hmr : mergeRuns sort_cb (src.take w) ((src.drop w).take w) s with ⟨_ | _, wr, s1⟩
      · rw [hmr] at hm
        have := ih (src.drop (2 * w)) s1 (by simp; omega)
        simp at this hm ⊢; omega
      · rw [hmr] at hm
        simp at hm ⊢; omega
    · rw [dif_neg hc]; simp

theorem passL_length_ok (sort_cb : V → V → σ → Option Int × σ) (w : Nat) :
    ∀ (n : Nat) (src : List V) (s : σ), src.length ≤ n →
      (passL sort_cb w src s).1 = .ECMA_VALUE_EMPTY → 0 < w →
      (passL sort_cb w src s).2.1.length = src.length := by
  intro n
  induction n with
  | zero =>
    intro src s h _ _
    have : src = [] := List.length_eq_zero.mp (by omega)
    subst this; simp [passL_nil]
  | succ n ih =>
    intro src s h
    rw [passL]
    by_cases hc : 0 < w ∧ 0 < src.length
    · rw [dif_pos hc]
      have hpos := hc.2
      have hm := mergeRuns_length_ok sort_cb (src.take w) ((src.drop w).take w) s
      rcases hmr : mergeRuns sort_cb (src.take w) ((src.drop w).take w) s with ⟨_ | _, wr, s1⟩
      · rw [hmr] at hm
        intro hok hw
        have := ih (src.drop (2 * w)) s1 (by simp; omega) hok hw
        have hm := hm rfl
        simp at this hm ⊢; omega
      · simp
    · rw [dif_neg hc]
      intro _ hw
      have : src = [] := by
        by_contra hne; exact hc ⟨hw, List.length_pos.mpr hne⟩
      simp [this]

theorem seg_first_run (a : List V) (i w : Nat) :
    seg a i (min (i + w) a.length) = (a.drop i).take w := by
  unfold seg
  rw [List.take_eq_take]
  simp only [List.length_drop]
  omega

theorem seg_second_run (a : List V) (i w : Nat) :
    seg a (min (i + w) a.length) (min (i + 2 * w) a.length) = ((a.drop i).drop w).take w := by
  unfold seg
  by_cases h : i + w ≤ a.length
  · rw [Nat.min_eq_left h, List.drop_drop, List.take_eq_take]
    simp only [List.length_drop]
    omega
  · have h1 : min (i + w) a.length = a.length := by omega
    rw [h1, List.drop_drop, List.drop_of_length_le (le_refl _),
      List.drop_of_length_le (by omega : a.length ≤ i + w)]
    simp

theorem splice_nil (dst : List V) (k : Nat) : splice dst k [] = dst := by
  simp [splice]

theorem length_splice (dst : List V) (k : Nat) (wr : List V) (h : k + wr.length ≤ dst.length) :
    (splice dst k wr).length = dst.length := by
  simp [splice]; omega

theorem splice_splice (dst : List V) (k : Nat) (wr wr2 : List V)
    (h : k + wr.length ≤ dst.length) :
    splice (splice dst k wr) (k + wr.length) wr2 = splice dst k (wr ++ wr2) := by
  have hl : (dst.take k).length = k := by simp; omega
  have e1 : (splice dst k wr).take (k + wr.length) = dst.take k ++ wr := by
    unfold splice
    rw [List.take_append_eq_append_take]
    simp [hl]
  have e2 : (splice dst k wr).drop (k + wr.length + wr2.length) =
      dst.drop (k + (wr ++ wr2).length) := by
    unfold splice
    rw [List.drop_append_eq_append_drop, List.drop_of_length_le (by simp; omega)]
    simp [hl, List.drop_drop]
    congr 1; omega
  unfold splice at e1 e2 ⊢
  rw [e1, e2]; simp

/-- The inner loop started at block start `i` computes `passL` of the rest of the
source and writes it over the destination from `i` on. -/
theorem inner_loop_eq (sort_cb : V → V → σ → Option Int × σ) (F : Nat) (src : List V)
    (w : Nat) (hw : 0 < w) (hw2 : w ≤ 1073741824) (hn : src.length < 2147483648)
    (hF : src.length < F) :
    ∀ (fuel i : Nat) (ret : ecma_status) (dst : List V) (s : σ),
      dst.length = src.length → src.length - i < fuel →
      inner_loop sort_cb F src src.length w fuel i ret dst s =
        .ok (if i < src.length then (passL sort_cb w (src.drop i) s).1 else ret,
          if (passL sort_cb w (src.drop i) s).1 = .ECMA_VALUE_ERROR then src.length else w,
          splice dst i (passL sort_cb w (src.drop i) s).2.1,
          (passL sort_cb w (src.drop i) s).2.2) := by
  intro fuel
  induction fuel with
  | zero => intro i ret dst s _ hf; omega
  | succ fuel ih =>
    intro i ret dst s hd hf
    unfold inner_loop
    by_cases hi : i < src.length
    · have e1 : (i + w) % UINT32_RANGE = i + w := Nat.mod_eq_of_lt (by unfold UINT32_RANGE; omega)
      have e2 : (2 * w) % UINT32_RANGE = 2 * w := Nat.mod_eq_of_lt (by unfold UINT32_RANGE; omega)
      have e3 : (i + 2 * w) % UINT32_RANGE = i + 2 * w :=
        Nat.mod_eq_of_lt (by unfold UINT32_RANGE; omega)
      have er : (if i + w > src.length then src.length else i + w) = min (i + w) src.length := by
        split <;> omega
      have ee : (if i + 2 * w > src.length then src.length else i + 2 * w) =
          min (i + 2 * w) src.length := by
        split <;> omega
      simp only [if_pos hi, e1, e2, e3, er, ee]
      rw [merge_sort_bottom_up_eq sort_cb F src i _ _ dst s (by omega) (by omega) (by omega)
        (by omega) (by unfold UINT32_RANGE; omega) (by omega),
        seg_first_run, seg_second_run]
      have hlen := mergeRuns_length_le sort_cb ((src.drop i).take w)
        (((src.drop i).drop w).take w) s
      have hlenok := mergeRuns_length_ok sort_cb ((src.drop i).take w)
        (((src.drop i).drop w).take w) s
      have hdl : 0 < (src.drop i).length := by simp; omega
      rw [passL, dif_pos ⟨hw, hdl⟩]
      rcases hmr : mergeRuns sort_cb ((src.drop i).take w) (((src.drop i).drop w).take w) s
        with ⟨_ | _, wr, s1⟩
      · rw [hmr] at hlenok
        have hwr := hlenok rfl
        simp only [List.length_take, List.length_drop] at hwr
        simp only []
        have hsl : (splice dst i wr).length = src.length := by
          rw [length_splice _ _ _ (by omega)]; exact hd
        rw [ih (i + 2 * w) .ECMA_VALUE_EMPTY (splice dst i wr) s1 hsl (by omega),
          List.drop_drop]
        have hsp : splice (splice dst i wr) (i + 2 * w)
            (passL sort_cb w (src.drop (i + 2 * w)) s1).2.1 =
            splice dst i (wr ++ (passL sort_cb w (src.drop (i + 2 * w)) s1).2.1) := by
          by_cases hlt : i + 2 * w ≤ src.length
          · have : i + 2 * w = i + wr.length := by omega
            rw [this, splice_splice dst i wr _ (by omega)]
          · rw [List.drop_of_length_le (by omega), passL_nil]
            simp [splice_nil]
        rw [hsp]
        by_cases hlt : i + 2 * w < src.length
        · simp [hlt]
        · have hnil : src.drop (i + 2 * w) = [] := List.drop_of_length_le (by omega)
          simp [hlt, hnil, passL_nil]
      · simp
    · rw [if_neg hi, List.drop_of_length_le (by omega), passL_nil]
      simp [splice_nil, hi]

theorem Heap.read_write_same (h : Heap V) (p : Ptr) (l : List V) : (h.write p l).read p = l := by
  cases p <;> rfl

theorem Heap.read_write_other (h : Heap V) (p q : Ptr) (l : List V) (hpq : p ≠ q) :
    (h.write p l).read q = h.read q := by
  cases p <;> cases q <;> first | rfl | exact absurd rfl hpq

theorem two_pow_le_of_lt {p : Nat} (h : 2 ^ p < 2147483648) : 2 ^ p ≤ 1073741824 := by
  have hp : p < 31 := by
    by_contra hc
    have : 2 ^ 31 ≤ 2 ^ p := Nat.pow_le_pow_right (by decide) (by omega)
    omega
  have : 2 ^ p ≤ 2 ^ 30 := Nat.pow_le_pow_right (by decide) (by omega)
  simpa using this

theorem ecma_status_ne_error {r : ecma_status} (h : r ≠ .ECMA_VALUE_ERROR) :
    r = .ECMA_VALUE_EMPTY := by
  cases r
  · rfl
  · exact absurd rfl h

/-- The outer loop computes `sortL` on the list view of the driver state; the two
pointers stay different and are exchanged once per pass. -/
theorem outer_loop_eq (sort_cb : V → V → σ → Option Int × σ) (F n : Nat)
    (hn : n < 2147483648) (hF : n < F) :
    ∀ (fuel : Nat) (st : DriverState V σ),
      st.array_p ≠ st.array_copy_p →
      (st.heap.read st.array_p).length = n → (st.heap.read st.array_copy_p).length = n →
      (∃ p, st.w = 2 ^ p) → n - st.w < fuel →
      ∃ st1, outer_loop sort_cb F n fuel st = .ok st1 ∧
        st1.abs = sortL sort_cb n st.w st.abs ∧
        st1.array_p ≠ st1.array_copy_p ∧
        st1.array_p = (if (st1.passes - st.passes) % 2 = 0 then st.array_p else st.array_copy_p) ∧
        st.passes ≤ st1.passes ∧
        (st1.heap.read st1.array_p).length = n ∧
        (st1.heap.read st1.array_copy_p).length = n := by
  intro fuel
  induction fuel with
  | zero => intro st _ _ _ _ hf; omega
  | succ fuel ih =>
    intro st hne hl1 hl2 hp hf
    obtain ⟨p, hp⟩ := hp
    have hwpos : 0 < st.w := by rw [hp]; exact Nat.pos_pow_of_pos _ (by decide)
    unfold outer_loop
    by_cases hw : st.w < n
    · have hw30 : st.w ≤ 1073741824 := by
        rw [hp]; exact two_pow_le_of_lt (by rw [← hp]; omega)
      rw [if_pos hw]
      have hin := inner_loop_eq sort_cb F (st.heap.read st.array_p) st.w hwpos hw30
        (by omega) (by omega) F 0 st.ret_value (st.heap.read st.array_copy_p) st.cb_state
        (by omega) (by omega)
      rw [hl1] at hin
      simp only [List.drop_zero] at hin
      rw [hin]
      simp only []
      have hlen := passL_length_le sort_cb st.w _ (st.heap.read st.array_p) st.cb_state
        (le_refl _)
      have hsl : (splice (st.heap.read st.array_copy_p) 0
          (passL sort_cb st.w (st.heap.read st.array_p) st.cb_state).2.1).length = n := by
        rw [length_splice _ _ _ (by omega)]; exact hl2
      by_cases herr : (passL sort_cb st.w (st.heap.read st.array_p) st.cb_state).1 =
          .ECMA_VALUE_ERROR
      · -- the failed pass: `w = length`, then `w = 2 * w` leaves the loop
        have e2 : (2 * n) % UINT32_RANGE = 2 * n :=
          Nat.mod_eq_of_lt (by unfold UINT32_RANGE; omega)
        cases fuel with
        | zero => omega
        | succ fuel =>
          unfold outer_loop
          simp only [if_pos herr, if_pos (by omega : 0 < n), e2]
          rw [if_neg (by omega)]
          refine ⟨_, rfl, ?_, ?_, ?_, ?_, ?_, ?_⟩
          · rw [sortL, dif_pos ⟨hwpos, hw⟩]
            simp only [DriverState.abs, herr, if_true, Heap.read_write_same,
              Heap.read_write_other _ _ _ _ (Ne.symm hne)]
          · exact Ne.symm hne
          · simp
          · simp
          · simp only [Heap.read_write_same]; exact hsl
          · simp only [Heap.read_write_other _ _ _ _ (Ne.symm hne)]; exact hl1
      · have hok := ecma_status_ne_error herr
        have e2 : (2 * st.w) % UINT32_RANGE = 2 * st.w :=
          Nat.mod_eq_of_lt (by unfold UINT32_RANGE; omega)
        simp only [if_neg herr, if_pos (by omega : 0 < n), e2]
        rw [hok]
        obtain ⟨st1, h1, h2, h3, h4, h5, h6, h7⟩ := ih
          { w := 2 * st.w
            array_p := st.array_copy_p
            array_copy_p := st.array_p
            heap := st.heap.write st.array_copy_p
              (splice (st.heap.read st.array_copy_p) 0
                (passL sort_cb st.w (st.heap.read st.array_p) st.cb_state).2.1)
            ret_value := .ECMA_VALUE_EMPTY
            cb_state := (passL sort_cb st.w (st.heap.read st.array_p) st.cb_state).2.2
            passes := st.passes + 1 }
          (Ne.symm hne)
          (by simp only [Heap.read_write_same]; exact hsl)
          (by simp only [Heap.read_write_other _ _ _ _ (Ne.symm hne)]; exact hl1)
          ⟨p + 1, by simp only []; rw [hp, pow_succ]; ring⟩
          (by simp only []; omega)
        refine ⟨st1, h1, ?_, h3, ?_, ?_, h6, h7⟩
        · rw [h2, sortL.eq_1 sort_cb n st.w, dif_pos ⟨hwpos, hw⟩]
          simp only [DriverState.abs, herr, if_false, Heap.read_write_same,
            Heap.read_write_other _ _ _ _ (Ne.symm hne)]
        · simp only [] at h4 h5
          rw [h4]
          have : (st1.passes - st.passes) = (st1.passes - (st.passes + 1)) + 1 := by omega
          rw [this]
          by_cases hpar : (st1.passes - (st.passes + 1)) % 2 = 0
          · have : (st1.passes - (st.passes + 1) + 1) % 2 ≠ 0 := by omega
            simp [hpar, this]
          · have : (st1.passes - (st.passes + 1) + 1) % 2 = 0 := by omega
            simp [hpar, this]
        · simp only [] at h5; omega
    · rw [if_neg hw]
      refine ⟨st, rfl, ?_, hne, by simp, le_refl _, hl1, hl2⟩
      rw [sortL, dif_neg (fun h => hw h.2)]

theorem splice_zero_full (dst wr : List V) (h : wr.length = dst.length) :
    splice dst 0 wr = wr := by
  unfold splice
  rw [List.drop_of_length_le (by omega)]
  simp

theorem seg_zero_length (a : List V) : seg a 0 a.length = a := by
  simp [seg]

/-- The copying loop overwrites the destination from `index` on with the source. -/
theorem copy_loop_eq (src : List V) (n : Nat) (hs : n ≤ src.length) (hU : n < UINT32_RANGE) :
    ∀ (fuel index : Nat) (dst : List V), index ≤ n → n ≤ dst.length → n - index < fuel →
      copy_loop src n fuel index dst = .ok (n, splice dst index (seg src index n)) := by
  intro fuel
  induction fuel with
  | zero => intro index dst _ _ hf; omega
  | succ fuel ih =>
    intro index dst hi hd hf
    unfold copy_loop
    by_cases hlt : index < n
    · obtain ⟨v, hv⟩ : ∃ v, src[index]? = some v :=
        ⟨src.get ⟨index, by omega⟩, List.getElem?_eq_getElem _⟩
      have e1 : (index + 1) % UINT32_RANGE = index + 1 := Nat.mod_eq_of_lt (by omega)
      simp only [if_pos hlt, hv, if_pos (by omega : index < dst.length), e1]
      rw [ih (index + 1) (dst.set index v) (by omega) (by simpa using hd) (by omega),
        seg_cons src hlt hv]
      unfold splice
      rw [written_step dst index v _ (by omega)]
    · have : index = n := by omega
      rw [if_neg hlt, seg_nil_of_le src (by omega), splice_nil, this]

/-- The driver on an array of fewer than `2 ^ 31` elements, with fuel above the length:
it returns, and what it returns is given by `sortL`. -/
theorem merge_sort_helper_eq (sort_cb : V → V → σ → Option Int × σ) (fuel : Nat)
    (array : List V) (junk : Nat → V) (s : σ)
    (hn : array.length < 2147483648) (hf : array.length < fuel) :
    ecma_builtin_helper_array_merge_sort_helper sort_cb fuel array array.length junk s =
      .ok { ret_value := (sortL sort_cb array.length 1 (initL array s)).ret_value
            array := (sortL sort_cb array.length 1 (initL array s)).src
            finalized := [.scratch]
            cb_state := (sortL sort_cb array.length 1 (initL array s)).cb_state
            passes := (sortL sort_cb array.length 1 (initL array s)).passes
            copied_back :=
              decide ((sortL sort_cb array.length 1 (initL array s)).passes % 2 = 1) } := by
  have hU : array.length < UINT32_RANGE := by unfold UINT32_RANGE; omega
  unfold ecma_builtin_helper_array_merge_sort_helper
  rw [copy_loop_eq array array.length (le_refl _) hU fuel 0 _ (Nat.zero_le _) (by simp)
    (by omega), seg_zero_length, splice_zero_full _ _ (by simp)]
  simp only [ne_eq, not_true_eq_false, if_false]
  obtain ⟨st1, h1, h2, h3, h4, h5, h6, h7⟩ := outer_loop_eq sort_cb fuel array.length hn hf fuel
    { w := 1, array_p := .base, array_copy_p := .scratch,
      heap := { base := array, scratch := array },
      ret_value := .ECMA_VALUE_EMPTY, cb_state := s, passes := 0 }
    (by simp) rfl rfl ⟨0, rfl⟩ (by simp only []; omega)
  rw [h1]
  have habs : st1.abs = sortL sort_cb array.length 1 (initL array s) := h2
  simp only [Nat.sub_zero] at h4
  rw [← habs]
  simp only [DriverState.abs]
  by_cases hc : st1.array_copy_p = .base
  · have hp : st1.array_p = .scratch := by
      cases hq : st1.array_p
      · rw [hq, hc] at h3; exact absurd rfl h3
      · rfl
    have hpar : st1.passes % 2 = 1 := by
      by_cases h0 : st1.passes % 2 = 0
      · rw [if_pos h0, hp] at h4; exact absurd h4 (by simp)
      · omega
    simp only [if_pos hc]
    rw [copy_loop_eq _ array.length (by omega) hU fuel 0 _ (Nat.zero_le _) (by omega) (by omega)]
    have e : seg (st1.heap.read st1.array_p) 0 array.length = st1.heap.read st1.array_p := by
      rw [← h6]; exact seg_zero_length _
    rw [e, splice_zero_full _ _ (by omega)]
    simp only [ne_eq, not_true_eq_false, if_false]
    rw [hc, hp]
    simp [Heap.read, Heap.write, hpar]
  · have hcp : st1.array_copy_p = .scratch := by
      cases hq : st1.array_copy_p
      · exact absurd hq hc
      · rfl
    have hp : st1.array_p = .base := by
      cases hq : st1.array_p
      · rfl
      · rw [hq, hcp] at h3; exact absurd rfl h3
    have hpar : st1.passes % 2 = 0 := by
      by_cases h0 : st1.passes % 2 = 0
      · exact h0
      · rw [if_neg h0, hp] at h4; exact absurd h4 (by simp)
    simp only [if_neg hc]
    rw [hcp, hp]
    simp [Heap.read, hpar]

/-! ### Induction along the functions on lists -/

/-- Induction along the computation of `mergeL`. -/
theorem mergeL_ind (sort_cb : V → V → σ → Option Int × σ) (p : V)
    (P : List V → List V → σ → ecma_status × List V × σ → Prop)
    (hB : ∀ xs s, P xs [] s (.ECMA_VALUE_EMPTY, xs, s))
    (hAfail : ∀ y ys s s1, sort_cb p y s = (none, s1) →
      P [] (y :: ys) s (.ECMA_VALUE_ERROR, [], s1))
    (hAtake : ∀ y ys s c s1 r, sort_cb p y s = (some c, s1) → P [] ys s1 r →
      P [] (y :: ys) s (r.1, y :: r.2.1, r.2.2))
    (hfail : ∀ x xs y ys s s1, sort_cb x y s = (none, s1) →
      P (x :: xs) (y :: ys) s (.ECMA_VALUE_ERROR, [], s1))
    (hleft : ∀ x xs y ys s c s1 r, sort_cb x y s = (some c, s1) → c ≤ 0 →
      P xs (y :: ys) s1 r → P (x :: xs) (y :: ys) s (r.1, x :: r.2.1, r.2.2))
    (hright : ∀ x xs y ys s c s1 r, sort_cb x y s = (some c, s1) → ¬ c ≤ 0 →
      P (x :: xs) ys s1 r → P (x :: xs) (y :: ys) s (r.1, y :: r.2.1, r.2.2)) :
    ∀ xs ys s, P xs ys s (mergeL sort_cb p xs ys s) := by
  have key : ∀ (n : Nat) (xs ys : List V) (s : σ), xs.length + ys.length = n →
      P xs ys s (mergeL sort_cb p xs ys s) := by
    intro n
    induction n with
    | zero =>
      intro xs ys s h
      have hy : ys = [] := List.length_eq_zero.mp (by omega)
      subst hy
      rw [mergeL.eq_1]; exact hB xs s
    | succ n ih =>
      intro xs ys s h
      cases ys with
      | nil => rw [mergeL.eq_1]; exact hB xs s
      | cons y ys =>
        cases xs with
        | nil =>
          rw [mergeL.eq_2]
          rcases hcb : sort_cb p y s with ⟨_ | c, s1⟩
          · exact hAfail y ys s s1 hcb
          · exact hAtake y ys s c s1 _ hcb (ih [] ys s1 (by simpa using h))
        | cons x xs =>
          rw [mergeL.eq_3]
          rcases hcb : sort_cb x y s with ⟨_ | c, s1⟩
          · exact hfail x xs y ys s s1 hcb
          · simp only []
            by_cases hc : c ≤ 0
            · rw [if_pos hc]
              exact hleft x xs y ys s c s1 _ hcb hc (ih xs (y :: ys) s1 (by simp at h ⊢; omega))
            · rw [if_neg hc]
              exact hright x xs y ys s c s1 _ hcb hc (ih (x :: xs) ys s1 (by simp at h ⊢; omega))
  intro xs ys s
  exact key _ xs ys s rfl

/-- Induction along the computation of `passL`. -/
theorem passL_ind (sort_cb : V → V → σ → Option Int × σ) (w : Nat)
    (P : List V → σ → ecma_status × List V × σ → Prop)
    (hstop : ∀ src s, ¬ (0 < w ∧ 0 < src.length) → P src s (.ECMA_VALUE_EMPTY, [], s))
    (herr : ∀ src s, 0 < w → 0 < src.length →
      (mergeRuns sort_cb (src.take w) ((src.drop w).take w) s).1 = .ECMA_VALUE_ERROR →
      P src s (.ECMA_VALUE_ERROR,
        (mergeRuns sort_cb (src.take w) ((src.drop w).take w) s).2.1,
        (mergeRuns sort_cb (src.take w) ((src.drop w).take w) s).2.2))
    (hok : ∀ src s r, 0 < w → 0 < src.length →
      (mergeRuns sort_cb (src.take w) ((src.drop w).take w) s).1 = .ECMA_VALUE_EMPTY →
      P (src.drop (2 * w)) (mergeRuns sort_cb (src.take w) ((src.drop w).take w) s).2.2 r →
      P src s (r.1, (mergeRuns sort_cb (src.take w) ((src.drop w).take w) s).2.1 ++ r.2.1,
        r.2.2)) :
    ∀ src s, P src s (passL sort_cb w src s) := by
  have key : ∀ (n : Nat) (src : List V) (s : σ), src.length ≤ n →
      P src s (passL sort_cb w src s) := by
    intro n
    induction n with
    | zero =>
      intro src s h
      rw [passL, dif_neg (by omega)]
      exact hstop src s (by omega)
    | succ n ih =>
      intro src s h
      rw [passL]
      by_cases hc : 0 < w ∧ 0 < src.length
      · rw [dif_pos hc]
        rcases hmr : mergeRuns sort_cb (src.take w) ((src.drop w).take w) s with ⟨_ | _, wr, s1⟩
        · have h1 := hok src s (passL sort_cb w (src.drop (2 * w)) s1) hc.1 hc.2
            (by rw [hmr])
          rw [hmr] at h1
          exact h1 (ih _ _ (by simp; omega))
        · have h1 := herr src s hc.1 hc.2 (by rw [hmr])
          rw [hmr] at h1
          exact h1
      · rw [dif_neg hc]
        exact hstop src s hc
  intro src s
  exact key _ src s (le_refl _)

/-- Induction along the computation of `sortL`. -/
theorem sortL_ind (sort_cb : V → V → σ → Option Int × σ) (n : Nat)
    (P : Nat → PassState V σ → PassState V σ → Prop)
    (hstop : ∀ w st, ¬ (0 < w ∧ w < n) → P w st st)
    (herr : ∀ w st, 0 < w → w < n →
      (passL sort_cb w st.src st.cb_state).1 = .ECMA_VALUE_ERROR →
      P w st
        { src := splice st.dst 0 (passL sort_cb w st.src st.cb_state).2.1
          dst := st.src
          ret_value := .ECMA_VALUE_ERROR
          cb_state := (passL sort_cb w st.src st.cb_state).2.2
          passes := st.passes + 1 })
    (hok : ∀ w st r, 0 < w → w < n →
      (passL sort_cb w st.src st.cb_state).1 = .ECMA_VALUE_EMPTY →
      P (2 * w)
        { src := splice st.dst 0 (passL sort_cb w st.src st.cb_state).2.1
          dst := st.src
          ret_value := .ECMA_VALUE_EMPTY
          cb_state := (passL sort_cb w st.src st.cb_state).2.2
          passes := st.passes + 1 } r →
      P w st r) :
    ∀ w st, P w st (sortL sort_cb n w st) := by
  have key : ∀ (m w : Nat) (st : PassState V σ), n - w ≤ m → P w st (sortL sort_cb n w st) := by
    intro m
    induction m with
    | zero =>
      intro w st h
      rw [sortL, dif_neg (by omega)]
      exact hstop w st (by omega)
    | succ m ih =>
      intro w st h
      rw [sortL]
      by_cases hc : 0 < w ∧ w < n
      · rw [dif_pos hc]
        by_cases he : (passL sort_cb w st.src st.cb_state).1 = .ECMA_VALUE_ERROR
        · rw [if_pos he]
          exact herr w st hc.1 hc.2 he
        · rw [if_neg he]
          exact hok w st _ hc.1 hc.2 (ecma_status_ne_error he) (ih _ _ (by omega))
      · rw [dif_neg hc]
        exact hstop w st hc
  intro w st
  exact key _ w st (le_refl _)

/-! ### Properties that hold for every callback -/

theorem mergeL_mem (sort_cb : V → V → σ → Option Int × σ) (p : V) (xs ys : List V) (s : σ) :
    ∀ z ∈ (mergeL sort_cb p xs ys s).2.1, z ∈ xs ++ ys := by
  refine mergeL_ind sort_cb p (fun xs ys _ r => ∀ z ∈ r.2.1, z ∈ xs ++ ys)
    ?_ ?_ ?_ ?_ ?_ ?_ xs ys s
  · intro xs s z hz; simpa using hz
  · intro y ys s s1 _ z hz; simp at hz
  · intro y ys s c s1 r _ ih z hz
    simp only [List.mem_cons] at hz
    rcases hz with rfl | hz
    · simp
    · have := ih z hz; simp at this ⊢; exact Or.inr this
  · intro x xs y ys s s1 _ z hz; simp at hz
  · intro x xs y ys s c s1 r _ _ ih z hz
    simp only [List.mem_cons] at hz
    rcases hz with rfl | hz
    · simp
    · have := ih z hz; simp at this ⊢; tauto
  · intro x xs y ys s c s1 r _ _ ih z hz
    simp only [List.mem_cons] at hz
    rcases hz with rfl | hz
    · simp
    · have := ih z hz; simp at this ⊢; tauto

theorem mergeL_perm (sort_cb : V → V → σ → Option Int × σ) (p : V) (xs ys : List V) (s : σ) :
    (mergeL sort_cb p xs ys s).1 = .ECMA_VALUE_EMPTY →
      ((mergeL sort_cb p xs ys s).2.1).Perm (xs ++ ys) := by
  refine mergeL_ind sort_cb p
    (fun xs ys _ r => r.1 = .ECMA_VALUE_EMPTY → (r.2.1).Perm (xs ++ ys)) ?_ ?_ ?_ ?_ ?_ ?_ xs ys s
  · intro xs s _; simp
  · intro y ys s s1 _ h; simp at h
  · intro y ys s c s1 r _ ih h
    simpa using (ih h)
  · intro x xs y ys s s1 _ h; simp at h
  · intro x xs y ys s c s1 r _ _ ih h
    simpa using (ih h)
  · intro x xs y ys s c s1 r _ _ ih h
    have h1 : (y :: r.2.1).Perm (y :: (x :: xs ++ ys)) := (ih h).cons y
    exact h1.trans (@List.perm_middle _ y (x :: xs) ys).symm

theorem mergeL_never_fails (sort_cb : V → V → σ → Option Int × σ) (p : V)
    (hcb : ∀ a b s, (sort_cb a b s).1 ≠ none) (xs ys : List V) (s : σ) :
    (mergeL sort_cb p xs ys s).1 = .ECMA_VALUE_EMPTY := by
  refine mergeL_ind sort_cb p (fun _ _ _ r => r.1 = .ECMA_VALUE_EMPTY) ?_ ?_ ?_ ?_ ?_ ?_ xs ys s
  · intro xs s; rfl
  · intro y ys s s1 h; exact absurd (by rw [h]) (hcb p y s)
  · intro y ys s c s1 r _ ih; exact ih
  · intro x xs y ys s s1 h; exact absurd (by rw [h]) (hcb x y s)
  · intro x xs y ys s c s1 r _ _ ih; exact ih
  · intro x xs y ys s c s1 r _ _ ih; exact ih

theorem mergeRuns_mem (sort_cb : V → V → σ → Option Int × σ) (xs ys : List V) (s : σ) :
    ∀ z ∈ (mergeRuns sort_cb xs ys s).2.1, z ∈ xs ++ ys := by
  cases ys with
  | nil => intro z hz; simpa [mergeRuns] using hz
  | cons y ys => exact mergeL_mem sort_cb y xs (y :: ys) s

theorem mergeRuns_perm (sort_cb : V → V → σ → Option Int × σ) (xs ys : List V) (s : σ)
    (h : (mergeRuns sort_cb xs ys s).1 = .ECMA_VALUE_EMPTY) :
    ((mergeRuns sort_cb xs ys s).2.1).Perm (xs ++ ys) := by
  cases ys with
  | nil => simp [mergeRuns]
  | cons y ys => exact mergeL_perm sort_cb y xs (y :: ys) s h

theorem mergeRuns_never_fails (sort_cb : V → V → σ → Option Int × σ)
    (hcb : ∀ a b s, (sort_cb a b s).1 ≠ none) (xs ys : List V) (s : σ) :
    (mergeRuns sort_cb xs ys s).1 = .ECMA_VALUE_EMPTY := by
  cases ys with
  | nil => rfl
  | cons y ys => exact mergeL_never_fails sort_cb y hcb xs (y :: ys) s

theorem take_two_runs (src : List V) (w : Nat) :
    src.take w ++ (src.drop w).take w = src.take (2 * w) := by
  rw [two_mul, List.take_add]

theorem passL_mem (sort_cb : V → V → σ → Option Int × σ) (w : Nat) (src : List V) (s : σ) :
    ∀ z ∈ (passL sort_cb w src s).2.1, z ∈ src := by
  refine passL_ind sort_cb w (fun src _ r => ∀ z ∈ r.2.1, z ∈ src) ?_ ?_ ?_ src s
  · intro src s _ z hz; simp at hz
  · intro src s _ _ _ z hz
    have := mergeRuns_mem sort_cb _ _ s z hz
    rw [take_two_runs] at this
    exact List.mem_of_mem_take this
  · intro src s r _ _ _ ih z hz
    simp only [List.mem_append] at hz
    rcases hz with hz | hz
    · have := mergeRuns_mem sort_cb _ _ s z hz
      rw [take_two_runs] at this
      exact List.mem_of_mem_take this
    · exact List.mem_of_mem_drop (ih z hz)

theorem passL_perm (sort_cb : V → V → σ → Option Int × σ) (w : Nat) (src : List V) (s : σ) :
    (passL sort_cb w src s).1 = .ECMA_VALUE_EMPTY → 0 < w →
      ((passL sort_cb w src s).2.1).Perm src := by
  refine passL_ind sort_cb w (fun src _ r => r.1 = .ECMA_VALUE_EMPTY → 0 < w → (r.2.1).Perm src)
    ?_ ?_ ?_ src s
  · intro src s hc _ hw
    have : src = [] := List.length_eq_zero.mp (by omega)
    simp [this]
  · intro src s _ _ _ h; simp at h
  · intro src s r _ _ hm ih h hw
    have h1 := mergeRuns_perm sort_cb _ _ s hm
    rw [take_two_runs] at h1
    have h2 := ih h hw
    have := List.Perm.append h1 h2
    simpa using this

theorem passL_never_fails (sort_cb : V → V → σ → Option Int × σ)
    (hcb : ∀ a b s, (sort_cb a b s).1 ≠ none) (w : Nat) (src : List V) (s : σ) :
    (passL sort_cb w src s).1 = .ECMA_VALUE_EMPTY := by
  refine passL_ind sort_cb w (fun _ _ r => r.1 = .ECMA_VALUE_EMPTY) ?_ ?_ ?_ src s
  · intro src s _; rfl
  · intro src s _ _ h
    rw [mergeRuns_never_fails sort_cb hcb] at h
    exact absurd h (by simp)
  · intro src s r _ _ _ ih; exact ih

theorem mem_splice (dst wr : List V) (k : Nat) (z : V) (h : z ∈ splice dst k wr) :
    z ∈ dst ∨ z ∈ wr := by
  unfold splice at h
  simp only [List.mem_append] at h
  rcases h with (h | h) | h
  · exact Or.inl (List.mem_of_mem_take h)
  · exact Or.inr h
  · exact Or.inl (List.mem_of_mem_drop h)

theorem sortL_buffers (sort_cb : V → V → σ → Option Int × σ) (n : Nat) (arr : List V)
    (w : Nat) (st : PassState V σ) :
    BuffersFrom n arr st → BuffersFrom n arr (sortL sort_cb n w st) := by
  refine sortL_ind sort_cb n (fun _ st r => BuffersFrom n arr st → BuffersFrom n arr r)
    ?_ ?_ ?_ w st
  · intro w st _ h; exact h
  · intro w st _ _ _ h
    obtain ⟨h1, h2, h3, h4⟩ := h
    have hl := passL_length_le sort_cb w _ st.src st.cb_state (le_refl _)
    refine ⟨?_, h1, ?_, h3⟩
    · simp only []; rw [length_splice _ _ _ (by omega)]; exact h2
    · intro z hz
      rcases mem_splice _ _ _ _ hz with hz | hz
      · exact h4 z hz
      · exact h3 z (passL_mem sort_cb w st.src st.cb_state z hz)
  · intro w st r _ _ _ ih h
    obtain ⟨h1, h2, h3, h4⟩ := h
    have hl := passL_length_le sort_cb w _ st.src st.cb_state (le_refl _)
    apply ih
    refine ⟨?_, h1, ?_, h3⟩
    · simp only []; rw [length_splice _ _ _ (by omega)]; exact h2
    · intro z hz
      rcases mem_splice _ _ _ _ hz with hz | hz
      · exact h4 z hz
      · exact h3 z (passL_mem sort_cb w st.src st.cb_state z hz)

theorem sortL_perm (sort_cb : V → V → σ → Option Int × σ) (n : Nat) (w : Nat)
    (st : PassState V σ) :
    st.src.length = n → st.dst.length = n →
      (sortL sort_cb n w st).ret_value = .ECMA_VALUE_EMPTY →
      ((sortL sort_cb n w st).src).Perm st.src := by
  refine sortL_ind sort_cb n (fun _ st r => st.src.length = n → st.dst.length = n →
    r.ret_value = .ECMA_VALUE_EMPTY → (r.src).Perm st.src) ?_ ?_ ?_ w st
  · intro w st _ _ _ _; exact List.Perm.refl _
  · intro w st _ _ _ _ _ h; simp at h
  · intro w st r hw _ hm ih h1 h2 h
    have hp := passL_perm sort_cb w st.src st.cb_state hm hw
    have hl : (passL sort_cb w st.src st.cb_state).2.1.length = st.dst.length := by
      rw [hp.length_eq, h1, h2]
    rw [splice_zero_full _ _ hl] at ih
    exact (ih (by simp only []; rw [hp.length_eq, h1]) h1 h).trans hp

theorem sortL_never_fails (sort_cb : V → V → σ → Option Int × σ)
    (hcb : ∀ a b s, (sort_cb a b s).1 ≠ none) (n : Nat) (w : Nat) (st : PassState V σ) :
    st.ret_value = .ECMA_VALUE_EMPTY → (sortL sort_cb n w st).ret_value = .ECMA_VALUE_EMPTY := by
  refine sortL_ind sort_cb n (fun _ st r => st.ret_value = .ECMA_VALUE_EMPTY →
    r.ret_value = .ECMA_VALUE_EMPTY) ?_ ?_ ?_ w st
  · intro w st _ h; exact h
  · intro w st _ _ he _
    rw [passL_never_fails sort_cb hcb] at he
    exact absurd he (by simp)
  · intro w st r _ _ _ ih _; exact ih rfl

/-! ### Callbacks that answer with a comparison function -/

theorem Answers.never_fails {sort_cb : V → V → σ → Option Int × σ} {compare : V → V → Int}
    (h : Answers sort_cb compare) : ∀ a b s, (sort_cb a b s).1 ≠ none := by
  intro a b s; rw [h a b s]; simp

theorem mergeL_answers (sort_cb : V → V → σ → Option Int × σ) (compare : V → V → Int)
    (h : Answers sort_cb compare) (p : V) (xs ys : List V) (s : σ) :
    (mergeL sort_cb p xs ys s).2.1 = List.merge xs ys (le_of compare) := by
  refine mergeL_ind sort_cb p (fun xs ys _ r => r.2.1 = List.merge xs ys (le_of compare))
    ?_ ?_ ?_ ?_ ?_ ?_ xs ys s
  · intro xs s; simp
  · intro y ys s s1 hcb; exact absurd (by rw [hcb]) (h.never_fails p y s)
  · intro y ys s c s1 r _ ih
    simp only [List.nil_merge] at ih ⊢
    rw [ih]
  · intro x xs y ys s s1 hcb; exact absurd (by rw [hcb]) (h.never_fails x y s)
  · intro x xs y ys s c s1 r hcb hc ih
    have hc2 : compare x y = c := by
      have := h x y s; rw [hcb] at this; simpa using this.symm
    have hle : le_of compare x y = true := by simp [le_of, hc2, hc]
    rw [List.cons_merge_cons_pos _ _ _ hle, ih]
  · intro x xs y ys s c s1 r hcb hc ih
    have hc2 : compare x y = c := by
      have := h x y s; rw [hcb] at this; simpa using this.symm
    have hle : ¬ le_of compare x y = true := by simp [le_of, hc2, hc]
    rw [List.cons_merge_cons_neg _ _ _ hle, ih]

theorem mergeRuns_answers (sort_cb : V → V → σ → Option Int × σ) (compare : V → V → Int)
    (h : Answers sort_cb compare) (xs ys : List V) (s : σ) :
    (mergeRuns sort_cb xs ys s).2.1 = List.merge xs ys (le_of compare) := by
  cases ys with
  | nil => simp [mergeRuns]
  | cons y ys => exact mergeL_answers sort_cb compare h y xs (y :: ys) s

/-- Merging keeps, for every class of elements that compare equal, the elements of the
first list in front of those of the second. -/
theorem merge_filter_equal (le : V → V → Bool)
    (trans : ∀ a b c, le a b = true → le b c = true → le a c = true)
    (total : ∀ a b, le a b = true ∨ le b a = true) (q : V) :
    ∀ (xs ys : List V), xs.Pairwise (fun a b => le a b = true) →
      (List.merge xs ys le).filter (fun z => le q z && le z q) =
        xs.filter (fun z => le q z && le z q) ++ ys.filter (fun z => le q z && le z q) := by
  intro xs
  induction xs with
  | nil => intro ys _; simp
  | cons x xs ihx =>
    intro ys
    induction ys with
    | nil => intro _; simp
    | cons y ys ihy =>
      intro hx
      by_cases hxy : le x y = true
      · rw [List.cons_merge_cons_pos _ _ _ hxy]
        simp only [List.filter_cons]
        rw [ihx (y :: ys) (List.Pairwise.of_cons hx)]
        simp only [List.filter_cons]
        split <;> simp
      · rw [List.cons_merge_cons_neg _ _ _ hxy]
        rw [List.filter_cons, ihy hx]
        by_cases hy : (le q y && le y q) = true
        · have hnil : (x :: xs).filter (fun z => le q z && le z q) = [] := by
            rw [List.filter_eq_nil_iff]
            intro z hz hqz
            simp only [Bool.and_eq_true] at hqz hy
            have hxz : le x z = true := by
              rcases List.mem_cons.mp hz with rfl | hz
              · rcases total z z with h | h <;> exact h
              · exact List.rel_of_pairwise_cons hx hz
            exact hxy (trans _ _ _ hxz (trans _ _ _ hqz.2 hy.1))
          rw [hnil, if_pos hy]
          simp [List.filter_cons, hy]
        · rw [if_neg hy]
          simp [List.filter_cons, hy]

/-- A sorted list is determined by its classes of equal elements, each taken in order. -/
theorem eq_of_sorted_of_filter_equal (le : V → V → Bool)
    (total : ∀ a b, le a b = true ∨ le b a = true) :
    ∀ (l1 l2 : List V), l1.Pairwise (fun a b => le a b = true) →
      l2.Pairwise (fun a b => le a b = true) → l1.Perm l2 →
      (∀ q, l1.filter (fun z => le q z && le z q) = l2.filter (fun z => le q z && le z q)) →
      l1 = l2 := by
  intro l1
  induction l1 with
  | nil => intro l2 _ _ hp _; exact (List.Perm.nil_eq hp)
  | cons a t1 ih =>
    intro l2 h1 h2 hp hf
    cases l2 with
    | nil => exact absurd hp.length_eq (by simp)
    | cons b t2 =>
      have hrefl : ∀ z, le z z = true := fun z => by rcases total z z with h | h <;> exact h
      have hab : le a b = true := by
        have : b ∈ a :: t1 := hp.symm.subset (List.mem_cons_self _ _)
        rcases List.mem_cons.mp this with rfl | hb
        · exact hrefl _
        · exact List.rel_of_pairwise_cons h1 hb
      have hba : le b a = true := by
        have : a ∈ b :: t2 := hp.subset (List.mem_cons_self _ _)
        rcases List.mem_cons.mp this with rfl | ha
        · exact hrefl _
        · exact List.rel_of_pairwise_cons h2 ha
      have hhead : a = b := by
        have := hf a
        simp only [List.filter_cons, hrefl a, hab, hba, Bool.and_self, if_true] at this
        exact (List.cons.inj this).1
      subst hhead
      congr 1
      apply ih t2 (List.Pairwise.of_cons h1) (List.Pairwise.of_cons h2) (List.Perm.cons_inv hp)
      intro q
      have := hf q
      simp only [List.filter_cons] at this
      split at this
      · exact (List.cons.inj this).2
      · exact this

/-- The library's merge sort keeps every class of equal elements in the order of the
input. -/
theorem mergeSort_filter_equal (le : V → V → Bool)
    (trans : ∀ a b c, le a b = true → le b c = true → le a c = true)
    (total : ∀ a b, le a b = true ∨ le b a = true) (l : List V) (q : V) :
    (l.mergeSort le).filter (fun z => le q z && le z q) =
      l.filter (fun z => le q z && le z q) := by
  have hpw : (l.filter (fun z => le q z && le z q)).Pairwise (fun a b => le a b = true) := by
    rw [List.pairwise_iff_forall_sublist]
    intro a b hab
    have ha : a ∈ l.filter (fun z => le q z && le z q) := hab.subset (by simp)
    have hb : b ∈ l.filter (fun z => le q z && le z q) := hab.subset (by simp)
    simp only [List.mem_filter, Bool.and_eq_true] at ha hb
    exact trans _ _ _ ha.2.2 hb.2.1
  have hsub : List.Sublist (l.filter (fun z => le q z && le z q)) (l.mergeSort le) :=
    List.sublist_mergeSort trans (by intro a b; simpa using total a b) hpw
      (List.filter_sublist l)
  have hsub2 := hsub.filter (fun z => le q z && le z q)
  rw [List.filter_filter] at hsub2
  simp only [Bool.and_self] at hsub2
  have hlen : ((l.mergeSort le).filter (fun z => le q z && le z q)).length =
      (l.filter (fun z => le q z && le z q)).length :=
    ((List.mergeSort_perm l le).filter _).length_eq
  exact (hsub2.eq_of_length hlen.symm).symm

theorem blockSorted_one (le : V → V → Bool) (l : List V) : BlockSorted le 1 l := by
  intro i
  have h : ((l.drop (i * 1)).take 1).length ≤ 1 := List.length_take_le _ _
  match hl : (l.drop (i * 1)).take 1, h with
  | [], _ => exact List.Pairwise.nil
  | [a], _ => exact List.pairwise_singleton _ _
  | _ :: _ :: _, h => simp at h

theorem blockSorted_drop (le : V → V → Bool) (w : Nat) (l : List V)
    (h : BlockSorted le w l) : BlockSorted le w (l.drop (2 * w)) := by
  intro i
  have := h (i + 2)
  rw [List.drop_drop]
  have e : 2 * w + i * w = (i + 2) * w := by ring
  rw [e]; exact this

theorem sorted_of_blockSorted (le : V → V → Bool) (w : Nat) (l : List V)
    (h : BlockSorted le w l) (hw : l.length ≤ w) : l.Pairwise (fun a b => le a b = true) := by
  have := h 0
  simpa [List.take_of_length_le hw] using this

theorem passL_answers (sort_cb : V → V → σ → Option Int × σ) (compare : V → V → Int)
    (h : Answers sort_cb compare)
    (trans : ∀ a b c, le_of compare a b = true → le_of compare b c = true →
      le_of compare a c = true)
    (total : ∀ a b, le_of compare a b = true ∨ le_of compare b a = true)
    (w : Nat) (hw : 0 < w) (src : List V) (s : σ) :
    BlockSorted (le_of compare) w src →
      (passL sort_cb w src s).2.1.length = src.length ∧
      BlockSorted (le_of compare) (2 * w) (passL sort_cb w src s).2.1 ∧
      ∀ q, (passL sort_cb w src s).2.1.filter (fun z => le_of compare q z && le_of compare z q) =
        src.filter (fun z => le_of compare q z && le_of compare z q) := by
  refine passL_ind sort_cb w (fun src _ r => BlockSorted (le_of compare) w src →
      r.2.1.length = src.length ∧ BlockSorted (le_of compare) (2 * w) r.2.1 ∧
      ∀ q, r.2.1.filter (fun z => le_of compare q z && le_of compare z q) =
        src.filter (fun z => le_of compare q z && le_of compare z q)) ?_ ?_ ?_ src s
  · intro src s hc _
    have : src = [] := List.length_eq_zero.mp (by omega)
    subst this
    refine ⟨rfl, ?_, fun q => rfl⟩
    intro i; simp
  · intro src s _ _ he
    rw [mergeRuns_never_fails sort_cb h.never_fails] at he
    exact absurd he (by simp)
  · intro src s r _ hpos _ ih hb
    obtain ⟨ih1, ih2, ih3⟩ := ih (blockSorted_drop _ w src hb)
    rw [mergeRuns_answers sort_cb compare h]
    have hb0 : (src.take w).Pairwise (fun a b => le_of compare a b = true) := by
      simpa using hb 0
    have hb1 : ((src.drop w).take w).Pairwise (fun a b => le_of compare a b = true) := by
      simpa using hb 1
    have hmlen : (List.merge (src.take w) ((src.drop w).take w) (le_of compare)).length =
        min (2 * w) src.length := by
      rw [List.length_merge, ← List.length_append, take_two_runs, List.length_take]
    have hrl : r.2.1.length = src.length - 2 * w := by rw [ih1]; simp
    have hcase : (List.merge (src.take w) ((src.drop w).take w) (le_of compare)).length = 2 * w ∨
        r.2.1 = [] := by
      by_cases hc : 2 * w ≤ src.length
      · left; rw [hmlen]; omega
      · right; exact List.length_eq_zero.mp (by omega)
    refine ⟨?_, ?_, ?_⟩
    · simp only [List.length_append]; rw [hmlen, hrl]; omega
    · intro i
      cases i with
      | zero =>
        have e : ((List.merge (src.take w) ((src.drop w).take w) (le_of compare) ++ r.2.1).drop
            (0 * (2 * w))).take (2 * w) =
            List.merge (src.take w) ((src.drop w).take w) (le_of compare) := by
          rcases hcase with hc | hc
          · simp only [Nat.zero_mul, List.drop_zero]
            rw [List.take_append_eq_append_take, hc]
            simp [List.take_of_length_le (le_of_eq hc)]
          · simp only [Nat.zero_mul, List.drop_zero, hc, List.append_nil]
            exact List.take_of_length_le (by rw [hmlen]; omega)
        rw [e]
        exact @List.sorted_merge _ (le_of compare) trans
          (by intro a b; simpa using total a b) _ _ hb0 hb1
      | succ j =>
        have hge : 2 * w ≤ (j + 1) * (2 * w) := Nat.le_mul_of_pos_left _ (Nat.succ_pos j)
        have e : (List.merge (src.take w) ((src.drop w).take w) (le_of compare) ++ r.2.1).drop
            ((j + 1) * (2 * w)) = r.2.1.drop (j * (2 * w)) := by
          rcases hcase with hc | hc
          · rw [List.drop_append_eq_append_drop, hc,
              List.drop_of_length_le (by rw [hc]; exact hge)]
            simp only [List.nil_append]
            congr 1
            rw [Nat.add_mul, Nat.one_mul, Nat.add_sub_cancel]
          · rw [hc, List.append_nil,
              List.drop_of_length_le (by rw [hmlen]; exact le_trans (Nat.min_le_left _ _) hge)]
            simp
        rw [e]
        exact ih2 j
    · intro q
      rw [List.filter_append, merge_filter_equal (le_of compare) trans total q _ _ hb0, ih3 q,
        ← List.filter_append, ← List.filter_append, take_two_runs, List.take_append_drop]

theorem sortL_answers (sort_cb : V → V → σ → Option Int × σ) (compare : V → V → Int)
    (h : Answers sort_cb compare)
    (trans : ∀ a b c, le_of compare a b = true → le_of compare b c = true →
      le_of compare a c = true)
    (total : ∀ a b, le_of compare a b = true ∨ le_of compare b a = true)
    (n w : Nat) (st : PassState V σ) :
    st.src.length = n → st.dst.length = n → 0 < w → BlockSorted (le_of compare) w st.src →
      (sortL sort_cb n w st).src.Pairwise (fun a b => le_of compare a b = true) ∧
      ∀ q, (sortL sort_cb n w st).src.filter
          (fun z => le_of compare q z && le_of compare z q) =
        st.src.filter (fun z => le_of compare q z && le_of compare z q) := by
  refine sortL_ind sort_cb n (fun w st r => st.src.length = n → st.dst.length = n → 0 < w →
      BlockSorted (le_of compare) w st.src →
      r.src.Pairwise (fun a b => le_of compare a b = true) ∧
      ∀ q, r.src.filter (fun z => le_of compare q z && le_of compare z q) =
        st.src.filter (fun z => le_of compare q z && le_of compare z q)) ?_ ?_ ?_ w st
  · intro w st hc h1 _ hw hb
    exact ⟨sorted_of_blockSorted _ w _ hb (by omega), fun q => rfl⟩
  · intro w st _ _ he
    rw [passL_never_fails sort_cb h.never_fails] at he
    exact absurd he (by simp)
  · intro w st r hw _ _ ih h1 h2 _ hb
    obtain ⟨p1, p2, p3⟩ := passL_answers sort_cb compare h trans total w hw st.src st.cb_state hb
    rw [splice_zero_full _ _ (by rw [p1, h1, h2])] at ih
    obtain ⟨i1, i2⟩ := ih (by simp only []; rw [p1, h1]) h1 (by omega) p2
    exact ⟨i1, fun q => (i2 q).trans (p3 q)⟩

/-! ### The log of invocations -/

theorem cleanLog_nil : CleanLog ([] : List (V × V × Option Int)) := by
  intro e he; simp at he

theorem CleanLog.append {l1 l2 : List (V × V × Option Int)} (h1 : CleanLog l1)
    (h2 : CleanLog l2) : CleanLog (l1 ++ l2) := by
  intro e he
  rcases List.mem_append.mp he with h | h
  · exact h1 e h
  · exact h2 e h

theorem cleanLog_single (a b : V) (c : Int) : CleanLog [(a, b, some c)] := by
  intro e he
  simp only [List.mem_singleton] at he
  rw [he]; simp

theorem TraceOK.prepend {ret : ecma_status} {l1 l2 : List (V × V × Option Int)}
    (h1 : CleanLog l1) (h2 : TraceOK ret l2) : TraceOK ret (l1 ++ l2) := by
  rcases h2 with ⟨hr, hc⟩ | ⟨hr, pre, a, b, hl, hc⟩
  · exact Or.inl ⟨hr, h1.append hc⟩
  · exact Or.inr ⟨hr, l1 ++ pre, a, b, by rw [hl, List.append_assoc], h1.append hc⟩

theorem TraceOK.clean_of_empty {l : List (V × V × Option Int)}
    (h : TraceOK .ECMA_VALUE_EMPTY l) : CleanLog l := by
  rcases h with ⟨_, hc⟩ | ⟨hr, _⟩
  · exact hc
  · exact absurd hr (by simp)

theorem logged_log (sort_cb : V → V → σ → Option Int × σ) (a b : V)
    (st st1 : σ × List (V × V × Option Int)) (o : Option Int)
    (h : logged sort_cb a b st = (o, st1)) : st1.2 = st.2 ++ [(a, b, o)] := by
  obtain ⟨s, log⟩ := st
  simp only [logged, Prod.mk.injEq] at h
  obtain ⟨h1, h2⟩ := h
  rw [← h2, ← h1]

theorem mergeL_log (sort_cb : V → V → σ → Option Int × σ) (p : V) (xs ys : List V)
    (st : σ × List (V × V × Option Int)) :
    ∃ new, (mergeL (logged sort_cb) p xs ys st).2.2.2 = st.2 ++ new ∧
      new.length ≤ xs.length + ys.length ∧
      TraceOK (mergeL (logged sort_cb) p xs ys st).1 new := by
  refine mergeL_ind (logged sort_cb) p (fun xs ys st r => ∃ new, r.2.2.2 = st.2 ++ new ∧
      new.length ≤ xs.length + ys.length ∧ TraceOK r.1 new) ?_ ?_ ?_ ?_ ?_ ?_ xs ys st
  · intro xs st
    exact ⟨[], by simp, by simp, Or.inl ⟨rfl, cleanLog_nil⟩⟩
  · intro y ys st st1 h
    exact ⟨[(p, y, none)], logged_log sort_cb p y st st1 none h, by simp,
      Or.inr ⟨rfl, [], p, y, rfl, cleanLog_nil⟩⟩
  · intro y ys st c st1 r h ih
    obtain ⟨new, h1, h2, h3⟩ := ih
    refine ⟨[(p, y, some c)] ++ new, ?_, ?_, TraceOK.prepend (cleanLog_single p y c) h3⟩
    · rw [h1, logged_log sort_cb p y st st1 _ h, List.append_assoc]
    · simp at h2 ⊢; omega
  · intro x xs y ys st st1 h
    exact ⟨[(x, y, none)], logged_log sort_cb x y st st1 none h, by simp; omega,
      Or.inr ⟨rfl, [], x, y, rfl, cleanLog_nil⟩⟩
  · intro x xs y ys st c st1 r h _ ih
    obtain ⟨new, h1, h2, h3⟩ := ih
    refine ⟨[(x, y, some c)] ++ new, ?_, ?_, TraceOK.prepend (cleanLog_single x y c) h3⟩
    · rw [h1, logged_log sort_cb x y st st1 _ h, List.append_assoc]
    · simp at h2 ⊢; omega
  · intro x xs y ys st c st1 r h _ ih
    obtain ⟨new, h1, h2, h3⟩ := ih
    refine ⟨[(x, y, some c)] ++ new, ?_, ?_, TraceOK.prepend (cleanLog_single x y c) h3⟩
    · rw [h1, logged_log sort_cb x y st st1 _ h, List.append_assoc]
    · simp at h2 ⊢; omega

theorem mergeRuns_log (sort_cb : V → V → σ → Option Int × σ) (xs ys : List V)
    (st : σ × List (V × V × Option Int)) :
    ∃ new, (mergeRuns (logged sort_cb) xs ys st).2.2.2 = st.2 ++ new ∧
      new.length ≤ xs.length + ys.length ∧
      TraceOK (mergeRuns (logged sort_cb) xs ys st).1 new := by
  cases ys with
  | nil => exact ⟨[], by simp [mergeRuns], by simp, Or.inl ⟨rfl, cleanLog_nil⟩⟩
  | cons y ys => exact mergeL_log sort_cb y xs (y :: ys) st

theorem passL_log (sort_cb : V → V → σ → Option Int × σ) (w : Nat) (src : List V)
    (st : σ × List (V × V × Option Int)) :
    ∃ new, (passL (logged sort_cb) w src st).2.2.2 = st.2 ++ new ∧
      new.length ≤ src.length ∧ TraceOK (passL (logged sort_cb) w src st).1 new := by
  refine passL_ind (logged sort_cb) w (fun src st r => ∃ new, r.2.2.2 = st.2 ++ new ∧
      new.length ≤ src.length ∧ TraceOK r.1 new) ?_ ?_ ?_ src st
  · intro src st _
    exact ⟨[], by simp, by simp, Or.inl ⟨rfl, cleanLog_nil⟩⟩
  · intro src st _ _ he
    obtain ⟨new, h1, h2, h3⟩ := mergeRuns_log sort_cb (src.take w) ((src.drop w).take w) st
    rw [he] at h3
    refine ⟨new, h1, ?_, h3⟩
    rw [← List.length_append, take_two_runs] at h2
    exact le_trans h2 (List.length_take_le' _ _)
  · intro src st r _ _ he ih
    obtain ⟨new, h1, h2, h3⟩ := mergeRuns_log sort_cb (src.take w) ((src.drop w).take w) st
    obtain ⟨new2, i1, i2, i3⟩ := ih
    rw [he] at h3
    refine ⟨new ++ new2, ?_, ?_, TraceOK.prepend h3.clean_of_empty i3⟩
    · rw [i1, h1, List.append_assoc]
    · rw [← List.length_append, take_two_runs, List.length_take] at h2
      simp only [List.length_drop] at i2
      simp only [List.length_append]
      omega

theorem sortL_log (sort_cb : V → V → σ → Option Int × σ) (n w : Nat)
    (st : PassState V (σ × List (V × V × Option Int))) :
    st.src.length = n → st.dst.length = n → st.ret_value = .ECMA_VALUE_EMPTY →
      ∀ p, w = 2 ^ p →
      ∃ new, (sortL (logged sort_cb) n w st).cb_state.2 = st.cb_state.2 ++ new ∧
        new.length ≤ n * (Nat.clog 2 n - p) ∧
        TraceOK (sortL (logged sort_cb) n w st).ret_value new := by
  refine sortL_ind (logged sort_cb) n (fun w st r => st.src.length = n → st.dst.length = n →
      st.ret_value = .ECMA_VALUE_EMPTY → ∀ p, w = 2 ^ p →
      ∃ new, r.cb_state.2 = st.cb_state.2 ++ new ∧ new.length ≤ n * (Nat.clog 2 n - p) ∧
        TraceOK r.ret_value new) ?_ ?_ ?_ w st
  · intro w st _ _ _ hr p _
    exact ⟨[], by simp, by simp, Or.inl ⟨hr, cleanLog_nil⟩⟩
  · intro w st _ hwn he h1 _ _ p hp
    obtain ⟨new, q1, q2, q3⟩ := passL_log sort_cb w st.src st.cb_state
    rw [he] at q3
    have hlt : p < Nat.clog 2 n := (Nat.pow_lt_iff_lt_clog (by decide)).mp (by rw [← hp]; exact hwn)
    refine ⟨new, q1, ?_, q3⟩
    calc new.length ≤ n * 1 := by rw [Nat.mul_one, ← h1]; exact q2
      _ ≤ n * (Nat.clog 2 n - p) := Nat.mul_le_mul_left _ (by omega)
  · intro w st r _ hwn he ih h1 h2 _ p hp
    obtain ⟨new, q1, q2, q3⟩ := passL_log sort_cb w st.src st.cb_state
    rw [he] at q3
    have hlt : p < Nat.clog 2 n := (Nat.pow_lt_iff_lt_clog (by decide)).mp (by rw [← hp]; exact hwn)
    have hl := passL_length_le (logged sort_cb) w _ st.src st.cb_state (le_refl _)
    obtain ⟨new2, i1, i2, i3⟩ := ih
      (by simp only []; rw [length_splice _ _ _ (by omega)]; exact h2) h1 rfl (p + 1)
      (by rw [hp, pow_succ]; ring)
    refine ⟨new ++ new2, ?_, ?_, TraceOK.prepend q3.clean_of_empty i3⟩
    · rw [i1]; simp only []; rw [q1, List.append_assoc]
    · have e : Nat.clog 2 n - p = (Nat.clog 2 n - (p + 1)) + 1 := by omega
      rw [e, Nat.mul_add, Nat.mul_one, List.length_append]
      rw [h1] at q2
      omega

/-! ### The driver -/

/-- The driver on an array of fewer than `2 ^ 31` elements returns, and its result is
the one of `sortL`. -/
theorem merge_sort_helper_ok (sort_cb : V → V → σ → Option Int × σ) (fuel : Nat)
    (array : List V) (junk : Nat → V) (s : σ)
    (hn : array.length < 2147483648) (hf : array.length < fuel) :
    ∃ res, ecma_builtin_helper_array_merge_sort_helper sort_cb fuel array array.length junk s =
        .ok res ∧
      res.ret_value = (sortL sort_cb array.length 1 (initL array s)).ret_value ∧
      res.array = (sortL sort_cb array.length 1 (initL array s)).src ∧
      res.finalized = [.scratch] ∧
      res.cb_state = (sortL sort_cb array.length 1 (initL array s)).cb_state ∧
      res.passes = (sortL sort_cb array.length 1 (initL array s)).passes ∧
      res.copied_back =
        decide ((sortL sort_cb array.length 1 (initL array s)).passes % 2 = 1) :=
  ⟨_, merge_sort_helper_eq sort_cb fuel array junk s hn hf, rfl, rfl, rfl, rfl, rfl, rfl⟩

theorem le_of_iff (compare : V → V → Int) (a b : V) :
    le_of compare a b = true ↔ compare a b ≤ 0 := by
  simp [le_of]

theorem le_of_trans (compare : V → V → Int)
    (trans : ∀ a b c, compare a b ≤ 0 → compare b c ≤ 0 → compare a c ≤ 0) :
    ∀ a b c, le_of compare a b = true → le_of compare b c = true →
      le_of compare a c = true := by
  intro a b c h1 h2
  rw [le_of_iff] at h1 h2 ⊢
  exact trans a b c h1 h2

theorem le_of_total (compare : V → V → Int)
    (total : ∀ a b, compare a b ≤ 0 ∨ compare b a ≤ 0) :
    ∀ a b, le_of compare a b = true ∨ le_of compare b a = true := by
  intro a b
  rw [le_of_iff, le_of_iff]
  exact total a b

/-- The driver with a callback that answers with a total preorder: it succeeds, the
result is sorted and keeps every class of equal elements in the order of the input. -/
theorem merge_sort_helper_answers (sort_cb : V → V → σ → Option Int × σ)
    (compare : V → V → Int) (h : Answers sort_cb compare)
    (total : ∀ a b, compare a b ≤ 0 ∨ compare b a ≤ 0)
    (trans : ∀ a b c, compare a b ≤ 0 → compare b c ≤ 0 → compare a c ≤ 0)
    (fuel : Nat) (array : List V) (junk : Nat → V) (s : σ)
    (hn : array.length < 2147483648) (hf : array.length < fuel) :
    ∃ res, ecma_builtin_helper_array_merge_sort_helper sort_cb fuel array array.length junk s =
        .ok res ∧
      res.ret_value = .ECMA_VALUE_EMPTY ∧
      res.array.Pairwise (fun a b => le_of compare a b = true) ∧
      res.array.Perm array ∧
      ∀ q, res.array.filter (equal_of compare q) = array.filter (equal_of compare q) := by
  obtain ⟨res, h1, h2, h3, -⟩ := merge_sort_helper_ok sort_cb fuel array junk s hn hf
  have hr := sortL_never_fails sort_cb h.never_fails array.length 1 (initL array s) rfl
  obtain ⟨p1, p2⟩ := sortL_answers sort_cb compare h (le_of_trans compare trans)
    (le_of_total compare total) array.length 1 (initL array s) rfl rfl (by decide)
    (blockSorted_one _ _)
  have hp := sortL_perm sort_cb array.length 1 (initL array s) rfl rfl hr
  refine ⟨res, h1, h2.trans hr, ?_, ?_, ?_⟩
  · rw [h3]; exact p1
  · rw [h3]; exact hp
  · intro q; rw [h3]; exact p2 q

/-- A failed merge step ends the inner loop at once (the `break` of line 124), with
`w = length`. -/
theorem inner_loop_break (sort_cb : V → V → σ → Option Int × σ) (F : Nat) (src : List V)
    (length w fuel i : Nat) (ret : ecma_status) (dst dst1 : List V) (t t1 : σ)
    (hi : i < length)
    (hm : ecma_builtin_helper_array_merge_sort_bottom_up sort_cb F src i
      (if (i + w) % UINT32_RANGE > length then length else (i + w) % UINT32_RANGE)
      (if (i + (2 * w) % UINT32_RANGE) % UINT32_RANGE > length then length
        else (i + (2 * w) % UINT32_RANGE) % UINT32_RANGE) dst t =
      .ok (.ECMA_VALUE_ERROR, dst1, t1)) :
    inner_loop sort_cb F src length w (fuel + 1) i ret dst t =
      .ok (.ECMA_VALUE_ERROR, length, dst1, t1) := by
  unfold inner_loop
  simp only [if_pos hi]
  rw [hm]

/-- A failed pass ends the outer loop: the buffers are exchanged once more and, `w`
being `2 * length`, no further pass is started. -/
theorem outer_loop_break (sort_cb : V → V → σ → Option Int × σ) (F length fuel : Nat)
    (st : DriverState V σ) (dst1 : List V) (t1 : σ)
    (hw : st.w < length) (hl : length < 2147483648)
    (hin : inner_loop sort_cb F (st.heap.read st.array_p) length st.w F 0 st.ret_value
      (st.heap.read st.array_copy_p) st.cb_state = .ok (.ECMA_VALUE_ERROR, length, dst1, t1)) :
    outer_loop sort_cb F length (fuel + 2) st =
      .ok { w := 2 * length
            array_p := st.array_copy_p
            array_copy_p := st.array_p
            heap := st.heap.write st.array_copy_p dst1
            ret_value := .ECMA_VALUE_ERROR
            cb_state := t1
            passes := st.passes + 1 } := by
  have e : (2 * length) % UINT32_RANGE = 2 * length :=
    Nat.mod_eq_of_lt (by unfold UINT32_RANGE; omega)
  unfold outer_loop
  simp only [if_pos hw, hin, e]
  unfold outer_loop
  rw [if_neg (by simp only []; omega)]

/-! ### Logging is transparent -/

theorem logged_fst (sort_cb : V → V → σ → Option Int × σ) (a b : V) (s : σ)
    (log : List (V × V × Option Int)) :
    logged sort_cb a b (s, log) =
      ((sort_cb a b s).1, ((sort_cb a b s).2, log ++ [(a, b, (sort_cb a b s).1)])) := rfl

/-- Logging does not change the merge: outcome, written elements and state of the
wrapped callback are those of the run without log. -/
theorem mergeL_logged (sort_cb : V → V → σ → Option Int × σ) (p : V) (xs ys : List V) (s : σ) :
    ∀ log, (mergeL (logged sort_cb) p xs ys (s, log)).1 = (mergeL sort_cb p xs ys s).1 ∧
      (mergeL (logged sort_cb) p xs ys (s, log)).2.1 = (mergeL sort_cb p xs ys s).2.1 ∧
      (mergeL (logged sort_cb) p xs ys (s, log)).2.2.1 = (mergeL sort_cb p xs ys s).2.2 := by
  refine mergeL_ind sort_cb p (fun xs ys s r => ∀ log,
      (mergeL (logged sort_cb) p xs ys (s, log)).1 = r.1 ∧
      (mergeL (logged sort_cb) p xs ys (s, log)).2.1 = r.2.1 ∧
      (mergeL (logged sort_cb) p xs ys (s, log)).2.2.1 = r.2.2) ?_ ?_ ?_ ?_ ?_ ?_ xs ys s
  · intro xs s log; simp [mergeL]
  · intro y ys s s1 h log
    rw [mergeL.eq_2, logged_fst, h]; simp
  · intro y ys s c s1 r h ih log
    rw [mergeL.eq_2, logged_fst, h]
    obtain ⟨i1, i2, i3⟩ := ih (log ++ [(p, y, some c)])
    simp only []
    exact ⟨i1, by rw [i2], i3⟩
  · intro x xs y ys s s1 h log
    rw [mergeL.eq_3, logged_fst, h]; simp
  · intro x xs y ys s c s1 r h hc ih log
    rw [mergeL.eq_3, logged_fst, h]
    obtain ⟨i1, i2, i3⟩ := ih (log ++ [(x, y, some c)])
    simp only [if_pos hc]
    exact ⟨i1, by rw [i2], i3⟩
  · intro x xs y ys s c s1 r h hc ih log
    rw [mergeL.eq_3, logged_fst, h]
    obtain ⟨i1, i2, i3⟩ := ih (log ++ [(x, y, some c)])
    simp only [if_neg hc]
    exact ⟨i1, by rw [i2], i3⟩

theorem mergeRuns_logged (sort_cb : V → V → σ → Option Int × σ) (xs ys : List V) (s : σ)
    (log : List (V × V × Option Int)) :
    (mergeRuns (logged sort_cb) xs ys (s, log)).1 = (mergeRuns sort_cb xs ys s).1 ∧
      (mergeRuns (logged sort_cb) xs ys (s, log)).2.1 = (mergeRuns sort_cb xs ys s).2.1 ∧
      (mergeRuns (logged sort_cb) xs ys (s, log)).2.2.1 = (mergeRuns sort_cb xs ys s).2.2 := by
  cases ys with
  | nil => simp [mergeRuns]
  | cons y ys => exact mergeL_logged sort_cb y xs (y :: ys) s log

theorem passL_logged (sort_cb : V → V → σ → Option Int × σ) (w : Nat) (src : List V) (s : σ) :
    ∀ log, (passL (logged sort_cb) w src (s, log)).1 = (passL sort_cb w src s).1 ∧
      (passL (logged sort_cb) w src (s, log)).2.1 = (passL sort_cb w src s).2.1 ∧
      (passL (logged sort_cb) w src (s, log)).2.2.1 = (passL sort_cb w src s).2.2 := by
  refine passL_ind sort_cb w (fun src s r => ∀ log,
      (passL (logged sort_cb) w src (s, log)).1 = r.1 ∧
      (passL (logged sort_cb) w src (s, log)).2.1 = r.2.1 ∧
      (passL (logged sort_cb) w src (s, log)).2.2.1 = r.2.2) ?_ ?_ ?_ src s
  · intro src s hc log
    rw [passL, dif_neg hc]; simp
  · intro src s hw hpos he log
    obtain ⟨m1, m2, m3⟩ := mergeRuns_logged sort_cb (src.take w) ((src.drop w).take w) s log
    rw [passL, dif_pos ⟨hw, hpos⟩]
    rcases hmr : mergeRuns (logged sort_cb) (src.take w) ((src.drop w).take w) (s, log)
      with ⟨_ | _, wr, t1⟩
    · rw [hmr, he] at m1; simp at m1
    · rw [hmr] at m2 m3
      exact ⟨rfl, m2, m3⟩
  · intro src s r hw hpos he ih log
    obtain ⟨m1, m2, m3⟩ := mergeRuns_logged sort_cb (src.take w) ((src.drop w).take w) s log
    rw [passL, dif_pos ⟨hw, hpos⟩]
    rcases hmr : mergeRuns (logged sort_cb) (src.take w) ((src.drop w).take w) (s, log)
      with ⟨_ | _, wr, ⟨t1, log1⟩⟩
    · rw [hmr] at m2 m3
      simp only [] at m2 m3 ⊢
      rw [m3]
      obtain ⟨i1, i2, i3⟩ := ih log1
      exact ⟨i1, by rw [m2, i2], i3⟩
    · rw [hmr, he] at m1; simp at m1

theorem sortL_logged (sort_cb : V → V → σ → Option Int × σ) (n w : Nat) (st0 : PassState V σ) :
    ∀ st : PassState V (σ × List (V × V × Option Int)),
      st.src = st0.src → st.dst = st0.dst → st.cb_state.1 = st0.cb_state →
      st.ret_value = st0.ret_value → st.passes = st0.passes →
      (sortL (logged sort_cb) n w st).src = (sortL sort_cb n w st0).src ∧
      (sortL (logged sort_cb) n w st).ret_value = (sortL sort_cb n w st0).ret_value ∧
      (sortL (logged sort_cb) n w st).cb_state.1 = (sortL sort_cb n w st0).cb_state ∧
      (sortL (logged sort_cb) n w st).passes = (sortL sort_cb n w st0).passes := by
  refine sortL_ind sort_cb n (fun w st0 r => ∀ st : PassState V (σ × List (V × V × Option Int)),
      st.src = st0.src → st.dst = st0.dst → st.cb_state.1 = st0.cb_state →
      st.ret_value = st0.ret_value → st.passes = st0.passes →
      (sortL (logged sort_cb) n w st).src = r.src ∧
      (sortL (logged sort_cb) n w st).ret_value = r.ret_value ∧
      (sortL (logged sort_cb) n w st).cb_state.1 = r.cb_state ∧
      (sortL (logged sort_cb) n w st).passes = r.passes) ?_ ?_ ?_ w st0
  · intro w st0 hc st h1 _ h3 h4 h5
    rw [sortL, dif_neg hc]
    exact ⟨h1, h4, h3, h5⟩
  · intro w st0 hw hn he st h1 h2 h3 _ h5
    obtain ⟨p1, p2, p3⟩ := passL_logged sort_cb w st0.src st0.cb_state st.cb_state.2
    rw [← h1, ← h3] at p1 p2 p3
    rw [sortL, dif_pos ⟨hw, hn⟩, if_pos (by rw [p1, h1, h3]; exact he)]
    refine ⟨?_, rfl, ?_, ?_⟩
    · simp only []; rw [p2, h2, h1, h3]
    · simp only []; rw [p3, h1, h3]
    · simp only []; rw [h5]
  · intro w st0 r hw hn he ih st h1 h2 h3 _ h5
    obtain ⟨p1, p2, p3⟩ := passL_logged sort_cb w st0.src st0.cb_state st.cb_state.2
    rw [← h1, ← h3] at p1 p2 p3
    rw [sortL, dif_pos ⟨hw, hn⟩, if_neg (by rw [p1, h1, h3, he]; simp)]
    exact ih _ (by simp only []; rw [p2, h2, h1, h3]) h1 (by simp only []; rw [p3, h1, h3])
      rfl (by simp only []; rw [h5])

/-- Logging is transparent: the driver run with the logging callback returns the same
value, array, callback state and number of passes as the run with the bare callback. -/
theorem logged_transparent (sort_cb : V → V → σ → Option Int × σ)
    (fuel : Nat) (array : List V) (junk : Nat → V) (s : σ) (log : List (V × V × Option Int))
    (hn : array.length < 2147483648) (hf : array.length < fuel) :
    ∃ res res0,
      ecma_builtin_helper_array_merge_sort_helper (logged sort_cb) fuel array array.length junk
        (s, log) = .ok res ∧
      ecma_builtin_helper_array_merge_sort_helper sort_cb fuel array array.length junk s =
        .ok res0 ∧
      res.ret_value = res0.ret_value ∧ res.array = res0.array ∧
      res.cb_state.1 = res0.cb_state ∧ res.passes = res0.passes := by
  obtain ⟨res, h1, h2, h3, -, h5, h6, -⟩ :=
    merge_sort_helper_ok (logged sort_cb) fuel array junk (s, log) hn hf
  obtain ⟨res0, g1, g2, g3, -, g5, g6, -⟩ := merge_sort_helper_ok sort_cb fuel array junk s hn hf
  obtain ⟨q1, q2, q3, q4⟩ := sortL_logged sort_cb array.length 1 (initL array s)
    (initL array (s, log)) rfl rfl rfl rfl rfl
  exact ⟨res, res0, h1, g1, by rw [h2, g2, q2], by rw [h3, g3, q1], by rw [h5, g5, q3],
    by rw [h6, g6, q4]⟩

/-! ### The state after a failure -/

/-- Merging two runs of at most one element: whatever the outcome, what was written
is a permutation of an initial part of the two runs. -/
theorem mergeRuns_short_initial (sort_cb : V → V → σ → Option Int × σ) (xs ys : List V) (s : σ)
    (hx : xs.length ≤ 1) (hy : ys.length ≤ 1) :
    ((mergeRuns sort_cb xs ys s).2.1).Perm
      ((xs ++ ys).take (mergeRuns sort_cb xs ys s).2.1.length) := by
  match ys, hy with
  | [], _ => simp [mergeRuns]
  | [y], _ =>
    match xs, hx with
    | [], _ =>
      simp only [mergeRuns, mergeL.eq_2]
      rcases sort_cb y y s with ⟨_ | c, s1⟩
      · simp
      · simp [mergeL.eq_1]
    | [x], _ =>
      simp only [mergeRuns, mergeL.eq_3]
      rcases sort_cb x y s with ⟨_ | c, s1⟩
      · simp
      · simp only []
        by_cases hc : c ≤ 0
        · simp only [if_pos hc, mergeL.eq_2]
          rcases sort_cb y y s1 with ⟨_ | c2, s2⟩
          · simp
          · simp [mergeL.eq_1]
        · simp only [if_neg hc, mergeL.eq_1]
          simpa using List.Perm.swap x y []

/-- With run width 1 the output of a pass, also of a failed one, is a permutation of
an initial part of the source. -/
theorem passL_one_initial (sort_cb : V → V → σ → Option Int × σ) (src : List V) (s : σ) :
    ((passL sort_cb 1 src s).2.1).Perm (src.take (passL sort_cb 1 src s).2.1.length) := by
  refine passL_ind sort_cb 1 (fun src _ r => (r.2.1).Perm (src.take r.2.1.length)) ?_ ?_ ?_ src s
  · intro src s _; simp
  · intro src s _ _ _
    have h := mergeRuns_short_initial sort_cb (src.take 1) ((src.drop 1).take 1) s
      (List.length_take_le _ _) (List.length_take_le _ _)
    have hl := mergeRuns_length_le sort_cb (src.take 1) ((src.drop 1).take 1) s
    rw [take_two_runs] at h
    rw [← List.length_append, take_two_runs] at hl
    rw [List.take_take, Nat.min_eq_left (le_trans hl (List.length_take_le _ _))] at h
    exact h
  · intro src s r _ _ hm ih
    have h1 := mergeRuns_perm sort_cb _ _ s hm
    have hl := mergeRuns_length_ok sort_cb _ _ s hm
    rw [take_two_runs] at h1
    rw [← List.length_append, take_two_runs, List.length_take] at hl
    simp only [List.length_append]
    by_cases h2 : 2 * 1 ≤ src.length
    · have e : (mergeRuns sort_cb (src.take 1) ((src.drop 1).take 1) s).2.1.length = 2 * 1 := by
        rw [hl]; omega
      rw [e, List.take_add]
      exact List.Perm.append h1 ih
    · have hnil : src.drop (2 * 1) = [] := List.drop_of_length_le (by omega)
      rw [hnil] at ih
      have hr : r.2.1 = [] := by simpa using ih
      rw [hr]
      simp only [List.append_nil, List.length_nil, Nat.add_zero]
      have e1 : src.take (2 * 1) = src := List.take_of_length_le (by omega)
      have e2 : src.take (min (2 * 1) src.length) = src := List.take_of_length_le (by omega)
      rw [hl, e2]
      rw [e1] at h1
      exact h1

theorem sortL_passes_le (sort_cb : V → V → σ → Option Int × σ) (n w : Nat)
    (st : PassState V σ) : st.passes ≤ (sortL sort_cb n w st).passes := by
  refine sortL_ind sort_cb n (fun _ st r => st.passes ≤ r.passes) ?_ ?_ ?_ w st
  · intro w st _; exact le_refl _
  · intro w st _ _ _; simp
  · intro w st r _ _ _ ih
    simp only [] at ih; omega

theorem sortL_eq_of_passes (sort_cb : V → V → σ → Option Int × σ) (n w : Nat)
    (st : PassState V σ) (h : (sortL sort_cb n w st).passes = st.passes) :
    sortL sort_cb n w st = st := by
  rw [sortL] at h ⊢
  by_cases hc : 0 < w ∧ w < n
  · rw [dif_pos hc] at h
    by_cases he : (passL sort_cb w st.src st.cb_state).1 = .ECMA_VALUE_ERROR
    · rw [if_pos he] at h
      simp at h
    · rw [if_neg he] at h
      have := sortL_passes_le sort_cb n (2 * w)
        { src := splice st.dst 0 (passL sort_cb w st.src st.cb_state).2.1
          dst := st.src
          ret_value := .ECMA_VALUE_EMPTY
          cb_state := (passL sort_cb w st.src st.cb_state).2.2
          passes := st.passes + 1 }
      simp only [] at this
      omega
  · rw [dif_neg hc]

/-- When at most one pass was executed, the current buffer is a permutation of the
input. -/
theorem sortL_first_pass_perm (sort_cb : V → V → σ → Option Int × σ) (array : List V) (s : σ)
    (h : (sortL sort_cb array.length 1 (initL array s)).passes ≤ 1) :
    ((sortL sort_cb array.length 1 (initL array s)).src).Perm array := by
  rw [sortL] at h ⊢
  by_cases hc : 0 < 1 ∧ 1 < array.length
  · rw [dif_pos hc] at h ⊢
    have hpre := passL_one_initial sort_cb array s
    have hlen := passL_length_le sort_cb 1 _ array s (le_refl _)
    by_cases he : (passL sort_cb 1 (initL array s).src (initL array s).cb_state).1 =
        .ECMA_VALUE_ERROR
    · rw [if_pos he]
      simp only [initL, splice, List.take_zero, List.nil_append, Nat.zero_add]
      have := List.Perm.append_right (array.drop (passL sort_cb 1 array s).2.1.length) hpre
      rw [List.take_append_drop] at this
      exact this
    · rw [if_neg he] at h ⊢
      have hp := sortL_passes_le sort_cb array.length (2 * 1)
        { src := splice (initL array s).dst 0
            (passL sort_cb 1 (initL array s).src (initL array s).cb_state).2.1
          dst := (initL array s).src
          ret_value := .ECMA_VALUE_EMPTY
          cb_state := (passL sort_cb 1 (initL array s).src (initL array s).cb_state).2.2
          passes := (initL array s).passes + 1 }
      rw [sortL_eq_of_passes sort_cb _ _ _ (by simp only [] at hp h ⊢; omega)]
      simp only [initL]
      have hok := ecma_status_ne_error he
      have hperm := passL_perm sort_cb 1 array s hok (by decide)
      rw [splice_zero_full _ _ hperm.length_eq]
      exact hperm
  · rw [dif_neg hc]
    exact List.Perm.refl _

theorem seg_take (a : List V) {lo hi n : Nat} (h : hi ≤ n) :
    seg (a.take n) lo hi = seg a lo hi := by
  unfold seg
  rw [List.drop_take, List.take_take, Nat.min_eq_left (by omega)]

theorem seg_append (a : List V) {lo mid hi : Nat} (h1 : lo ≤ mid) (h2 : mid ≤ hi) :
    seg a lo mid ++ seg a mid hi = seg a lo hi := by
  unfold seg
  have e : hi - lo = (mid - lo) + (hi - mid) := by omega
  rw [e, List.take_add, List.drop_drop]
  congr 3
  omega

theorem seg_splice (b wr : List V) {lo hi : Nat} (hb : lo ≤ b.length)
    (hw : wr.length = hi - lo) : seg (splice b lo wr) lo hi = wr := by
  unfold seg splice
  have hl : (b.take lo).length = lo := by simp; omega
  rw [List.append_assoc, List.drop_append_eq_append_drop, hl,
    List.drop_of_length_le (by omega)]
  simp only [Nat.sub_self, List.drop_zero, List.nil_append]
  rw [List.take_append_eq_append_take, ← hw]
  simp

/-! ### Writes of the merge step -/

/-! ### The output buffer outside the written part -/

theorem splice_take (b wr : List V) (k : Nat) (hk : k ≤ b.length) :
    (splice b k wr).take k = b.take k := by
  unfold splice
  have hl : (b.take k).length = k := by simp; omega
  rw [List.append_assoc, List.take_append_eq_append_take, hl]
  simp [List.take_of_length_le (le_of_eq hl)]

theorem splice_drop (b wr : List V) (k : Nat) (hk : k ≤ b.length) :
    (splice b k wr).drop (k + wr.length) = b.drop (k + wr.length) := by
  unfold splice
  have hl : (b.take k ++ wr).length = k + wr.length := by simp; omega
  rw [List.drop_append_eq_append_drop, hl, List.drop_of_length_le (le_of_eq hl)]
  simp

theorem splice_get_lt (b wr : List V) (k idx : Nat) (hk : k ≤ b.length) (h : idx < k) :
    (splice b k wr)[idx]? = b[idx]? := by
  have h1 := splice_take b wr k hk
  rw [← List.getElem?_take_of_lt h, h1, List.getElem?_take_of_lt h]

theorem splice_get_ge (b wr : List V) (k idx : Nat) (hk : k ≤ b.length)
    (h : k + wr.length ≤ idx) : (splice b k wr)[idx]? = b[idx]? := by
  have h1 := splice_drop b wr k hk
  have e : idx = (k + wr.length) + (idx - (k + wr.length)) := by omega
  rw [e, ← List.getElem?_drop, h1, List.getElem?_drop]

theorem splice_eq_of_length (b wr : List V) (lo hi : Nat) (hw : wr.length = hi - lo)
    (h : lo ≤ hi) : splice b lo wr = b.take lo ++ wr ++ b.drop hi := by
  unfold splice
  rw [hw]
  congr 2
  omega

/-! ### The invocations of the merge step, one by one -/

/-! ### The schedule of invocations of the merge loop -/

theorem logged_outcome (sort_cb : V → V → σ → Option Int × σ) (a b : V)
    (st st1 : σ × List (V × V × Option Int)) (o : Option Int)
    (h : logged sort_cb a b st = (o, st1)) : o = (sort_cb a b st.1).1 := by
  obtain ⟨s, log⟩ := st
  simp only [logged, Prod.mk.injEq] at h
  exact h.1.symm

/-- The log of `mergeL`: a failure is the last invocation and comes after exactly one
successful invocation per element written; with a non-empty second run the first
invocation compares the head of the first run, or `p` when that run is empty, with the
head of the second run. -/
theorem mergeL_schedule (sort_cb : V → V → σ → Option Int × σ) (p : V) (xs ys : List V)
    (st : σ × List (V × V × Option Int)) :
    ∃ new, (mergeL (logged sort_cb) p xs ys st).2.2.2 = st.2 ++ new ∧
      TraceOK (mergeL (logged sort_cb) p xs ys st).1 new ∧
      ((mergeL (logged sort_cb) p xs ys st).1 = .ECMA_VALUE_ERROR →
        (mergeL (logged sort_cb) p xs ys st).2.1.length + 1 = new.length) ∧
      (∀ y ys1, ys = y :: ys1 →
        ∃ rest, new = (xs.headD p, y, (sort_cb (xs.headD p) y st.1).1) :: rest) := by
  refine mergeL_ind (logged sort_cb) p (fun xs ys st r => ∃ new, r.2.2.2 = st.2 ++ new ∧
      TraceOK r.1 new ∧ (r.1 = .ECMA_VALUE_ERROR → r.2.1.length + 1 = new.length) ∧
      (∀ y ys1, ys = y :: ys1 →
        ∃ rest, new = (xs.headD p, y, (sort_cb (xs.headD p) y st.1).1) :: rest))
    ?_ ?_ ?_ ?_ ?_ ?_ xs ys st
  · intro xs st
    exact ⟨[], by simp, Or.inl ⟨rfl, cleanLog_nil⟩, by simp, by simp⟩
  · intro y ys st st1 h
    refine ⟨[(p, y, none)], logged_log sort_cb p y st st1 none h,
      Or.inr ⟨rfl, [], p, y, rfl, cleanLog_nil⟩, by simp, ?_⟩
    intro y1 ys1 he
    obtain ⟨rfl, -⟩ := List.cons.inj he
    exact ⟨[], by have e := logged_outcome sort_cb p y st st1 _ h; simp [List.headD, ← e]⟩
  · intro y ys st c st1 r h ih
    obtain ⟨new, h1, h2, h3, -⟩ := ih
    refine ⟨(p, y, some c) :: new, ?_, TraceOK.prepend (cleanLog_single p y c) h2, ?_, ?_⟩
    · rw [h1, logged_log sort_cb p y st st1 _ h]; simp
    · intro he; have := h3 he; simp at this ⊢; omega
    · intro y1 ys1 he
      obtain ⟨rfl, -⟩ := List.cons.inj he
      exact ⟨new, by have e := logged_outcome sort_cb p y st st1 _ h; simp [List.headD, ← e]⟩
  · intro x xs y ys st st1 h
    refine ⟨[(x, y, none)], logged_log sort_cb x y st st1 none h,
      Or.inr ⟨rfl, [], x, y, rfl, cleanLog_nil⟩, by simp, ?_⟩
    intro y1 ys1 he
    obtain ⟨rfl, -⟩ := List.cons.inj he
    exact ⟨[], by have e := logged_outcome sort_cb x y st st1 _ h; simp [List.headD, ← e]⟩
  · intro x xs y ys st c st1 r h _ ih
    obtain ⟨new, h1, h2, h3, -⟩ := ih
    refine ⟨(x, y, some c) :: new, ?_, TraceOK.prepend (cleanLog_single x y c) h2, ?_, ?_⟩
    · rw [h1, logged_log sort_cb x y st st1 _ h]; simp
    · intro he; have := h3 he; simp at this ⊢; omega
    · intro y1 ys1 he
      obtain ⟨rfl, -⟩ := List.cons.inj he
      exact ⟨new, by have e := logged_outcome sort_cb x y st st1 _ h; simp [List.headD, ← e]⟩
  · intro x xs y ys st c st1 r h _ ih
    obtain ⟨new, h1, h2, h3, -⟩ := ih
    refine ⟨(x, y, some c) :: new, ?_, TraceOK.prepend (cleanLog_single x y c) h2, ?_, ?_⟩
    · rw [h1, logged_log sort_cb x y st st1 _ h]; simp
    · intro he; have := h3 he; simp at this ⊢; omega
    · intro y1 ys1 he
      obtain ⟨rfl, -⟩ := List.cons.inj he
      exact ⟨new, by have e := logged_outcome sort_cb x y st st1 _ h; simp [List.headD, ← e]⟩

/-- With the first run exhausted the loop still invokes the callback once per element
of the second run, with `p` as first argument, and takes the elements of the second run
in order whatever the answers are; a failure ends it. -/
theorem mergeL_exhausted (sort_cb : V → V → σ → Option Int × σ) (p : V) :
    ∀ (ys : List V) (st : σ × List (V × V × Option Int)),
      ∃ new, (mergeL (logged sort_cb) p [] ys st).2.2.2 = st.2 ++ new ∧
        (mergeL (logged sort_cb) p [] ys st).2.1 =
          ys.take (mergeL (logged sort_cb) p [] ys st).2.1.length ∧
        new.map (fun e => (e.1, e.2.1)) = (ys.take new.length).map (fun y => (p, y)) ∧
        ((mergeL (logged sort_cb) p [] ys st).1 = .ECMA_VALUE_EMPTY →
          (mergeL (logged sort_cb) p [] ys st).2.1 = ys ∧ new.length = ys.length) ∧
        ((mergeL (logged sort_cb) p [] ys st).1 = .ECMA_VALUE_ERROR →
          new.length = (mergeL (logged sort_cb) p [] ys st).2.1.length + 1) := by
  intro ys
  induction ys with
  | nil =>
    intro st
    exact ⟨[], by simp [mergeL], by simp [mergeL], by simp, by simp [mergeL], by simp [mergeL]⟩
  | cons y ys ih =>
    intro st
    rw [mergeL.eq_2]
    rcases hcb : logged sort_cb p y st with ⟨_ | c, st1⟩
    · exact ⟨[(p, y, none)], logged_log sort_cb p y st st1 none hcb, by simp, by simp,
        by simp, by simp⟩
    · obtain ⟨new, h1, h2, h3, h4, h5⟩ := ih st1
      refine ⟨(p, y, some c) :: new, ?_, ?_, ?_, ?_, ?_⟩
      · simp only []; rw [h1, logged_log sort_cb p y st st1 _ hcb]; simp
      · simp only [List.length_cons, List.take_succ_cons]
        rw [← h2]
      · simp only [List.map_cons, List.length_cons, List.take_succ_cons]
        rw [h3]
      · intro he
        obtain ⟨e1, e2⟩ := h4 he
        simp only []
        exact ⟨by rw [e1], by simp [e2]⟩
      · intro he
        have := h5 he
        simp only [List.length_cons]
        omega

theorem mergeRuns_schedule (sort_cb : V → V → σ → Option Int × σ) (xs ys : List V)
    (st : σ × List (V × V × Option Int)) :
    ∃ new, (mergeRuns (logged sort_cb) xs ys st).2.2.2 = st.2 ++ new ∧
      TraceOK (mergeRuns (logged sort_cb) xs ys st).1 new ∧
      ((mergeRuns (logged sort_cb) xs ys st).1 = .ECMA_VALUE_ERROR →
        (mergeRuns (logged sort_cb) xs ys st).2.1.length + 1 = new.length ∧
        (mergeRuns (logged sort_cb) xs ys st).2.1.length < xs.length + ys.length) := by
  cases ys with
  | nil => exact ⟨[], by simp [mergeRuns], Or.inl ⟨rfl, cleanLog_nil⟩, by simp [mergeRuns]⟩
  | cons y ys =>
    obtain ⟨new, h1, h2, h3, -⟩ := mergeL_schedule sort_cb y xs (y :: ys) st
    obtain ⟨new2, g1, g2, -⟩ := mergeL_log sort_cb y xs (y :: ys) st
    have e : new2 = new := List.append_cancel_left (g1.symm.trans h1)
    rw [e] at g2
    refine ⟨new, h1, h2, ?_⟩
    intro he
    have := h3 he
    exact ⟨this, by simp only [mergeRuns]; omega⟩

/-- A failing invocation ends the merge loop in the same iteration, before any write. -/
theorem merge_loop_fail (sort_cb : V → V → σ → Option Int × σ) (a : List V)
    (iRight iEnd n k i j : Nat) (b : List V) (t : σ) (x y : V)
    (hk : k < iEnd) (hj : j < iEnd) (hx : a[i]? = some x) (hy : a[j]? = some y)
    (hfail : (sort_cb x y t).1 = none) :
    merge_loop sort_cb a iRight iEnd (n + 1) k i j b t =
      .ok (.ECMA_VALUE_ERROR, b, (sort_cb x y t).2) := by
  unfold merge_loop
  simp only [if_pos hk, if_pos hj, hx, hy]
  rcases hcb : sort_cb x y t with ⟨o, s1⟩
  rw [hcb] at hfail
  simp only [] at hfail
  subst hfail
  rfl

/-! ### The outer loop, pass by pass -/

theorem outer_loop_succ (sort_cb : V → V → σ → Option Int × σ) (F n fuel : Nat)
    (st : DriverState V σ) :
    outer_loop sort_cb F n (fuel + 1) st =
      if st.w < n then
        match outer_body sort_cb F n st with
        | .error f => .error f
        | .ok st1 => outer_loop sort_cb F n fuel st1
      else .ok st := by
  rw [outer_loop]
  unfold outer_body
  by_cases hw : st.w < n
  · simp only [if_pos hw]
    rcases inner_loop sort_cb F (st.heap.read st.array_p) n st.w F 0 st.ret_value
      (st.heap.read st.array_copy_p) st.cb_state with f | ⟨r, w1, d, t⟩
    · rfl
    · rfl
  · simp only [if_neg hw]

/-- The state in which the outer loop ends is the loop head at which its condition
fails. -/
theorem outer_loop_head (sort_cb : V → V → σ → Option Int × σ) (F n : Nat) :
    ∀ (fuel : Nat) (st st1 : DriverState V σ), outer_loop sort_cb F n fuel st = .ok st1 →
      loop_head sort_cb F n fuel st = .ok st1 ∧ ¬ st1.w < n := by
  intro fuel
  induction fuel with
  | zero => intro st st1 h; simp [outer_loop] at h
  | succ fuel ih =>
    intro st st1 h
    rw [outer_loop_succ] at h
    rw [loop_head]
    by_cases hw : st.w < n
    · rw [if_pos hw] at h ⊢
      rcases hb : outer_body sort_cb F n st with f | st2
      · rw [hb] at h; simp at h
      · rw [hb] at h
        exact ih st2 st1 h
    · rw [if_neg hw] at h ⊢
      have e : st = st1 := by injection h
      subst e
      exact ⟨rfl, hw⟩

/-- The outer loop passes through every loop head. -/
theorem outer_loop_through (sort_cb : V → V → σ → Option Int × σ) (F n : Nat) :
    ∀ (m : Nat) (st0 st : DriverState V σ), loop_head sort_cb F n m st0 = .ok st →
      ∀ k, 0 < k → outer_loop sort_cb F n (k + m) st0 = outer_loop sort_cb F n k st := by
  intro m
  induction m with
  | zero =>
    intro st0 st h k _
    rw [loop_head] at h
    have e : st0 = st := by injection h
    rw [e]; rfl
  | succ m ih =>
    intro st0 st h k hk
    rw [loop_head] at h
    rw [← Nat.add_assoc, outer_loop_succ]
    by_cases hw : st0.w < n
    · rw [if_pos hw] at h ⊢
      rcases hb : outer_body sort_cb F n st0 with f | st2
      · rw [hb] at h; simp at h
      · rw [hb] at h
        exact ih st2 st h k hk
    · rw [if_neg hw] at h ⊢
      have e : st0 = st := by injection h
      subst e
      obtain ⟨k1, rfl⟩ : ∃ k1, k = k1 + 1 := ⟨k - 1, by omega⟩
      rw [outer_loop_succ, if_neg hw]

/-- When the outer loop has run at least once, its final state is the outcome of one
iteration from a loop head. -/
theorem outer_loop_last (sort_cb : V → V → σ → Option Int × σ) (F n : Nat) :
    ∀ (fuel : Nat) (st0 st1 : DriverState V σ), outer_loop sort_cb F n fuel st0 = .ok st1 →
      st1 = st0 ∨ ∃ m st, loop_head sort_cb F n m st0 = .ok st ∧ st.w < n ∧
        outer_body sort_cb F n st = .ok st1 := by
  intro fuel
  induction fuel with
  | zero => intro st st1 h; simp [outer_loop] at h
  | succ fuel ih =>
    intro st0 st1 h
    rw [outer_loop_succ] at h
    by_cases hw : st0.w < n
    · rw [if_pos hw] at h
      rcases hb : outer_body sort_cb F n st0 with f | st2
      · rw [hb] at h; simp at h
      · rw [hb] at h
        rcases ih st2 st1 h with e | ⟨m, st, h1, h2, h3⟩
        · exact Or.inr ⟨0, st0, rfl, hw, by rw [hb, e]⟩
        · refine Or.inr ⟨m + 1, st, ?_, h2, h3⟩
          rw [loop_head, if_pos hw, hb]
          exact h1
    · rw [if_neg hw] at h
      have e : st0 = st1 := by injection h
      exact Or.inl e.symm

theorem HeadInv.ne {n : Nat} {st : DriverState V σ} (h : HeadInv n st) :
    st.array_p ≠ st.array_copy_p := by
  obtain ⟨h1, h2, -⟩ := h
  rw [h1, h2]
  split <;> simp

theorem HeadInv.running {n : Nat} {st : DriverState V σ} (h : HeadInv n st) (hw : st.w < n) :
    st.ret_value = .ECMA_VALUE_EMPTY ∧ st.w = 2 ^ st.passes := by
  obtain ⟨-, -, -, -, h5, -⟩ := h
  rcases h5 with h5 | ⟨-, h5⟩
  · exact h5
  · omega

theorem headInv_initD (array : List V) (s : σ) : HeadInv array.length (initD array s) := by
  refine ⟨rfl, rfl, rfl, rfl, Or.inl ⟨rfl, rfl⟩, Or.inl rfl⟩

/-- One iteration of the outer loop from a loop head with `w < length`: what it
leaves, in terms of `passL`. -/
theorem outer_body_eq (sort_cb : V → V → σ → Option Int × σ) (F n : Nat)
    (hn : n < 2147483648) (hF : n < F) (st : DriverState V σ) (hinv : HeadInv n st)
    (hw : st.w < n) :
    inner_loop sort_cb F (st.heap.read st.array_p) n st.w F 0 st.ret_value
        (st.heap.read st.array_copy_p) st.cb_state =
      .ok ((passL sort_cb st.w (st.heap.read st.array_p) st.cb_state).1,
        if (passL sort_cb st.w (st.heap.read st.array_p) st.cb_state).1 = .ECMA_VALUE_ERROR
          then n else st.w,
        splice (st.heap.read st.array_copy_p) 0
          (passL sort_cb st.w (st.heap.read st.array_p) st.cb_state).2.1,
        (passL sort_cb st.w (st.heap.read st.array_p) st.cb_state).2.2) ∧
    ∃ st1, outer_body sort_cb F n st = .ok st1 ∧ HeadInv n st1 ∧
      st1.passes = st.passes + 1 ∧
      st1.array_p = st.array_copy_p ∧ st1.array_copy_p = st.array_p ∧
      st1.heap.read st1.array_p = splice (st.heap.read st.array_copy_p) 0
          (passL sort_cb st.w (st.heap.read st.array_p) st.cb_state).2.1 ∧
      st1.heap.read st1.array_copy_p = st.heap.read st.array_p ∧
      st1.ret_value = (passL sort_cb st.w (st.heap.read st.array_p) st.cb_state).1 ∧
      st1.cb_state = (passL sort_cb st.w (st.heap.read st.array_p) st.cb_state).2.2 ∧
      st1.w = (if (passL sort_cb st.w (st.heap.read st.array_p) st.cb_state).1 =
        .ECMA_VALUE_ERROR then 2 * n else 2 * st.w) := by
  have hne := hinv.ne
  obtain ⟨hret, hwp⟩ := hinv.running hw
  obtain ⟨h1, h2, hl1, hl2, -, -⟩ := hinv
  have hwpos : 0 < st.w := by rw [hwp]; exact Nat.pos_pow_of_pos _ (by decide)
  have hw30 : st.w ≤ 1073741824 := by
    rw [hwp]; exact two_pow_le_of_lt (by rw [← hwp]; omega)
  have hin := inner_loop_eq sort_cb F (st.heap.read st.array_p) st.w hwpos hw30
    (by omega) (by omega) F 0 st.ret_value (st.heap.read st.array_copy_p) st.cb_state
    (by omega) (by omega)
  rw [hl1] at hin
  simp only [List.drop_zero, if_pos (by omega : 0 < n)] at hin
  refine ⟨hin, ?_⟩
  unfold outer_body
  rw [hin]
  simp only []
  have hlen := passL_length_le sort_cb st.w _ (st.heap.read st.array_p) st.cb_state (le_refl _)
  have hsl : (splice (st.heap.read st.array_copy_p) 0
      (passL sort_cb st.w (st.heap.read st.array_p) st.cb_state).2.1).length = n := by
    rw [length_splice _ _ _ (by omega)]; exact hl2
  have hwval : (2 * (if (passL sort_cb st.w (st.heap.read st.array_p) st.cb_state).1 =
      .ECMA_VALUE_ERROR then n else st.w)) % UINT32_RANGE =
      (if (passL sort_cb st.w (st.heap.read st.array_p) st.cb_state).1 =
        .ECMA_VALUE_ERROR then 2 * n else 2 * st.w) := by
    split
    · exact Nat.mod_eq_of_lt (by unfold UINT32_RANGE; omega)
    · exact Nat.mod_eq_of_lt (by unfold UINT32_RANGE; omega)
  refine ⟨_, rfl, ⟨?_, ?_, ?_, ?_, ?_, ?_⟩, rfl, rfl, rfl, ?_, ?_, rfl, rfl, hwval⟩
  · simp only []
    rw [h2]
    by_cases hp : st.passes % 2 = 0
    · have : (st.passes + 1) % 2 ≠ 0 := by omega
      simp [hp, this]
    · have : (st.passes + 1) % 2 = 0 := by omega
      simp [hp, this]
  · simp only []
    rw [h1]
    by_cases hp : st.passes % 2 = 0
    · have : (st.passes + 1) % 2 ≠ 0 := by omega
      simp [hp, this]
    · have : (st.passes + 1) % 2 = 0 := by omega
      simp [hp, this]
  · simp only [Heap.read_write_same]; exact hsl
  · simp only [Heap.read_write_other _ _ _ _ (Ne.symm hne)]; exact hl1
  · simp only [hwval]
    by_cases herr : (passL sort_cb st.w (st.heap.read st.array_p) st.cb_state).1 =
        .ECMA_VALUE_ERROR
    · right; exact ⟨herr, by rw [if_pos herr]⟩
    · left; refine ⟨ecma_status_ne_error herr, ?_⟩
      rw [if_neg herr, hwp, pow_succ]; ring
  · right
    simp only [Nat.add_sub_cancel]
    rw [← hwp]; exact hw
  · simp only [Heap.read_write_same]
  · simp only [Heap.read_write_other _ _ _ _ (Ne.symm hne)]

/-- Every loop head is reached (the iterations before it return) and has the
properties of `HeadInv`. -/
theorem loop_head_inv (sort_cb : V → V → σ → Option Int × σ) (F n : Nat)
    (hn : n < 2147483648) (hF : n < F) :
    ∀ (m : Nat) (st0 : DriverState V σ), HeadInv n st0 →
      ∃ st, loop_head sort_cb F n m st0 = .ok st ∧ HeadInv n st ∧
        st0.passes ≤ st.passes ∧ st.passes ≤ st0.passes + m ∧
        (st.w < n → st.passes = st0.passes + m) := by
  intro m
  induction m with
  | zero => intro st0 h0; exact ⟨st0, rfl, h0, le_refl _, le_refl _, fun _ => rfl⟩
  | succ m ih =>
    intro st0 h0
    rw [loop_head]
    by_cases hw : st0.w < n
    · obtain ⟨-, st1, hb, hinv1, hp1, -⟩ := outer_body_eq sort_cb F n hn hF st0 h0 hw
      rw [if_pos hw, hb]
      obtain ⟨st, q1, q2, q3, q4, q5⟩ := ih st1 hinv1
      exact ⟨st, q1, q2, by omega, by omega, fun h => by have := q5 h; omega⟩
    · rw [if_neg hw]
      exact ⟨st0, rfl, h0, le_refl _, by omega, fun h => absurd h hw⟩

theorem headInv_passes_le {n : Nat} {st : DriverState V σ} (h : HeadInv n st) :
    st.passes ≤ Nat.clog 2 n := by
  obtain ⟨-, -, -, -, -, h6⟩ := h
  rcases h6 with h6 | h6
  · omega
  · have := (Nat.pow_lt_iff_lt_clog (by decide : 1 < 2)).mp h6
    omega

/-- The driver in terms of the state in which its outer loop ends: the caller's array
holds the buffer `array_p` points to after the last exchange, and the copy back is
made exactly when this is the scratch buffer. -/
theorem merge_sort_helper_state (sort_cb : V → V → σ → Option Int × σ) (fuel : Nat)
    (array : List V) (junk : Nat → V) (s : σ)
    (hn : array.length < 2147483648) (hf : array.length < fuel) :
    ∃ st1, outer_loop sort_cb fuel array.length fuel (initD array s) = .ok st1 ∧
      HeadInv array.length st1 ∧
      ecma_builtin_helper_array_merge_sort_helper sort_cb fuel array array.length junk s =
        .ok { ret_value := st1.ret_value
              array := st1.heap.read st1.array_p
              finalized := [.scratch]
              cb_state := st1.cb_state
              passes := st1.passes
              copied_back := decide (st1.array_p = .scratch) } := by
  have hU : array.length < UINT32_RANGE := by unfold UINT32_RANGE; omega
  obtain ⟨st1, h1, -⟩ := outer_loop_eq sort_cb fuel array.length hn hf fuel (initD array s)
    (by simp [initD]) rfl rfl ⟨0, rfl⟩ (by simp only [initD]; omega)
  obtain ⟨hh, -⟩ := outer_loop_head sort_cb fuel array.length fuel _ _ h1
  obtain ⟨st2, q1, hinv, -⟩ := loop_head_inv sort_cb fuel array.length hn hf fuel
    (initD array s) (headInv_initD array s)
  rw [hh] at q1
  have e : st1 = st2 := by injection q1
  subst e
  refine ⟨st1, h1, hinv, ?_⟩
  obtain ⟨p1, p2, l1, l2, -, -⟩ := hinv
  unfold ecma_builtin_helper_array_merge_sort_helper
  rw [copy_loop_eq array array.length (le_refl _) hU fuel 0 _ (Nat.zero_le _) (by simp)
    (by omega), seg_zero_length, splice_zero_full _ _ (by simp)]
  simp only [ne_eq, not_true_eq_false, if_false]
  have h1b : outer_loop sort_cb fuel array.length fuel
      { w := 1, array_p := .base, array_copy_p := .scratch,
        heap := { base := array, scratch := array },
        ret_value := .ECMA_VALUE_EMPTY, cb_state := s, passes := 0 } = .ok st1 := h1
  rw [h1b]
  simp only []
  by_cases hp : st1.passes % 2 = 0
  · rw [if_pos hp] at p1 p2
    rw [p2, p1]
    simp [Heap.read]
  · rw [if_neg hp] at p1 p2
    rw [p2] at l2
    rw [p1] at l1
    rw [p2, p1]
    simp only [if_true]
    rw [copy_loop_eq _ array.length (by omega) hU fuel 0 _ (Nat.zero_le _) (by omega) (by omega)]
    have e : seg (st1.heap.read .scratch) 0 array.length = st1.heap.read .scratch := by
      rw [← l1]; exact seg_zero_length _
    rw [e, splice_zero_full _ _ (by omega)]
    simp [Heap.read, Heap.write]

theorem seg_block (l : List V) (lo w : Nat) :
    seg l lo (min (lo + w) l.length) = (l.drop lo).take w := by
  unfold seg
  by_cases h : lo + w ≤ l.length
  · rw [Nat.min_eq_left h, Nat.add_sub_cancel_left]
  · rw [List.take_of_length_le (by simp; omega), List.take_of_length_le (by simp; omega)]

/-- With a callback that answers with a total preorder, at every loop head the blocks
of width `w` of the source buffer are sorted and the buffer is a permutation of the
input. -/
theorem loop_head_answers (sort_cb : V → V → σ → Option Int × σ) (compare : V → V → Int)
    (h : Answers sort_cb compare)
    (trans : ∀ a b c, le_of compare a b = true → le_of compare b c = true →
      le_of compare a c = true)
    (total : ∀ a b, le_of compare a b = true ∨ le_of compare b a = true)
    (F n : Nat) (hn : n < 2147483648) (hF : n < F) (array : List V) :
    ∀ (m : Nat) (st0 : DriverState V σ), HeadInv n st0 →
      BlockSorted (le_of compare) st0.w (st0.heap.read st0.array_p) →
      (st0.heap.read st0.array_p).Perm array →
      ∃ st, loop_head sort_cb F n m st0 = .ok st ∧
        BlockSorted (le_of compare) st.w (st.heap.read st.array_p) ∧
        (st.heap.read st.array_p).Perm array := by
  intro m
  induction m with
  | zero => intro st0 _ hb hp; exact ⟨st0, rfl, hb, hp⟩
  | succ m ih =>
    intro st0 h0 hb hp
    rw [loop_head]
    by_cases hw : st0.w < n
    · obtain ⟨-, st1, hbody, hinv1, -, -, -, hsrc, -, -, -, hw1⟩ :=
        outer_body_eq sort_cb F n hn hF st0 h0 hw
      rw [if_pos hw, hbody]
      obtain ⟨-, hwp⟩ := h0.running hw
      have hwpos : 0 < st0.w := by rw [hwp]; exact Nat.pos_pow_of_pos _ (by decide)
      have hok := passL_never_fails sort_cb h.never_fails st0.w (st0.heap.read st0.array_p)
        st0.cb_state
      obtain ⟨p1, p2, -⟩ := passL_answers sort_cb compare h trans total st0.w hwpos
        (st0.heap.read st0.array_p) st0.cb_state hb
      have hperm := passL_perm sort_cb st0.w (st0.heap.read st0.array_p) st0.cb_state hok hwpos
      obtain ⟨-, -, l1, l2, -, -⟩ := h0
      rw [splice_zero_full _ _ (by rw [p1, l1, l2])] at hsrc
      rw [hok, if_neg (by simp)] at hw1
      exact ih st1 hinv1 (by rw [hw1, hsrc]; exact p2) (by rw [hsrc]; exact hperm.trans hp)
    · rw [if_neg hw]
      exact ⟨st0, rfl, hb, hp⟩

/-! ## The claims -/

/-- C1 (sortedness): for a callback that never fails and answers with a comparison
that is total and transitive, the driver run on an array of fewer than `2 ^ 31`
elements with fuel above the length returns `ECMA_VALUE_EMPTY`, and every adjacent pair
`x = array[i]`, `y = array[i + 1]` of the caller's array then satisfies
`compare x y <= 0`. -/
theorem C1_sortedness (sort_cb : V → V → σ → Option Int × σ) (compare : V → V → Int)
    (h : Answers sort_cb compare)
    (total : ∀ a b, compare a b ≤ 0 ∨ compare b a ≤ 0)
    (trans : ∀ a b c, compare a b ≤ 0 → compare b c ≤ 0 → compare a c ≤ 0)
    (fuel : Nat) (array : List V) (junk : Nat → V) (s : σ)
    (hn : array.length < 2147483648) (hf : array.length < fuel) :
    ∃ res, ecma_builtin_helper_array_merge_sort_helper sort_cb fuel array array.length junk s =
        .ok res ∧
      res.ret_value = .ECMA_VALUE_EMPTY ∧
      ∀ i x y, res.array[i]? = some x → res.array[i + 1]? = some y → compare x y ≤ 0 := by
  obtain ⟨res, h1, h2, h3, -⟩ :=
    merge_sort_helper_answers sort_cb compare h total trans fuel array junk s hn hf
  refine ⟨res, h1, h2, ?_⟩
  intro i x y hx hy
  obtain ⟨hi, rfl⟩ := List.getElem?_eq_some_iff.mp hx
  obtain ⟨hj, rfl⟩ := List.getElem?_eq_some_iff.mp hy
  rw [← le_of_iff]
  exact List.pairwise_iff_getElem.mp h3 i (i + 1) hi hj (Nat.lt_succ_self i)

/-- Witness of C1: the array `[3, 1, 2]` with numeric ascending comparison. -/
theorem C1_sortedness_witness :
    Answers (pure_cb natCompare) natCompare ∧
    (∀ a b, natCompare a b ≤ 0 ∨ natCompare b a ≤ 0) ∧
    (∀ a b c, natCompare a b ≤ 0 → natCompare b c ≤ 0 → natCompare a c ≤ 0) ∧
    ∃ res, ecma_builtin_helper_array_merge_sort_helper (pure_cb natCompare) 4 [3, 1, 2]
        [3, 1, 2].length (fun _ => 0) () = .ok res ∧
      res.ret_value = .ECMA_VALUE_EMPTY ∧
      ∀ i x y, res.array[i]? = some x → res.array[i + 1]? = some y → natCompare x y ≤ 0 :=
  ⟨fun _ _ _ => rfl, fun a b => by unfold natCompare; omega,
    fun a b c => by unfold natCompare; omega,
    C1_sortedness (pure_cb natCompare) natCompare (fun _ _ _ => rfl)
      (fun a b => by unfold natCompare; omega) (fun a b c => by unfold natCompare; omega)
      4 [3, 1, 2] (fun _ => 0) () (by decide) (by decide)⟩

/-- C2 (stability): for a callback that never fails and answers with a total preorder,
the driver succeeds and, for every value `q`, the elements of the caller's array that
compare equal to `q` are the same, in the same order, as in the input; the result is
the stable sort `List.mergeSort` of the input.  In particular `[5, 3, 3', 1]`, compared
by number, becomes `[1, 3, 3', 5]` with `3` before `3'`. -/
theorem C2_stability (sort_cb : V → V → σ → Option Int × σ) (compare : V → V → Int)
    (h : Answers sort_cb compare)
    (total : ∀ a b, compare a b ≤ 0 ∨ compare b a ≤ 0)
    (trans : ∀ a b c, compare a b ≤ 0 → compare b c ≤ 0 → compare a c ≤ 0)
    (fuel : Nat) (array : List V) (junk : Nat → V) (s : σ)
    (hn : array.length < 2147483648) (hf : array.length < fuel) :
    (∃ res, ecma_builtin_helper_array_merge_sort_helper sort_cb fuel array array.length junk s =
        .ok res ∧
      res.ret_value = .ECMA_VALUE_EMPTY ∧
      (∀ q, res.array.filter (equal_of compare q) = array.filter (equal_of compare q)) ∧
      res.array = array.mergeSort (le_of compare)) ∧
    ∃ res, ecma_builtin_helper_array_merge_sort_helper (pure_cb keyCompare) 5
        [(5, 0), (3, 0), (3, 1), (1, 0)] 4 (fun _ => (0, 0)) () = .ok res ∧
      res.ret_value = .ECMA_VALUE_EMPTY ∧
      res.array = [(1, 0), (3, 0), (3, 1), (5, 0)] := by
  refine ⟨?_, _, rfl, rfl, rfl⟩
  obtain ⟨res, h1, h2, h3, h4, h5⟩ :=
    merge_sort_helper_answers sort_cb compare h total trans fuel array junk s hn hf
  refine ⟨res, h1, h2, h5, ?_⟩
  apply eq_of_sorted_of_filter_equal (le_of compare) (le_of_total compare total) _ _ h3
  · exact @List.sorted_mergeSort _ (le_of compare) (le_of_trans compare trans)
      (by intro a b; simpa using le_of_total compare total a b) array
  · exact h4.trans (List.mergeSort_perm array (le_of compare)).symm
  · intro q
    rw [mergeSort_filter_equal (le_of compare) (le_of_trans compare trans)
      (le_of_total compare total) array q]
    exact h5 q

/-- Witness of C2: the array `[5, 3, 3', 1]` of the scenario. -/
theorem C2_stability_witness :
    Answers (pure_cb keyCompare) keyCompare ∧
    (∀ a b, keyCompare a b ≤ 0 ∨ keyCompare b a ≤ 0) ∧
    (∀ a b c, keyCompare a b ≤ 0 → keyCompare b c ≤ 0 → keyCompare a c ≤ 0) ∧
    ∃ res, ecma_builtin_helper_array_merge_sort_helper (pure_cb keyCompare) 5
        [(5, 0), (3, 0), (3, 1), (1, 0)] [(5, 0), (3, 0), (3, 1), (1, 0)].length
        (fun _ => (0, 0)) () = .ok res ∧
      res.ret_value = .ECMA_VALUE_EMPTY ∧
      (∀ q, res.array.filter (equal_of keyCompare q) =
        [(5, 0), (3, 0), (3, 1), (1, 0)].filter (equal_of keyCompare q)) ∧
      res.array = [(5, 0), (3, 0), (3, 1), (1, 0)].mergeSort (le_of keyCompare) :=
  ⟨fun _ _ _ => rfl, fun a b => by unfold keyCompare; omega,
    fun a b c => by unfold keyCompare; omega,
    (C2_stability (pure_cb keyCompare) keyCompare (fun _ _ _ => rfl)
      (fun a b => by unfold keyCompare; omega) (fun a b c => by unfold keyCompare; omega)
      5 [(5, 0), (3, 0), (3, 1), (1, 0)] (fun _ => (0, 0)) () (by decide) (by decide)).1⟩

/-- C3 (permutation preservation): for a callback that never fails, with no further
assumption on its answers, the driver succeeds and the caller's array is a permutation
of the input, of the same length. -/
theorem C3_permutation (sort_cb : V → V → σ → Option Int × σ)
    (hcb : ∀ a b t, (sort_cb a b t).1 ≠ none)
    (fuel : Nat) (array : List V) (junk : Nat → V) (s : σ)
    (hn : array.length < 2147483648) (hf : array.length < fuel) :
    ∃ res, ecma_builtin_helper_array_merge_sort_helper sort_cb fuel array array.length junk s =
        .ok res ∧
      res.ret_value = .ECMA_VALUE_EMPTY ∧
      res.array.Perm array ∧ res.array.length = array.length := by
  obtain ⟨res, h1, h2, h3, -⟩ := merge_sort_helper_ok sort_cb fuel array junk s hn hf
  have hr := sortL_never_fails sort_cb hcb array.length 1 (initL array s) rfl
  have hp := sortL_perm sort_cb array.length 1 (initL array s) rfl rfl hr
  exact ⟨res, h1, h2.trans hr, by rw [h3]; exact hp, by rw [h3]; exact hp.length_eq⟩

/-- Witness of C3: a comparison that is neither total nor transitive. -/
theorem C3_permutation_witness :
    (∀ a b t, (pure_cb oddCompare a b t).1 ≠ none) ∧
    ∃ res, ecma_builtin_helper_array_merge_sort_helper (pure_cb oddCompare) 6 [4, 1, 3, 2, 1]
        [4, 1, 3, 2, 1].length (fun _ => 0) () = .ok res ∧
      res.ret_value = .ECMA_VALUE_EMPTY ∧
      res.array.Perm [4, 1, 3, 2, 1] ∧ res.array.length = [4, 1, 3, 2, 1].length :=
  ⟨fun _ _ _ => by simp [pure_cb],
    C3_permutation (pure_cb oddCompare) (fun _ _ _ => by simp [pure_cb]) 6 [4, 1, 3, 2, 1]
      (fun _ => 0) () (by decide) (by decide)⟩

/-- C4 (failure propagation): run with the callback that logs its invocations, the
driver returns, and if the invocation number `k + 1` is a failing one then it is the
last one (exactly `k + 1` invocations were made) and the driver returns
`ECMA_VALUE_ERROR`; if no invocation fails the driver returns `ECMA_VALUE_EMPTY`.
No merge is scheduled after a failure: a merge step that returns `ECMA_VALUE_ERROR`
ends the inner loop at once with `w = length`, and a pass ended this way is the last
one of the outer loop. -/
theorem C4_failure_propagation (sort_cb : V → V → σ → Option Int × σ)
    (fuel : Nat) (array : List V) (junk : Nat → V) (s : σ)
    (hn : array.length < 2147483648) (hf : array.length < fuel) :
    (∃ res, ecma_builtin_helper_array_merge_sort_helper (logged sort_cb) fuel array array.length
        junk (s, []) = .ok res ∧
      (∀ k a b, res.cb_state.2[k]? = some (a, b, none) →
        res.cb_state.2.length = k + 1 ∧ res.ret_value = .ECMA_VALUE_ERROR) ∧
      ((∀ e ∈ res.cb_state.2, e.2.2 ≠ none) → res.ret_value = .ECMA_VALUE_EMPTY)) ∧
    (∀ (F w n i : Nat) (src dst dst1 : List V) (ret : ecma_status) (t t1 : σ),
      i < array.length →
      ecma_builtin_helper_array_merge_sort_bottom_up sort_cb F src i
        (if (i + w) % UINT32_RANGE > array.length then array.length
          else (i + w) % UINT32_RANGE)
        (if (i + (2 * w) % UINT32_RANGE) % UINT32_RANGE > array.length then array.length
          else (i + (2 * w) % UINT32_RANGE) % UINT32_RANGE) dst t =
        .ok (.ECMA_VALUE_ERROR, dst1, t1) →
      inner_loop sort_cb F src array.length w (n + 1) i ret dst t =
        .ok (.ECMA_VALUE_ERROR, array.length, dst1, t1)) ∧
    (∀ (F n : Nat) (st : DriverState V σ) (dst1 : List V) (t1 : σ),
      st.w < array.length →
      inner_loop sort_cb F (st.heap.read st.array_p) array.length st.w F 0 st.ret_value
        (st.heap.read st.array_copy_p) st.cb_state =
        .ok (.ECMA_VALUE_ERROR, array.length, dst1, t1) →
      outer_loop sort_cb F array.length (n + 2) st =
        .ok { w := 2 * array.length
              array_p := st.array_copy_p
              array_copy_p := st.array_p
              heap := st.heap.write st.array_copy_p dst1
              ret_value := .ECMA_VALUE_ERROR
              cb_state := t1
              passes := st.passes + 1 }) := by
  refine ⟨?_, ?_, ?_⟩
  · obtain ⟨res, h1, h2, -, -, h5, -⟩ :=
      merge_sort_helper_ok (logged sort_cb) fuel array junk (s, []) hn hf
    obtain ⟨new, q1, -, q3⟩ := sortL_log sort_cb array.length 1 (initL array (s, [])) rfl rfl
      rfl 0 rfl
    have hlog : res.cb_state.2 = new := by rw [h5, q1]; simp [initL]
    rw [← h2] at q3
    refine ⟨res, h1, ?_, ?_⟩ <;> rw [hlog]
    · intro k a b hk
      rcases q3 with ⟨_, hc⟩ | ⟨hr, pre, a1, b1, hl, hc⟩
      · exact absurd rfl (hc _ (List.getElem?_mem hk))
      · rw [hl] at hk ⊢
        by_cases hlt : k < pre.length
        · rw [List.getElem?_append_left hlt] at hk
          exact absurd rfl (hc _ (List.getElem?_mem hk))
        · have hk2 : k < (pre ++ [(a1, b1, (none : Option Int))]).length :=
            (List.getElem?_eq_some_iff.mp hk).1
          simp only [List.length_append, List.length_singleton] at hk2 ⊢
          exact ⟨by omega, hr⟩
    · intro hall
      rcases q3 with ⟨hr, _⟩ | ⟨_, pre, a1, b1, hl, _⟩
      · exact hr
      · exact absurd rfl (hall (a1, b1, none) (by rw [hl]; simp))
  · intro F w n i src dst dst1 ret t t1 hi hm
    exact inner_loop_break sort_cb F src array.length w n i ret dst dst1 t t1 hi hm
  · intro F n st dst1 t1 hw hin
    exact outer_loop_break sort_cb F array.length n st dst1 t1 hw hn hin

/-- Witness of C4: the array `[2, 1, 3]` with a callback failing on its third
invocation. -/
theorem C4_failure_propagation_witness :
    ∃ res, ecma_builtin_helper_array_merge_sort_helper (logged (failing_at 3 natCompare)) 4
        [2, 1, 3] [2, 1, 3].length (fun _ => 0) (0, []) = .ok res ∧
      (∀ k a b, res.cb_state.2[k]? = some (a, b, none) →
        res.cb_state.2.length = k + 1 ∧ res.ret_value = .ECMA_VALUE_ERROR) ∧
      ((∀ e ∈ res.cb_state.2, e.2.2 ≠ none) → res.ret_value = .ECMA_VALUE_EMPTY) :=
  (C4_failure_propagation (failing_at 3 natCompare) 4 [2, 1, 3] (fun _ => 0) 0
    (by decide) (by decide)).1

/-- C5 is refuted: on `[2, 1, 3]` with numeric ascending comparison and a callback that
fails on its third invocation, the driver returns `ECMA_VALUE_ERROR` and leaves
`[1, 1, 3]` in the caller's array, which is not a permutation of the input: the value
`1` is duplicated and the value `2` is dropped. -/
theorem C5_counterexample :
    ∃ res, ecma_builtin_helper_array_merge_sort_helper (failing_at 3 natCompare) 4 [2, 1, 3] 3
        (fun _ => 0) 0 = .ok res ∧
      res.ret_value = .ECMA_VALUE_ERROR ∧ res.array = [1, 1, 3] ∧
      ¬ res.array.Perm [2, 1, 3] :=
  ⟨_, rfl, rfl, rfl, by decide⟩

/-- C5 as amended: whatever the callback does, the driver returns and the caller's
array then has the length of the input and holds only values of the input; it is a
permutation of the input when at most one pass was executed, that is when the failure
happened in the first pass. -/
theorem C5_amended (sort_cb : V → V → σ → Option Int × σ)
    (fuel : Nat) (array : List V) (junk : Nat → V) (s : σ)
    (hn : array.length < 2147483648) (hf : array.length < fuel) :
    ∃ res, ecma_builtin_helper_array_merge_sort_helper sort_cb fuel array array.length junk s =
        .ok res ∧
      res.array.length = array.length ∧ (∀ z ∈ res.array, z ∈ array) ∧
      (res.passes ≤ 1 → res.array.Perm array) := by
  obtain ⟨res, h1, -, h3, -, -, h6, -⟩ := merge_sort_helper_ok sort_cb fuel array junk s hn hf
  obtain ⟨b1, -, b3, -⟩ := sortL_buffers sort_cb array.length array 1 (initL array s)
    ⟨rfl, rfl, fun _ hz => hz, fun _ hz => hz⟩
  refine ⟨res, h1, by rw [h3]; exact b1, by rw [h3]; exact b3, ?_⟩
  intro hp
  rw [h3]
  exact sortL_first_pass_perm sort_cb array s (by rw [← h6]; exact hp)

/-- Witness of the amended C5, at the input of the counterexample. -/
theorem C5_amended_witness :
    ∃ res, ecma_builtin_helper_array_merge_sort_helper (failing_at 3 natCompare) 4 [2, 1, 3]
        [2, 1, 3].length (fun _ => 0) 0 = .ok res ∧
      res.array.length = [2, 1, 3].length ∧ (∀ z ∈ res.array, z ∈ [2, 1, 3]) ∧
      (res.passes ≤ 1 → res.array.Perm [2, 1, 3]) :=
  C5_amended (failing_at 3 natCompare) 4 [2, 1, 3] (fun _ => 0) 0 (by decide) (by decide)

/-- C6 (trivial sizes): on an array of length 0 or 1 the driver, run with any callback
(here with its invocations logged), returns `ECMA_VALUE_EMPTY`, has logged no
invocation and left the state of the callback untouched, and the caller's array is
unchanged. -/
theorem C6_trivial_sizes (sort_cb : V → V → σ → Option Int × σ)
    (fuel : Nat) (array : List V) (junk : Nat → V) (s : σ)
    (hlen : array.length ≤ 1) (hf : array.length < fuel) :
    ∃ res, ecma_builtin_helper_array_merge_sort_helper (logged sort_cb) fuel array array.length
        junk (s, []) = .ok res ∧
      res.ret_value = .ECMA_VALUE_EMPTY ∧ res.cb_state = (s, []) ∧ res.array = array := by
  obtain ⟨res, h1, h2, h3, -, h5, -⟩ :=
    merge_sort_helper_ok (logged sort_cb) fuel array junk (s, []) (by omega) hf
  have e : sortL (logged sort_cb) array.length 1 (initL array (s, [])) = initL array (s, []) := by
    rw [sortL, dif_neg (by omega)]
  rw [e] at h2 h3 h5
  exact ⟨res, h1, h2, h5, h3⟩

/-- Witness of C6: a one-element array and the callback that always fails. -/
theorem C6_trivial_sizes_witness :
    [7].length ≤ 1 ∧
    ∃ res, ecma_builtin_helper_array_merge_sort_helper
        (logged (always_failing : Nat → Nat → Unit → Option Int × Unit)) 2 [7] [7].length
        (fun _ => 0) ((), []) = .ok res ∧
      res.ret_value = .ECMA_VALUE_EMPTY ∧ res.cb_state = ((), []) ∧ res.array = [7] :=
  ⟨by decide, C6_trivial_sizes always_failing 2 [7] (fun _ => 0) () (by decide) (by decide)⟩

/-- C7 (totality): for every callback, on an array of fewer than `2 ^ 31` elements and
with fuel above the length, the driver returns a result: no loop runs out of fuel and
no read or write leaves its buffer of `length` cells.  Moreover every merge step on
buffers of that length with `iLeft <= iRight <= iEnd <= length` returns the same
result when the source buffer is cut off at `iEnd`: it reads no source cell at or
behind `iEnd`, in particular not in its else-branch. -/
theorem C7_totality (sort_cb : V → V → σ → Option Int × σ)
    (fuel : Nat) (array : List V) (junk : Nat → V) (s : σ)
    (hn : array.length < 2147483648) (hf : array.length < fuel) :
    (∃ res, ecma_builtin_helper_array_merge_sort_helper sort_cb fuel array array.length junk s =
        .ok res) ∧
    ∀ (src dst : List V) (iLeft iRight iEnd : Nat) (t : σ),
      src.length = array.length → dst.length = array.length →
      iLeft ≤ iRight → iRight ≤ iEnd → iEnd ≤ array.length →
      ∃ r, ecma_builtin_helper_array_merge_sort_bottom_up sort_cb fuel src iLeft iRight iEnd
          dst t = .ok r ∧
        ecma_builtin_helper_array_merge_sort_bottom_up sort_cb fuel (src.take iEnd) iLeft iRight
          iEnd dst t = .ok r := by
  refine ⟨⟨_, merge_sort_helper_eq sort_cb fuel array junk s hn hf⟩, ?_⟩
  intro src dst iLeft iRight iEnd t hs hd h1 h2 h3
  have hU : iEnd < UINT32_RANGE := by unfold UINT32_RANGE; omega
  refine ⟨_, merge_sort_bottom_up_eq sort_cb fuel src iLeft iRight iEnd dst t h1 h2
    (by omega) (by omega) hU (by omega), ?_⟩
  rw [merge_sort_bottom_up_eq sort_cb fuel (src.take iEnd) iLeft iRight iEnd dst t h1 h2
    (by simp; omega) (by omega) hU (by omega),
    seg_take src (le_refl iEnd), seg_take src h2]

/-- Witness of C7: the callback that always fails. -/
theorem C7_totality_witness :
    (∃ res, ecma_builtin_helper_array_merge_sort_helper
        (always_failing : Nat → Nat → Unit → Option Int × Unit) 4 [2, 1, 3] [2, 1, 3].length
        (fun _ => 0) () = .ok res) ∧
    ∀ (src dst : List Nat) (iLeft iRight iEnd : Nat) (t : Unit),
      src.length = [2, 1, 3].length → dst.length = [2, 1, 3].length →
      iLeft ≤ iRight → iRight ≤ iEnd → iEnd ≤ [2, 1, 3].length →
      ∃ r, ecma_builtin_helper_array_merge_sort_bottom_up always_failing 4 src iLeft iRight iEnd
          dst t = .ok r ∧
        ecma_builtin_helper_array_merge_sort_bottom_up always_failing 4 (src.take iEnd) iLeft
          iRight iEnd dst t = .ok r :=
  C7_totality always_failing 4 [2, 1, 3] (fun _ => 0) () (by decide) (by decide)

/-- C8 (comparator call bound): the number of invocations logged during a run of the
driver on an array of length `n` is at most `n * ceil (log2 n)`, and it is `0` when
`n <= 1`. -/
theorem C8_call_bound (sort_cb : V → V → σ → Option Int × σ)
    (fuel : Nat) (array : List V) (junk : Nat → V) (s : σ)
    (hn : array.length < 2147483648) (hf : array.length < fuel) :
    ∃ res, ecma_builtin_helper_array_merge_sort_helper (logged sort_cb) fuel array array.length
        junk (s, []) = .ok res ∧
      res.cb_state.2.length ≤ array.length * Nat.clog 2 array.length ∧
      (array.length ≤ 1 → res.cb_state.2.length = 0) := by
  obtain ⟨res, h1, -, -, -, h5, -⟩ :=
    merge_sort_helper_ok (logged sort_cb) fuel array junk (s, []) hn hf
  obtain ⟨new, q1, q2, -⟩ := sortL_log sort_cb array.length 1 (initL array (s, [])) rfl rfl rfl
    0 rfl
  have hlog : res.cb_state.2 = new := by rw [h5, q1]; simp [initL]
  have hb : res.cb_state.2.length ≤ array.length * Nat.clog 2 array.length := by
    rw [hlog]; simpa using q2
  refine ⟨res, h1, hb, ?_⟩
  intro h
  rw [Nat.clog_of_right_le_one h] at hb
  omega

/-- Witness of C8: the array `[1, 2]`, on which `2 = 2 * ceil (log2 2)` invocations are
made. -/
theorem C8_call_bound_witness :
    ∃ res, ecma_builtin_helper_array_merge_sort_helper (logged (pure_cb natCompare)) 3 [1, 2]
        [1, 2].length (fun _ => 0) ((), []) = .ok res ∧
      res.cb_state.2.length ≤ [1, 2].length * Nat.clog 2 [1, 2].length ∧
      ([1, 2].length ≤ 1 → res.cb_state.2.length = 0) :=
  C8_call_bound (pure_cb natCompare) 3 [1, 2] (fun _ => 0) () (by decide) (by decide)

/-- C9 (scratch release): on every return of the driver, successful or not, exactly one
pointer has been handed to `JMEM_FINALIZE_LOCAL_ARRAY`, and it is the pointer to the
local array, not the pointer to the caller's array. -/
theorem C9_scratch_release (sort_cb : V → V → σ → Option Int × σ)
    (fuel : Nat) (array : List V) (junk : Nat → V) (s : σ)
    (hn : array.length < 2147483648) (hf : array.length < fuel) :
    ∃ res, ecma_builtin_helper_array_merge_sort_helper sort_cb fuel array array.length junk s =
        .ok res ∧
      res.finalized = [Ptr.scratch] ∧ Ptr.base ∉ res.finalized := by
  obtain ⟨res, h1, -, -, h4, -⟩ := merge_sort_helper_ok sort_cb fuel array junk s hn hf
  exact ⟨res, h1, h4, by rw [h4]; simp⟩

/-- Witness of C9: a run that fails in its second pass. -/
theorem C9_scratch_release_witness :
    ∃ res, ecma_builtin_helper_array_merge_sort_helper (failing_at 3 natCompare) 4 [2, 1, 3]
        [2, 1, 3].length (fun _ => 0) 0 = .ok res ∧
      res.finalized = [Ptr.scratch] ∧ Ptr.base ∉ res.finalized :=
  C9_scratch_release (failing_at 3 natCompare) 4 [2, 1, 3] (fun _ => 0) 0 (by decide) (by decide)

/-- C10 (merge step): for a callback that never fails and answers with a total
preorder, and for `iLeft <= iRight <= iEnd` within both buffers such that the runs
`[iLeft, iRight)` and `[iRight, iEnd)` of the source are sorted, the merge step returns
`ECMA_VALUE_EMPTY`; the part `[iLeft, iEnd)` of the output is then the merge of the two
runs: it is sorted, it is a permutation of the part `[iLeft, iEnd)` of the source, and
for every value `q` its elements that compare equal to `q` are those of the first run
followed by those of the second run. -/
theorem C10_merge_step (sort_cb : V → V → σ → Option Int × σ) (compare : V → V → Int)
    (h : Answers sort_cb compare)
    (total : ∀ a b, compare a b ≤ 0 ∨ compare b a ≤ 0)
    (trans : ∀ a b c, compare a b ≤ 0 → compare b c ≤ 0 → compare a c ≤ 0)
    (fuel : Nat) (array_a_p : List V) (iLeft iRight iEnd : Nat) (array_b_p : List V) (s : σ)
    (h1 : iLeft ≤ iRight) (h2 : iRight ≤ iEnd)
    (ha : iEnd ≤ array_a_p.length) (hb : iEnd ≤ array_b_p.length)
    (hU : iEnd < 4294967296) (hf : iEnd - iLeft < fuel)
    (hA : (seg array_a_p iLeft iRight).Pairwise (fun x y => compare x y ≤ 0))
    (hB : (seg array_a_p iRight iEnd).Pairwise (fun x y => compare x y ≤ 0)) :
    ∃ out t, ecma_builtin_helper_array_merge_sort_bottom_up sort_cb fuel array_a_p iLeft iRight
        iEnd array_b_p s = .ok (.ECMA_VALUE_EMPTY, out, t) ∧
      seg out iLeft iEnd =
        List.merge (seg array_a_p iLeft iRight) (seg array_a_p iRight iEnd) (le_of compare) ∧
      (seg out iLeft iEnd).Pairwise (fun x y => compare x y ≤ 0) ∧
      (seg out iLeft iEnd).Perm (seg array_a_p iLeft iEnd) ∧
      ∀ q, (seg out iLeft iEnd).filter (equal_of compare q) =
        (seg array_a_p iLeft iRight).filter (equal_of compare q) ++
          (seg array_a_p iRight iEnd).filter (equal_of compare q) := by
  have hA2 : (seg array_a_p iLeft iRight).Pairwise (fun x y => le_of compare x y = true) :=
    hA.imp (fun hxy => (le_of_iff compare _ _).mpr hxy)
  have hB2 : (seg array_a_p iRight iEnd).Pairwise (fun x y => le_of compare x y = true) :=
    hB.imp (fun hxy => (le_of_iff compare _ _).mpr hxy)
  have hm := mergeRuns_answers sort_cb compare h (seg array_a_p iLeft iRight)
    (seg array_a_p iRight iEnd) s
  have hr := mergeRuns_never_fails sort_cb h.never_fails (seg array_a_p iLeft iRight)
    (seg array_a_p iRight iEnd) s
  have hlen : (mergeRuns sort_cb (seg array_a_p iLeft iRight) (seg array_a_p iRight iEnd)
      s).2.1.length = iEnd - iLeft := by
    rw [mergeRuns_length_ok sort_cb _ _ s hr, length_seg _ (by omega), length_seg _ ha]
    omega
  have hseg := seg_splice array_b_p _ (by omega : iLeft ≤ array_b_p.length) hlen
  refine ⟨splice array_b_p iLeft (mergeRuns sort_cb (seg array_a_p iLeft iRight)
      (seg array_a_p iRight iEnd) s).2.1,
    (mergeRuns sort_cb (seg array_a_p iLeft iRight) (seg array_a_p iRight iEnd) s).2.2,
    ?_, ?_, ?_, ?_, ?_⟩
  · rw [merge_sort_bottom_up_eq sort_cb fuel array_a_p iLeft iRight iEnd array_b_p s h1 h2 ha hb
      (by unfold UINT32_RANGE; exact hU) hf, hr]
  · rw [hseg, hm]
  · rw [hseg, hm]
    have := @List.sorted_merge _ (le_of compare) (le_of_trans compare trans)
      (by intro a b; simpa using le_of_total compare total a b) _ _ hA2 hB2
    exact this.imp (fun hxy => (le_of_iff compare _ _).mp hxy)
  · rw [hseg, hm, ← seg_append array_a_p h1 h2]
    exact List.merge_perm_append (le_of compare)
  · intro q
    rw [hseg, hm]
    exact merge_filter_equal (le_of compare) (le_of_trans compare trans)
      (le_of_total compare total) q _ _ hA2

/-- Witness of C10: merging the runs `[1, 4]` and `[2, 3]` at positions 1 to 4 of a
buffer. -/
theorem C10_merge_step_witness :
    ∃ out t, ecma_builtin_helper_array_merge_sort_bottom_up (pure_cb natCompare) 5
        [9, 1, 4, 2, 3, 0] 1 3 5 [0, 0, 0, 0, 0, 0] () = .ok (.ECMA_VALUE_EMPTY, out, t) ∧
      seg out 1 5 =
        List.merge (seg [9, 1, 4, 2, 3, 0] 1 3) (seg [9, 1, 4, 2, 3, 0] 3 5) (le_of natCompare) ∧
      (seg out 1 5).Pairwise (fun x y => natCompare x y ≤ 0) ∧
      (seg out 1 5).Perm (seg [9, 1, 4, 2, 3, 0] 1 5) ∧
      ∀ q, (seg out 1 5).filter (equal_of natCompare q) =
        (seg [9, 1, 4, 2, 3, 0] 1 3).filter (equal_of natCompare q) ++
          (seg [9, 1, 4, 2, 3, 0] 3 5).filter (equal_of natCompare q) :=
  C10_merge_step (pure_cb natCompare) natCompare (fun _ _ _ => rfl)
    (fun a b => by unfold natCompare; omega) (fun a b c => by unfold natCompare; omega)
    5 [9, 1, 4, 2, 3, 0] 1 3 5 [0, 0, 0, 0, 0, 0] () (by decide) (by decide) (by decide)
    (by decide) (by decide) (by decide) (by decide) (by decide)

/-- C11 (comparator discipline of the merge step), evaluated on the code: the merge
step invokes the callback although the first run is exhausted.  Merging the
runs `[1]` and `[2]` it compares `1` with `2`, writes `1`, and then compares `2`, the
element at `array_a_p[iRight]`, with itself.  When this second invocation fails, the
merge of two runs of one element fails after the first element was written. -/
theorem C11_called_with_exhausted_run :
    ecma_builtin_helper_array_merge_sort_bottom_up (logged (pure_cb natCompare)) 3 [1, 2] 0 1 2
        [0, 0] ((), []) =
      .ok (.ECMA_VALUE_EMPTY, [1, 2], ((), [(1, 2, some (-1)), (2, 2, some 0)])) ∧
    ecma_builtin_helper_array_merge_sort_bottom_up (failing_at 2 natCompare) 3 [1, 2] 0 1 2
        [0, 0] 0 =
      .ok (.ECMA_VALUE_ERROR, [1, 0], 2) :=
  ⟨rfl, rfl⟩

/-- C12 (merge step frame): for `iLeft <= iRight <= iEnd` within both buffers the merge
step returns, and when it returns `ECMA_VALUE_EMPTY` the output buffer is the old one
with the `iEnd - iLeft` slots of `[iLeft, iEnd)` replaced: it has the old length and
every slot outside `[iLeft, iEnd)` reads as before.  The step returns no other buffer:
stored into a heap in which source and output are different allocations, its output
leaves the source as it was. -/
theorem C12_merge_frame (sort_cb : V → V → σ → Option Int × σ)
    (fuel : Nat) (array_a_p : List V) (iLeft iRight iEnd : Nat) (array_b_p : List V) (s : σ)
    (h1 : iLeft ≤ iRight) (h2 : iRight ≤ iEnd)
    (ha : iEnd ≤ array_a_p.length) (hb : iEnd ≤ array_b_p.length)
    (hU : iEnd < 4294967296) (hf : iEnd - iLeft < fuel) :
    ∃ ret out t, ecma_builtin_helper_array_merge_sort_bottom_up sort_cb fuel array_a_p iLeft
        iRight iEnd array_b_p s = .ok (ret, out, t) ∧
      (ret = .ECMA_VALUE_EMPTY →
        (∃ wr, wr.length = iEnd - iLeft ∧
          out = array_b_p.take iLeft ++ wr ++ array_b_p.drop iEnd) ∧
        out.length = array_b_p.length ∧
        (∀ idx, idx < iLeft ∨ iEnd ≤ idx → out[idx]? = array_b_p[idx]?) ∧
        ∀ (h : Heap V) (pa pb : Ptr), pa ≠ pb → h.read pa = array_a_p →
          (h.write pb out).read pa = array_a_p) := by
  refine ⟨_, _, _, merge_sort_bottom_up_eq sort_cb fuel array_a_p iLeft iRight iEnd array_b_p s
    h1 h2 ha hb (by unfold UINT32_RANGE; exact hU) hf, ?_⟩
  intro hr
  have hlen : (mergeRuns sort_cb (seg array_a_p iLeft iRight) (seg array_a_p iRight iEnd)
      s).2.1.length = iEnd - iLeft := by
    rw [mergeRuns_length_ok sort_cb _ _ s hr, length_seg _ (by omega), length_seg _ ha]
    omega
  refine ⟨⟨_, hlen, splice_eq_of_length _ _ iLeft iEnd hlen (by omega)⟩, ?_, ?_, ?_⟩
  · exact length_splice _ _ _ (by omega)
  · intro idx hidx
    rcases hidx with h | h
    · exact splice_get_lt _ _ _ _ (by omega) h
    · exact splice_get_ge _ _ _ _ (by omega) (by omega)
  · intro h pa pb hne hread
    rw [Heap.read_write_other _ _ _ _ (Ne.symm hne), hread]

/-- Witness of C12: merging the runs `[1, 4]` and `[2, 3]` at positions 1 to 4. -/
theorem C12_merge_frame_witness :
    ∃ ret out t, ecma_builtin_helper_array_merge_sort_bottom_up (pure_cb natCompare) 5
        [9, 1, 4, 2, 3, 0] 1 3 5 [7, 7, 7, 7, 7, 7] () = .ok (ret, out, t) ∧
      (ret = .ECMA_VALUE_EMPTY →
        (∃ wr, wr.length = 5 - 1 ∧
          out = [7, 7, 7, 7, 7, 7].take 1 ++ wr ++ [7, 7, 7, 7, 7, 7].drop 5) ∧
        out.length = [7, 7, 7, 7, 7, 7].length ∧
        (∀ idx, idx < 1 ∨ 5 ≤ idx → out[idx]? = [7, 7, 7, 7, 7, 7][idx]?) ∧
        ∀ (h : Heap Nat) (pa pb : Ptr), pa ≠ pb → h.read pa = [9, 1, 4, 2, 3, 0] →
          (h.write pb out).read pa = [9, 1, 4, 2, 3, 0]) :=
  C12_merge_frame (pure_cb natCompare) 5 [9, 1, 4, 2, 3, 0] 1 3 5 [7, 7, 7, 7, 7, 7] ()
    (by decide) (by decide) (by decide) (by decide) (by decide) (by decide)

/-- C13 (merge step on failure): run with the logging callback on `iLeft <= iRight <=
iEnd` within both buffers, the merge step returns; when it returns `ECMA_VALUE_ERROR`
the failing invocation is the last one, each of the `m` invocations before it succeeded
and stands for one output position, so the failure happens at position `k = iLeft + m`
with `k < iEnd`; the output buffer keeps its length, `[iLeft, k)` holds elements of the
two runs, and every slot outside `[iLeft, k)` reads as before the call.  In the loop, an
invocation that fails makes the step return in the same iteration with the output
buffer as it is. -/
theorem C13_merge_failure (sort_cb : V → V → σ → Option Int × σ)
    (fuel : Nat) (array_a_p : List V) (iLeft iRight iEnd : Nat) (array_b_p : List V) (s : σ)
    (log : List (V × V × Option Int))
    (h1 : iLeft ≤ iRight) (h2 : iRight ≤ iEnd)
    (ha : iEnd ≤ array_a_p.length) (hb : iEnd ≤ array_b_p.length)
    (hU : iEnd < 4294967296) (hf : iEnd - iLeft < fuel) :
    (∃ ret out t new, ecma_builtin_helper_array_merge_sort_bottom_up (logged sort_cb) fuel
        array_a_p iLeft iRight iEnd array_b_p (s, log) = .ok (ret, out, (t, log ++ new)) ∧
      (ret = .ECMA_VALUE_ERROR →
        ∃ pre x y, new = pre ++ [(x, y, none)] ∧ CleanLog pre ∧
          iLeft + pre.length < iEnd ∧
          out.length = array_b_p.length ∧
          (∀ idx, idx < iLeft ∨ iLeft + pre.length ≤ idx → out[idx]? = array_b_p[idx]?) ∧
          ∀ z ∈ seg out iLeft (iLeft + pre.length), z ∈ seg array_a_p iLeft iEnd)) ∧
    ∀ (n k i j : Nat) (b : List V) (t : σ) (x y : V),
      k < iEnd → j < iEnd → array_a_p[i]? = some x → array_a_p[j]? = some y →
      (sort_cb x y t).1 = none →
      merge_loop sort_cb array_a_p iRight iEnd (n + 1) k i j b t =
        .ok (.ECMA_VALUE_ERROR, b, (sort_cb x y t).2) := by
  refine ⟨?_, fun n k i j b t x y hk hj hx hy hfail =>
    merge_loop_fail sort_cb array_a_p iRight iEnd n k i j b t x y hk hj hx hy hfail⟩
  obtain ⟨new, q1, q2, q3⟩ := mergeRuns_schedule sort_cb (seg array_a_p iLeft iRight)
    (seg array_a_p iRight iEnd) (s, log)
  have hlen := mergeRuns_length_le (logged sort_cb) (seg array_a_p iLeft iRight)
    (seg array_a_p iRight iEnd) (s, log)
  rw [length_seg _ (by omega : iRight ≤ array_a_p.length), length_seg _ ha] at hlen
  refine ⟨(mergeRuns (logged sort_cb) (seg array_a_p iLeft iRight)
      (seg array_a_p iRight iEnd) (s, log)).1,
    splice array_b_p iLeft (mergeRuns (logged sort_cb) (seg array_a_p iLeft iRight)
      (seg array_a_p iRight iEnd) (s, log)).2.1,
    (mergeRuns (logged sort_cb) (seg array_a_p iLeft iRight)
      (seg array_a_p iRight iEnd) (s, log)).2.2.1, new, ?_, ?_⟩
  · rw [merge_sort_bottom_up_eq (logged sort_cb) fuel array_a_p iLeft iRight iEnd array_b_p
      (s, log) h1 h2 ha hb (by unfold UINT32_RANGE; exact hU) hf]
    simp only [] at q1
    rw [← q1]
  · intro hr
    rcases q2 with ⟨hr2, _⟩ | ⟨_, pre, x, y, hl, hc⟩
    · rw [hr] at hr2; exact absurd hr2 (by simp)
    · obtain ⟨e1, e2⟩ := q3 hr
      rw [length_seg _ (by omega : iRight ≤ array_a_p.length), length_seg _ ha] at e2
      have hpre : (mergeRuns (logged sort_cb) (seg array_a_p iLeft iRight)
          (seg array_a_p iRight iEnd) (s, log)).2.1.length = pre.length := by
        rw [hl] at e1; simp at e1; exact e1
      refine ⟨pre, x, y, hl, hc, by omega, length_splice _ _ _ (by omega), ?_, ?_⟩
      · intro idx hidx
        rcases hidx with h | h
        · exact splice_get_lt _ _ _ _ (by omega) h
        · exact splice_get_ge _ _ _ _ (by omega) (by omega)
      · intro z hz
        rw [seg_splice array_b_p _ (by omega) (by omega)] at hz
        have := mergeRuns_mem (logged sort_cb) _ _ (s, log) z hz
        rw [seg_append array_a_p h1 h2] at this
        exact this

/-- Witness of C13: merging `[1, 4]` and `[2, 3]` with the third invocation failing. -/
theorem C13_merge_failure_witness :
    ∃ ret out t new, ecma_builtin_helper_array_merge_sort_bottom_up
        (logged (failing_at 3 natCompare)) 5 [9, 1, 4, 2, 3, 0] 1 3 5 [7, 7, 7, 7, 7, 7]
        (0, []) = .ok (ret, out, (t, [] ++ new)) ∧
      (ret = .ECMA_VALUE_ERROR →
        ∃ pre x y, new = pre ++ [(x, y, none)] ∧ CleanLog pre ∧
          1 + pre.length < 5 ∧
          out.length = [7, 7, 7, 7, 7, 7].length ∧
          (∀ idx, idx < 1 ∨ 1 + pre.length ≤ idx → out[idx]? = [7, 7, 7, 7, 7, 7][idx]?) ∧
          ∀ z ∈ seg out 1 (1 + pre.length), z ∈ seg [9, 1, 4, 2, 3, 0] 1 5) :=
  (C13_merge_failure (failing_at 3 natCompare) 5 [9, 1, 4, 2, 3, 0] 1 3 5 [7, 7, 7, 7, 7, 7] 0 []
    (by decide) (by decide) (by decide) (by decide) (by decide) (by decide)).1

/-- C14 (run invariant): with a callback that answers with a total preorder `compare`
and never fails, on an array of fewer than `2 ^ 31` elements, the outer loop reaches
its loop head for the `m + 1`-th time (or has ended before); it is a state the loop of
the driver passes through; if a pass starts there (`w < length`), it is the pass
number `m + 1` and `w = 2 ^ m`; every block `[b * w, min (b * w + w, length))` of the
buffer `array_p` points to is sorted, and this buffer is a permutation of the input. -/
theorem C14_run_invariant (sort_cb : V → V → σ → Option Int × σ) (compare : V → V → Int)
    (h : Answers sort_cb compare)
    (total : ∀ a b, compare a b ≤ 0 ∨ compare b a ≤ 0)
    (trans : ∀ a b c, compare a b ≤ 0 → compare b c ≤ 0 → compare a c ≤ 0)
    (fuel : Nat) (array : List V) (s : σ)
    (hn : array.length < 2147483648) (hf : array.length < fuel) (m : Nat) :
    ∃ st, loop_head sort_cb fuel array.length m (initD array s) = .ok st ∧
      (st.w < array.length → st.passes = m ∧ st.w = 2 ^ m) ∧
      (∀ b, (seg (st.heap.read st.array_p) (b * st.w)
        (min (b * st.w + st.w) array.length)).Pairwise (fun x y => compare x y ≤ 0)) ∧
      (st.heap.read st.array_p).Perm array ∧
      ∀ k, 0 < k → outer_loop sort_cb fuel array.length (k + m) (initD array s) =
        outer_loop sort_cb fuel array.length k st := by
  obtain ⟨st, q1, q2, q3⟩ := loop_head_answers sort_cb compare h (le_of_trans compare trans)
    (le_of_total compare total) fuel array.length hn hf array m (initD array s)
    (headInv_initD array s) (blockSorted_one _ _) (List.Perm.refl _)
  obtain ⟨st2, r1, hinv, -, -, r5⟩ := loop_head_inv sort_cb fuel array.length hn hf m
    (initD array s) (headInv_initD array s)
  rw [q1] at r1
  have e : st = st2 := by injection r1
  subst e
  refine ⟨st, q1, ?_, ?_, q3, outer_loop_through sort_cb fuel array.length m _ _ q1⟩
  · intro hw
    have hp := r5 hw
    have hp2 : st.passes = m := by rw [hp]; simp [initD]
    exact ⟨hp2, by rw [(hinv.running hw).2, hp2]⟩
  · intro b
    have hl : (st.heap.read st.array_p).length = array.length := hinv.2.2.1
    rw [← hl, seg_block]
    exact (q2 b).imp (fun hab => (le_of_iff compare _ _).mp hab)

/-- Witness of C14: the start of the second pass on `[3, 1, 2]`. -/
theorem C14_run_invariant_witness :
    ∃ st, loop_head (pure_cb natCompare) 4 [3, 1, 2].length 1 (initD [3, 1, 2] ()) = .ok st ∧
      (st.w < [3, 1, 2].length → st.passes = 1 ∧ st.w = 2 ^ 1) ∧
      (∀ b, (seg (st.heap.read st.array_p) (b * st.w)
        (min (b * st.w + st.w) [3, 1, 2].length)).Pairwise (fun x y => natCompare x y ≤ 0)) ∧
      (st.heap.read st.array_p).Perm [3, 1, 2] ∧
      ∀ k, 0 < k → outer_loop (pure_cb natCompare) 4 [3, 1, 2].length (k + 1)
          (initD [3, 1, 2] ()) =
        outer_loop (pure_cb natCompare) 4 [3, 1, 2].length k st :=
  C14_run_invariant (pure_cb natCompare) natCompare (fun _ _ _ => rfl)
    (fun a b => by unfold natCompare; omega) (fun a b c => by unfold natCompare; omega)
    4 [3, 1, 2] () (by decide) (by decide) 1

/-- C15 (result location and copy back): for every callback, on an array of fewer than
`2 ^ 31` elements the driver returns; the caller's array then holds the buffer that
`array_p` points to when the outer loop ends; at every loop head `array_p` is the
caller's array after an even number of passes and the scratch buffer after an odd
number, the failed pass included; the copy back is made exactly when `array_p` is
the scratch buffer, that is after an odd number of passes.  Without a pass the array
is untouched; otherwise the array holds the destination buffer as the inner loop of
the last pass left it. -/
theorem C15_result_location (sort_cb : V → V → σ → Option Int × σ)
    (fuel : Nat) (array : List V) (junk : Nat → V) (s : σ)
    (hn : array.length < 2147483648) (hf : array.length < fuel) :
    ∃ res st1, ecma_builtin_helper_array_merge_sort_helper sort_cb fuel array array.length
        junk s = .ok res ∧
      outer_loop sort_cb fuel array.length fuel (initD array s) = .ok st1 ∧
      res.array = st1.heap.read st1.array_p ∧ res.passes = st1.passes ∧
      res.ret_value = st1.ret_value ∧
      res.copied_back = decide (st1.array_p = .scratch) ∧
      (res.copied_back = true ↔ res.passes % 2 = 1) ∧
      (∀ m, ∃ st, loop_head sort_cb fuel array.length m (initD array s) = .ok st ∧
        st.array_p = (if st.passes % 2 = 0 then .base else .scratch) ∧
        st.array_copy_p = (if st.passes % 2 = 0 then .scratch else .base)) ∧
      (res.passes = 0 → res.array = array ∧ res.copied_back = false) ∧
      (0 < res.passes → ∃ m st ret w1 dst1 t1,
        loop_head sort_cb fuel array.length m (initD array s) = .ok st ∧
        st.w < array.length ∧
        inner_loop sort_cb fuel (st.heap.read st.array_p) array.length st.w fuel 0
          st.ret_value (st.heap.read st.array_copy_p) st.cb_state = .ok (ret, w1, dst1, t1) ∧
        ¬ (2 * w1) % UINT32_RANGE < array.length ∧
        res.passes = st.passes + 1 ∧ res.ret_value = ret ∧ res.array = dst1 ∧
        (res.copied_back = true ↔ st.array_copy_p = .scratch)) := by
  obtain ⟨st1, h1, hinv, hres⟩ := merge_sort_helper_state sort_cb fuel array junk s hn hf
  obtain ⟨-, hexit⟩ := outer_loop_head sort_cb fuel array.length fuel _ _ h1
  have hpar : (decide (st1.array_p = Ptr.scratch) = true ↔ st1.passes % 2 = 1) := by
    rw [hinv.1]
    by_cases hp : st1.passes % 2 = 0
    · simp [hp]
    · have : st1.passes % 2 = 1 := by omega
      simp [this]
  have hlast := outer_loop_last sort_cb fuel array.length fuel _ _ h1
  have hstep : ∀ m st, loop_head sort_cb fuel array.length m (initD array s) = .ok st →
      st.w < array.length → outer_body sort_cb fuel array.length st = .ok st1 →
      ∃ ret w1 dst1 t1,
        inner_loop sort_cb fuel (st.heap.read st.array_p) array.length st.w fuel 0
          st.ret_value (st.heap.read st.array_copy_p) st.cb_state = .ok (ret, w1, dst1, t1) ∧
        st1 = { w := (2 * w1) % UINT32_RANGE
                array_p := st.array_copy_p
                array_copy_p := st.array_p
                heap := st.heap.write st.array_copy_p dst1
                ret_value := ret
                cb_state := t1
                passes := st.passes + 1 } := by
    intro m st hm hw hb
    obtain ⟨st2, r1, hinv2, -⟩ := loop_head_inv sort_cb fuel array.length hn hf m
      (initD array s) (headInv_initD array s)
    rw [hm] at r1
    have e : st = st2 := by injection r1
    subst e
    obtain ⟨hin, -⟩ := outer_body_eq sort_cb fuel array.length hn hf st hinv2 hw
    unfold outer_body at hb
    rw [hin] at hb
    simp only [] at hb
    exact ⟨_, _, _, _, hin, (Except.ok.inj hb).symm⟩
  refine ⟨_, st1, hres, h1, rfl, rfl, rfl, rfl, hpar, ?_, ?_, ?_⟩
  · intro m
    obtain ⟨st, r1, r2, -⟩ := loop_head_inv sort_cb fuel array.length hn hf m
      (initD array s) (headInv_initD array s)
    exact ⟨st, r1, r2.1, r2.2.1⟩
  · intro hp
    simp only [] at hp
    rcases hlast with e | ⟨m, st, q1, q2, q3⟩
    · rw [e]; exact ⟨rfl, rfl⟩
    · obtain ⟨ret, w1, dst1, t1, -, e⟩ := hstep m st q1 q2 q3
      rw [e] at hp
      simp at hp
  · intro hp
    simp only [] at hp
    rcases hlast with e | ⟨m, st, q1, q2, q3⟩
    · rw [e] at hp; simp [initD] at hp
    · obtain ⟨ret, w1, dst1, t1, hin, e⟩ := hstep m st q1 q2 q3
      refine ⟨m, st, ret, w1, dst1, t1, q1, q2, hin, ?_, ?_, ?_, ?_, ?_⟩
      · rw [e] at hexit; exact hexit
      · rw [e]
      · rw [e]
      · rw [e]; simp only [Heap.read_write_same]
      · rw [e]; simp

/-- Witness of C15: `[2, 1, 3]` with a callback that fails on its third invocation. -/
theorem C15_result_location_witness :
    ∃ res st1, ecma_builtin_helper_array_merge_sort_helper (failing_at 3 natCompare) 4
        [2, 1, 3] [2, 1, 3].length (fun _ => 0) 0 = .ok res ∧
      outer_loop (failing_at 3 natCompare) 4 [2, 1, 3].length 4 (initD [2, 1, 3] 0) = .ok st1 ∧
      res.array = st1.heap.read st1.array_p ∧ res.passes = st1.passes ∧
      res.ret_value = st1.ret_value ∧
      res.copied_back = decide (st1.array_p = .scratch) ∧
      (res.copied_back = true ↔ res.passes % 2 = 1) ∧
      (∀ m, ∃ st, loop_head (failing_at 3 natCompare) 4 [2, 1, 3].length m
          (initD [2, 1, 3] 0) = .ok st ∧
        st.array_p = (if st.passes % 2 = 0 then .base else .scratch) ∧
        st.array_copy_p = (if st.passes % 2 = 0 then .scratch else .base)) ∧
      (res.passes = 0 → res.array = [2, 1, 3] ∧ res.copied_back = false) ∧
      (0 < res.passes → ∃ m st ret w1 dst1 t1,
        loop_head (failing_at 3 natCompare) 4 [2, 1, 3].length m (initD [2, 1, 3] 0) = .ok st ∧
        st.w < [2, 1, 3].length ∧
        inner_loop (failing_at 3 natCompare) 4 (st.heap.read st.array_p) [2, 1, 3].length
          st.w 4 0 st.ret_value (st.heap.read st.array_copy_p) st.cb_state =
          .ok (ret, w1, dst1, t1) ∧
        ¬ (2 * w1) % UINT32_RANGE < [2, 1, 3].length ∧
        res.passes = st.passes + 1 ∧ res.ret_value = ret ∧ res.array = dst1 ∧
        (res.copied_back = true ↔ st.array_copy_p = .scratch)) :=
  C15_result_location (failing_at 3 natCompare) 4 [2, 1, 3] (fun _ => 0) 0
    (by decide) (by decide)

/-- C16 (state after a failure): for every callback, run with its invocations logged
on an array of fewer than `2 ^ 31` elements, the driver returns, and if some
invocation failed it returns `ECMA_VALUE_ERROR` with the caller's array of the length
of the input and holding only values of the input; the result does not depend on
the initial contents `junk` of the scratch buffer.  On `[2, 1]` with a callback that
fails on its first invocation the driver returns `ECMA_VALUE_ERROR` and the array is
`[2, 1]`, whatever the scratch buffer held. -/
theorem C16_state_after_failure (sort_cb : V → V → σ → Option Int × σ)
    (fuel : Nat) (array : List V) (junk : Nat → V) (s : σ)
    (hn : array.length < 2147483648) (hf : array.length < fuel) :
    (∃ res, ecma_builtin_helper_array_merge_sort_helper (logged sort_cb) fuel array array.length
        junk (s, []) = .ok res ∧
      ((∃ e ∈ res.cb_state.2, e.2.2 = none) →
        res.ret_value = .ECMA_VALUE_ERROR ∧ res.array.length = array.length ∧
        ∀ z ∈ res.array, z ∈ array) ∧
      ∀ junk2, ecma_builtin_helper_array_merge_sort_helper (logged sort_cb) fuel array
        array.length junk2 (s, []) = .ok res) ∧
    ∀ junk3 : Nat → Nat, ∃ res, ecma_builtin_helper_array_merge_sort_helper
        (failing_at 1 natCompare) 3 [2, 1] 2 junk3 0 = .ok res ∧
      res.ret_value = .ECMA_VALUE_ERROR ∧ res.array = [2, 1] := by
  refine ⟨?_, ?_⟩
  · obtain ⟨res, h1, h2, h3, -, h5, -⟩ :=
      merge_sort_helper_ok (logged sort_cb) fuel array junk (s, []) hn hf
    obtain ⟨new, q1, -, q3⟩ := sortL_log sort_cb array.length 1 (initL array (s, [])) rfl rfl
      rfl 0 rfl
    have hlog : res.cb_state.2 = new := by rw [h5, q1]; simp [initL]
    rw [← h2] at q3
    obtain ⟨b1, -, b3, -⟩ := sortL_buffers (logged sort_cb) array.length array 1
      (initL array (s, [])) ⟨rfl, rfl, fun _ hz => hz, fun _ hz => hz⟩
    refine ⟨res, h1, ?_, ?_⟩
    · rintro ⟨e, he, hnone⟩
      rw [hlog] at he
      refine ⟨?_, by rw [h3]; exact b1, by rw [h3]; exact b3⟩
      rcases q3 with ⟨_, hc⟩ | ⟨hr, _⟩
      · exact absurd hnone (hc e he)
      · exact hr
    · intro junk2
      rw [h1.symm, merge_sort_helper_eq (logged sort_cb) fuel array junk2 (s, []) hn hf,
        merge_sort_helper_eq (logged sort_cb) fuel array junk (s, []) hn hf]
  · intro junk3
    exact ⟨_, rfl, rfl, rfl⟩

/-- Witness of C16: `[2, 1, 3]` with a callback that fails on its third invocation;
the log of the run holds the failed invocation. -/
theorem C16_state_after_failure_witness :
    ∃ res, ecma_builtin_helper_array_merge_sort_helper (logged (failing_at 3 natCompare)) 4
        [2, 1, 3] [2, 1, 3].length (fun _ => 0) (0, []) = .ok res ∧
      (∃ e ∈ res.cb_state.2, e.2.2 = none) ∧
      res.ret_value = .ECMA_VALUE_ERROR ∧ res.array.length = [2, 1, 3].length ∧
      ∀ z ∈ res.array, z ∈ [2, 1, 3] := by
  obtain ⟨res, h, himp, -⟩ := (C16_state_after_failure (failing_at 3 natCompare) 4 [2, 1, 3]
    (fun _ => 0) 0 (by decide) (by decide)).1
  have hlog : ∃ e ∈ res.cb_state.2, e.2.2 = none := by
    have h2 : (match ecma_builtin_helper_array_merge_sort_helper
        (logged (failing_at 3 natCompare)) 4 [2, 1, 3] [2, 1, 3].length (fun _ => 0) (0, []) with
        | .ok r => r.cb_state.2.any (fun e => e.2.2.isNone)
        | .error _ => false) = true := rfl
    rw [h] at h2
    obtain ⟨e, he, hnone⟩ := List.any_eq_true.mp h2
    exact ⟨e, he, Option.isNone_iff_eq_none.mp hnone⟩
  exact ⟨res, h, hlog, himp hlog⟩

/-- C17 (unpaired trailing run): called with an empty second run (`iRight = iEnd`), the
merge step, run with the logging callback, returns `ECMA_VALUE_EMPTY`, leaves the log
and the state of the callback as they were, and the output buffer is the old one with
`[iLeft, iEnd)` replaced by the part `[iLeft, iEnd)` of the source.  The driver makes
such a call for a block with `i + w >= length`: both `r` and `e` are then `length`. -/
theorem C17_trailing_run (sort_cb : V → V → σ → Option Int × σ)
    (fuel : Nat) (array_a_p : List V) (iLeft iEnd : Nat) (array_b_p : List V) (s : σ)
    (log : List (V × V × Option Int))
    (h1 : iLeft ≤ iEnd) (ha : iEnd ≤ array_a_p.length) (hb : iEnd ≤ array_b_p.length)
    (hU : iEnd < 4294967296) (hf : iEnd - iLeft < fuel) :
    ecma_builtin_helper_array_merge_sort_bottom_up (logged sort_cb) fuel array_a_p iLeft iEnd
        iEnd array_b_p (s, log) =
      .ok (.ECMA_VALUE_EMPTY,
        array_b_p.take iLeft ++ seg array_a_p iLeft iEnd ++ array_b_p.drop iEnd, (s, log)) ∧
    ∀ (length i w : Nat), i < length → length ≤ i + w → i + 2 * w < UINT32_RANGE →
      (if (i + w) % UINT32_RANGE > length then length else (i + w) % UINT32_RANGE) = length ∧
      (if (i + (2 * w) % UINT32_RANGE) % UINT32_RANGE > length then length
        else (i + (2 * w) % UINT32_RANGE) % UINT32_RANGE) = length := by
  constructor
  · rw [merge_sort_bottom_up_eq (logged sort_cb) fuel array_a_p iLeft iEnd iEnd array_b_p
      (s, log) h1 (le_refl _) ha hb (by unfold UINT32_RANGE; exact hU) hf,
      seg_nil_of_le array_a_p (le_refl iEnd)]
    simp only [mergeRuns]
    rw [splice_eq_of_length _ _ iLeft iEnd (length_seg _ ha) h1]
  · intro length i w hi hw hU2
    have e1 : (i + w) % UINT32_RANGE = i + w := Nat.mod_eq_of_lt (by omega)
    have e2 : (2 * w) % UINT32_RANGE = 2 * w := Nat.mod_eq_of_lt (by omega)
    have e3 : (i + 2 * w) % UINT32_RANGE = i + 2 * w := Nat.mod_eq_of_lt hU2
    rw [e2, e3, e1]
    constructor <;> split <;> omega

/-- Witness of C17: the last block `[2, 3)` of an array of three elements at run
width 1. -/
theorem C17_trailing_run_witness :
    ecma_builtin_helper_array_merge_sort_bottom_up (logged (always_failing :
        Nat → Nat → Unit → Option Int × Unit)) 2 [2, 1, 3] 2 3 3 [1, 2, 0] ((), []) =
      .ok (.ECMA_VALUE_EMPTY,
        [1, 2, 0].take 2 ++ seg [2, 1, 3] 2 3 ++ [1, 2, 0].drop 3, ((), [])) ∧
    ∀ (length i w : Nat), i < length → length ≤ i + w → i + 2 * w < UINT32_RANGE →
      (if (i + w) % UINT32_RANGE > length then length else (i + w) % UINT32_RANGE) = length ∧
      (if (i + (2 * w) % UINT32_RANGE) % UINT32_RANGE > length then length
        else (i + (2 * w) % UINT32_RANGE) % UINT32_RANGE) = length :=
  C17_trailing_run always_failing 2 [2, 1, 3] 2 3 [1, 2, 0] () [] (by decide) (by decide)
    (by decide) (by decide) (by decide)

/-- C18 (32-bit arithmetic and termination): for every callback, on an array of fewer
than `2 ^ 31` elements the driver returns after at most `Nat.clog 2 length` passes
(the logarithm rounded up).  Every loop head is reached, after at most that many
passes; when a pass starts there, `2 * w`, `i + w` and `i + 2 * w` for every `i`
below the length are below `2 ^ 32`, so that the reductions modulo `2 ^ 32` of the
uint32 arithmetic change nothing; the inner loop returns with `w` unchanged, or with
`w = length` after a failure, and the doubling of this `w` does not wrap either and,
after a failure, ends the outer loop. -/
theorem C18_uint32_and_termination (sort_cb : V → V → σ → Option Int × σ)
    (fuel : Nat) (array : List V) (junk : Nat → V) (s : σ)
    (hn : array.length < 2147483648) (hf : array.length < fuel) :
    (∃ res, ecma_builtin_helper_array_merge_sort_helper sort_cb fuel array array.length
        junk s = .ok res ∧ res.passes ≤ Nat.clog 2 array.length) ∧
    ∀ m, ∃ st, loop_head sort_cb fuel array.length m (initD array s) = .ok st ∧
      st.passes ≤ m ∧ st.passes ≤ Nat.clog 2 array.length ∧
      (st.w < array.length →
        (2 * st.w) % UINT32_RANGE = 2 * st.w ∧
        (∀ i, i < array.length → (i + st.w) % UINT32_RANGE = i + st.w ∧
          (i + (2 * st.w) % UINT32_RANGE) % UINT32_RANGE = i + 2 * st.w) ∧
        ∃ ret w1 dst1 t1,
          inner_loop sort_cb fuel (st.heap.read st.array_p) array.length st.w fuel 0
            st.ret_value (st.heap.read st.array_copy_p) st.cb_state =
            .ok (ret, w1, dst1, t1) ∧
          w1 = (if ret = .ECMA_VALUE_ERROR then array.length else st.w) ∧
          (2 * w1) % UINT32_RANGE = 2 * w1 ∧
          (ret = .ECMA_VALUE_ERROR → ¬ (2 * w1) % UINT32_RANGE < array.length)) := by
  refine ⟨?_, ?_⟩
  · obtain ⟨st1, -, hinv, hres⟩ := merge_sort_helper_state sort_cb fuel array junk s hn hf
    exact ⟨_, hres, headInv_passes_le hinv⟩
  · intro m
    obtain ⟨st, r1, hinv, -, r4, -⟩ := loop_head_inv sort_cb fuel array.length hn hf m
      (initD array s) (headInv_initD array s)
    refine ⟨st, r1, by simpa [initD] using r4, headInv_passes_le hinv, ?_⟩
    intro hw
    obtain ⟨hin, -⟩ := outer_body_eq sort_cb fuel array.length hn hf st hinv hw
    have e2 : (2 * st.w) % UINT32_RANGE = 2 * st.w :=
      Nat.mod_eq_of_lt (by unfold UINT32_RANGE; omega)
    have hw30 : st.w ≤ 1073741824 := by
      rw [(hinv.running hw).2]
      exact two_pow_le_of_lt (by rw [← (hinv.running hw).2]; omega)
    refine ⟨e2, ?_, _, _, _, _, hin, rfl, ?_, ?_⟩
    · intro i hi
      rw [e2]
      exact ⟨Nat.mod_eq_of_lt (by unfold UINT32_RANGE; omega),
        Nat.mod_eq_of_lt (by unfold UINT32_RANGE; omega)⟩
    · split
      · exact Nat.mod_eq_of_lt (by unfold UINT32_RANGE; omega)
      · exact e2
    · intro he
      rw [if_pos he, Nat.mod_eq_of_lt (by unfold UINT32_RANGE; omega)]
      omega

/-- Witness of C18: `[2, 1, 3]` with a callback that fails on its third invocation. -/
theorem C18_uint32_and_termination_witness :
    (∃ res, ecma_builtin_helper_array_merge_sort_helper (failing_at 3 natCompare) 4
        [2, 1, 3] [2, 1, 3].length (fun _ => 0) 0 = .ok res ∧
      res.passes ≤ Nat.clog 2 [2, 1, 3].length) ∧
    ∀ m, ∃ st, loop_head (failing_at 3 natCompare) 4 [2, 1, 3].length m
        (initD [2, 1, 3] 0) = .ok st ∧
      st.passes ≤ m ∧ st.passes ≤ Nat.clog 2 [2, 1, 3].length ∧
      (st.w < [2, 1, 3].length →
        (2 * st.w) % UINT32_RANGE = 2 * st.w ∧
        (∀ i, i < [2, 1, 3].length → (i + st.w) % UINT32_RANGE = i + st.w ∧
          (i + (2 * st.w) % UINT32_RANGE) % UINT32_RANGE = i + 2 * st.w) ∧
        ∃ ret w1 dst1 t1,
          inner_loop (failing_at 3 natCompare) 4 (st.heap.read st.array_p) [2, 1, 3].length
            st.w 4 0 st.ret_value (st.heap.read st.array_copy_p) st.cb_state =
            .ok (ret, w1, dst1, t1) ∧
          w1 = (if ret = .ECMA_VALUE_ERROR then [2, 1, 3].length else st.w) ∧
          (2 * w1) % UINT32_RANGE = 2 * w1 ∧
          (ret = .ECMA_VALUE_ERROR → ¬ (2 * w1) % UINT32_RANGE < [2, 1, 3].length)) :=
  C18_uint32_and_termination (failing_at 3 natCompare) 4 [2, 1, 3] (fun _ => 0) 0
    (by decide) (by decide)

/-- C19 (exact comparator schedule of the merge step): at every state of the merge loop
(loop variable `k`, cursors `i <= iRight <= j <= iEnd`), run with the logging callback:
if the second run is not exhausted (`j < iEnd`) the first thing the loop does is the
invocation `sort_cb (array_a_p[i], array_a_p[j])`, also when `i = iRight`; if it is
exhausted, the loop makes no invocation at all and copies the rest of the first run.
From a state with the first run exhausted (`i = iRight`) the loop invokes the callback
once per remaining element of the second run, each time with `array_a_p[iRight]` as
first argument, and takes these elements in order whatever the answers are, until an
invocation fails, which ends the loop with `ECMA_VALUE_ERROR`.  Sorting `[1, 2]` with
a callback whose second invocation fails shows such a failure aborting the sort. -/
theorem C19_comparator_schedule (sort_cb : V → V → σ → Option Int × σ)
    (array_a_p : List V) (iRight iEnd fuel k i j : Nat) (array_b_p : List V) (s : σ)
    (log : List (V × V × Option Int))
    (hi : i ≤ iRight) (hj : iRight ≤ j) (hjE : j ≤ iEnd)
    (ha : iEnd ≤ array_a_p.length) (hb : iEnd ≤ array_b_p.length) (hU : iEnd < 4294967296)
    (hk : k + (iRight - i) + (iEnd - j) = iEnd) (hf : iEnd - k < fuel) :
    (∀ x y, j < iEnd → array_a_p[i]? = some x → array_a_p[j]? = some y →
      ∃ ret out t rest, merge_loop (logged sort_cb) array_a_p iRight iEnd fuel k i j array_b_p
          (s, log) = .ok (ret, out, (t, log ++ (x, y, (sort_cb x y s).1) :: rest))) ∧
    (j = iEnd →
      merge_loop (logged sort_cb) array_a_p iRight iEnd fuel k i j array_b_p (s, log) =
        .ok (.ECMA_VALUE_EMPTY,
          array_b_p.take k ++ seg array_a_p i iRight ++ array_b_p.drop iEnd, (s, log))) ∧
    (∀ p, i = iRight → array_a_p[iRight]? = some p →
      ∃ ret out t new wr, merge_loop (logged sort_cb) array_a_p iRight iEnd fuel k i j
          array_b_p (s, log) = .ok (ret, out, (t, log ++ new)) ∧
        out = array_b_p.take k ++ wr ++ array_b_p.drop (k + wr.length) ∧
        wr = (seg array_a_p j iEnd).take wr.length ∧
        new.map (fun e => (e.1, e.2.1)) =
          ((seg array_a_p j iEnd).take new.length).map (fun y => (p, y)) ∧
        (ret = .ECMA_VALUE_EMPTY → wr = seg array_a_p j iEnd ∧ new.length = iEnd - j) ∧
        (ret = .ECMA_VALUE_ERROR → new.length = wr.length + 1)) ∧
    ∃ res, ecma_builtin_helper_array_merge_sort_helper (logged (failing_at 2 natCompare)) 3
        [1, 2] 2 (fun _ => 0) (0, []) = .ok res ∧
      res.ret_value = .ECMA_VALUE_ERROR ∧
      res.cb_state.2 = [(1, 2, some (-1)), (2, 2, none)] := by
  have hU2 : iEnd < UINT32_RANGE := by unfold UINT32_RANGE; exact hU
  refine ⟨?_, ?_, ?_, _, rfl, rfl, rfl⟩
  · intro x y hjlt hx hy
    obtain ⟨p, hp⟩ : ∃ p, array_a_p[iRight]? = some p :=
      ⟨array_a_p.get ⟨iRight, by omega⟩, List.getElem?_eq_getElem _⟩
    obtain ⟨new, q1, -, -, q4⟩ := mergeL_schedule sort_cb p (seg array_a_p i iRight)
      (seg array_a_p j iEnd) (s, log)
    obtain ⟨rest, hrest⟩ := q4 y _ (seg_cons array_a_p hjlt hy)
    have hhead : (seg array_a_p i iRight).headD p = x := by
      by_cases hlt : i < iRight
      · rw [seg_cons array_a_p hlt hx]; rfl
      · have e : i = iRight := by omega
        rw [seg_nil_of_le array_a_p (by omega : iRight ≤ i)]
        rw [e, hp] at hx
        simpa using hx
    rw [hhead] at hrest
    refine ⟨(mergeL (logged sort_cb) p (seg array_a_p i iRight) (seg array_a_p j iEnd)
        (s, log)).1,
      array_b_p.take k ++ (mergeL (logged sort_cb) p (seg array_a_p i iRight)
        (seg array_a_p j iEnd) (s, log)).2.1 ++ array_b_p.drop (k + (mergeL (logged sort_cb) p
        (seg array_a_p i iRight) (seg array_a_p j iEnd) (s, log)).2.1.length),
      (mergeL (logged sort_cb) p (seg array_a_p i iRight) (seg array_a_p j iEnd)
      (s, log)).2.2.1, rest, ?_⟩
    rw [merge_loop_eq (logged sort_cb) array_a_p iRight iEnd p (fun _ => hp) ha hU2 fuel k i j
      array_b_p (s, log) hi hj hjE hb hk hf, ← hrest]
    simp only [] at q1
    rw [← q1]
  · intro hje
    have key : ∀ p, (iRight < iEnd → array_a_p[iRight]? = some p) →
        merge_loop (logged sort_cb) array_a_p iRight iEnd fuel k i j array_b_p (s, log) =
          .ok (.ECMA_VALUE_EMPTY,
            array_b_p.take k ++ seg array_a_p i iRight ++ array_b_p.drop iEnd, (s, log)) := by
      intro p hp
      rw [merge_loop_eq (logged sort_cb) array_a_p iRight iEnd p hp ha hU2 fuel k i j
        array_b_p (s, log) hi hj hjE hb hk hf, seg_nil_of_le array_a_p (by omega : iEnd ≤ j),
        mergeL.eq_1]
      simp only []
      rw [length_seg _ (by omega : iRight ≤ array_a_p.length)]
      have e : k + (iRight - i) = iEnd := by omega
      rw [e]
    by_cases hlt : iRight < iEnd
    · exact key (array_a_p.get ⟨iRight, by omega⟩) (fun _ => List.getElem?_eq_getElem _)
    · by_cases hlt2 : i < iRight
      · exact key (array_a_p.get ⟨i, by omega⟩) (fun h => absurd h hlt)
      · cases fuel with
        | zero => omega
        | succ fuel =>
          unfold merge_loop
          rw [if_neg (by omega), seg_nil_of_le array_a_p (by omega : iRight ≤ i)]
          have e : k = iEnd := by omega
          rw [e]
          simp
  · intro p hie hp
    obtain ⟨new, q1, q2, q3, q4, q5⟩ := mergeL_exhausted sort_cb p (seg array_a_p j iEnd) (s, log)
    refine ⟨(mergeL (logged sort_cb) p [] (seg array_a_p j iEnd) (s, log)).1,
      array_b_p.take k ++ (mergeL (logged sort_cb) p [] (seg array_a_p j iEnd) (s, log)).2.1 ++
        array_b_p.drop (k + (mergeL (logged sort_cb) p [] (seg array_a_p j iEnd)
          (s, log)).2.1.length),
      (mergeL (logged sort_cb) p [] (seg array_a_p j iEnd) (s, log)).2.2.1, new,
      (mergeL (logged sort_cb) p [] (seg array_a_p j iEnd) (s, log)).2.1, ?_, rfl, q2, q3, ?_, q5⟩
    · rw [merge_loop_eq (logged sort_cb) array_a_p iRight iEnd p (fun _ => hp) ha hU2 fuel k i j
        array_b_p (s, log) hi hj hjE hb hk hf, seg_nil_of_le array_a_p (by omega : iRight ≤ i)]
      simp only [] at q1
      rw [← q1]
    · intro hr
      obtain ⟨e1, e2⟩ := q4 hr
      exact ⟨e1, by rw [e2, length_seg _ ha]⟩

/-- Witness of C19: the state of the merge of `[1]` and `[2]` after `1` was written. -/
theorem C19_comparator_schedule_witness :
    (∀ x y, 1 < 2 → [1, 2][1]? = some x → [1, 2][1]? = some y →
      ∃ ret out t rest, merge_loop (logged (pure_cb natCompare)) [1, 2] 1 2 3 1 1 1 [1, 0]
          ((), []) = .ok (ret, out, (t, [] ++ (x, y, (pure_cb natCompare x y ()).1) :: rest))) ∧
    (1 = 2 →
      merge_loop (logged (pure_cb natCompare)) [1, 2] 1 2 3 1 1 1 [1, 0] ((), []) =
        .ok (.ECMA_VALUE_EMPTY, [1, 0].take 1 ++ seg [1, 2] 1 1 ++ [1, 0].drop 2, ((), []))) ∧
    (∀ p, 1 = 1 → [1, 2][1]? = some p →
      ∃ ret out t new wr, merge_loop (logged (pure_cb natCompare)) [1, 2] 1 2 3 1 1 1 [1, 0]
          ((), []) = .ok (ret, out, (t, [] ++ new)) ∧
        out = [1, 0].take 1 ++ wr ++ [1, 0].drop (1 + wr.length) ∧
        wr = (seg [1, 2] 1 2).take wr.length ∧
        new.map (fun e => (e.1, e.2.1)) =
          ((seg [1, 2] 1 2).take new.length).map (fun y => (p, y)) ∧
        (ret = .ECMA_VALUE_EMPTY → wr = seg [1, 2] 1 2 ∧ new.length = 2 - 1) ∧
        (ret = .ECMA_VALUE_ERROR → new.length = wr.length + 1)) ∧
    ∃ res, ecma_builtin_helper_array_merge_sort_helper (logged (failing_at 2 natCompare)) 3
        [1, 2] 2 (fun _ => 0) (0, []) = .ok res ∧
      res.ret_value = .ECMA_VALUE_ERROR ∧
      res.cb_state.2 = [(1, 2, some (-1)), (2, 2, none)] :=
  C19_comparator_schedule (pure_cb natCompare) [1, 2] 1 2 3 1 1 1 [1, 0] () []
    (by decide) (by decide) (by decide) (by decide) (by decide) (by decide) (by decide)
    (by decide)

/-- C20 (first invocation fails): on an array `x :: y :: rest` of fewer than `2 ^ 31`
elements, if the callback fails when invoked with `(x, y)` in its initial state, then
the driver, run with the invocations logged, returns `ECMA_VALUE_ERROR` after this
one invocation and one pass, the copy back from the scratch buffer is made, and the
caller's array is the input. -/
theorem C20_first_call_failure (sort_cb : V → V → σ → Option Int × σ)
    (fuel : Nat) (x y : V) (rest : List V) (junk : Nat → V) (s : σ)
    (hn : (x :: y :: rest).length < 2147483648) (hf : (x :: y :: rest).length < fuel)
    (hfail : (sort_cb x y s).1 = none) :
    ∃ res, ecma_builtin_helper_array_merge_sort_helper (logged sort_cb) fuel (x :: y :: rest)
        (x :: y :: rest).length junk (s, []) = .ok res ∧
      res.ret_value = .ECMA_VALUE_ERROR ∧
      res.array = x :: y :: rest ∧
      res.cb_state = ((sort_cb x y s).2, [(x, y, none)]) ∧
      res.passes = 1 ∧ res.copied_back = true := by
  have hm : mergeRuns (logged sort_cb) [x] [y] (s, []) =
      (.ECMA_VALUE_ERROR, [], ((sort_cb x y s).2, [(x, y, none)])) := by
    simp only [mergeRuns, mergeL.eq_3, logged, hfail, List.nil_append]
  have hp : passL (logged sort_cb) 1 (x :: y :: rest) (s, []) =
      (.ECMA_VALUE_ERROR, [], ((sort_cb x y s).2, [(x, y, none)])) := by
    rw [passL, dif_pos ⟨by decide, by simp⟩]
    simp only [List.take_succ_cons, List.take_zero, List.drop_succ_cons, List.drop_zero, hm]
  have hs : sortL (logged sort_cb) (x :: y :: rest).length 1 (initL (x :: y :: rest) (s, [])) =
      { src := x :: y :: rest, dst := x :: y :: rest, ret_value := .ECMA_VALUE_ERROR,
        cb_state := ((sort_cb x y s).2, [(x, y, none)]), passes := 1 } := by
    rw [sortL, dif_pos ⟨by decide, by simp⟩]
    simp only [initL, hp, if_true, splice_nil]
  refine ⟨_, merge_sort_helper_eq (logged sort_cb) fuel (x :: y :: rest) junk (s, []) hn hf,
    ?_, ?_, ?_, ?_, ?_⟩ <;> simp only [hs]
  rfl

/-- Witness of C20: `[2, 1, 3]` with a callback that fails on its first invocation. -/
theorem C20_first_call_failure_witness :
    ∃ res, ecma_builtin_helper_array_merge_sort_helper (logged (failing_at 1 natCompare)) 4
        (2 :: 1 :: [3]) (2 :: 1 :: [3]).length (fun _ => 0) (0, []) = .ok res ∧
      res.ret_value = .ECMA_VALUE_ERROR ∧
      res.array = 2 :: 1 :: [3] ∧
      res.cb_state = ((failing_at 1 natCompare 2 1 0).2, [(2, 1, none)]) ∧
      res.passes = 1 ∧ res.copied_back = true :=
  C20_first_call_failure (failing_at 1 natCompare) 4 2 1 [3] (fun _ => 0) 0
    (by decide) (by decide) rfl

end

end Jerry
